import Mathlib

/-!
# Verification of the TextMode reconciliation engine (svelte-jsoneditor)

A shallow embedding of `src/lib/components/modes/textmode/TextMode.svelte`:
the JSON data model, the JSON-Patch engine (`immutableJSONPatch` /
`revertJSONPatch`, modelled from the spec, the library is an external
dependency), a JSON serializer/parser pair (`JSON.stringify` / `JSON.parse`,
modelled from the spec, they are host builtins), and the change-coordination
state machine of the component (debounced widget updates, validation with
memoization, the structural commands format/compact/sort/transform/repair
and the exported `patch` function).
-/

set_option maxHeartbeats 1000000

namespace TextModeSpec

/-! ## JSON data model

JavaScript JSON values as produced by `JSON.parse`: numbers are modelled as
integers (the claims under verification are structural and do not depend on
non-integral numbers).  Arrays and objects are modelled by the mutual
inductives `JArr` and `JObj`; object members keep their insertion order,
exactly like JavaScript objects. -/

mutual

inductive JValue : Type where
  | null : JValue
  | bool : Bool → JValue
  | num : Int → JValue
  | str : String → JValue
  | arr : JArr → JValue
  | obj : JObj → JValue

inductive JArr : Type where
  | nil : JArr
  | cons : JValue → JArr → JArr

inductive JObj : Type where
  | nil : JObj
  | cons : String → JValue → JObj → JObj

end

namespace JArr

def length : JArr → Nat
  | .nil => 0
  | .cons _ rest => length rest + 1

def getAt : JArr → Nat → Option JValue
  | .nil, _ => none
  | .cons v _, 0 => some v
  | .cons _ rest, n + 1 => getAt rest n

def setAt : JArr → Nat → JValue → JArr
  | .nil, _, _ => .nil
  | .cons _ rest, 0, x => .cons x rest
  | .cons v rest, n + 1, x => .cons v (setAt rest n x)

/-- Insert `x` before position `n` (JavaScript `Array.prototype.splice`
insertion); for `n = length` this appends. -/
def insertAt : JArr → Nat → JValue → JArr
  | xs, 0, x => .cons x xs
  | .nil, _ + 1, x => .cons x .nil
  | .cons v rest, n + 1, x => .cons v (insertAt rest n x)

def removeAt : JArr → Nat → JArr
  | .nil, _ => .nil
  | .cons _ rest, 0 => rest
  | .cons v rest, n + 1 => .cons v (removeAt rest n)

end JArr

namespace JObj

/-- First-occurrence key lookup (JavaScript property access). -/
def lookup : JObj → String → Option JValue
  | .nil, _ => none
  | .cons k2 v rest, k => if k2 = k then some v else lookup rest k

def containsKey (o : JObj) (k : String) : Bool :=
  (lookup o k).isSome

/-- Replace the value of the first occurrence of `k`, keeping its position
(JavaScript assignment to an existing property). -/
def setVal : JObj → String → JValue → JObj
  | .nil, _, _ => .nil
  | .cons k2 v rest, k, x =>
      if k2 = k then .cons k2 x rest else .cons k2 v (setVal rest k x)

/-- Remove the first occurrence of `k` (JavaScript `delete`). -/
def removeKey : JObj → String → JObj
  | .nil, _ => .nil
  | .cons k2 v rest, k => if k2 = k then rest else .cons k2 v (removeKey rest k)

/-- Append a member at the end (JavaScript assignment to a fresh property). -/
def append : JObj → String → JValue → JObj
  | .nil, k, x => .cons k x .nil
  | .cons k2 v rest, k, x => .cons k2 v (append rest k x)

/-- JavaScript assignment `o[k] = x`: replace in place when the key exists,
append at the end otherwise. -/
def upsert (o : JObj) (k : String) (x : JValue) : JObj :=
  if o.containsKey k then o.setVal k x else o.append k x

end JObj

/-! ## Deep equality

`jeq` is JavaScript deep equality: structural on atoms and arrays,
order-insensitive key-wise comparison on objects. -/

mutual

def jeq : JValue → JValue → Bool
  | .null, .null => true
  | .bool a, .bool b => a == b
  | .num a, .num b => a == b
  | .str a, .str b => a == b
  | .arr as, .arr bs => jeqArr as bs
  | .obj as, .obj bs => jeqObjSub as bs && keysSub bs as
  | _, _ => false

def jeqArr : JArr → JArr → Bool
  | .nil, .nil => true
  | .cons a as, .cons b bs => jeq a b && jeqArr as bs
  | _, _ => false

/-- Every member of the first object has a `jeq`-equal value in the second. -/
def jeqObjSub : JObj → JObj → Bool
  | .nil, _ => true
  | .cons k v rest, bs =>
      (match bs.lookup k with
       | some w => jeq v w
       | none => false) && jeqObjSub rest bs

/-- Every key of the first object is present in the second. -/
def keysSub : JObj → JObj → Bool
  | .nil, _ => true
  | .cons k _ rest, bs => bs.containsKey k && keysSub rest bs

end

/-- `jeq` on optional values: both absent, or both present and `jeq`. -/
def optJeq : Option JValue → Option JValue → Bool
  | none, none => true
  | some a, some b => jeq a b
  | _, _ => false

/-! ## Unique keys

`JSON.parse` can only produce objects whose keys are pairwise distinct
(later duplicates in the source text overwrite earlier ones); `ukB` is that
invariant, stated recursively on the whole value. -/

mutual

def ukB : JValue → Bool
  | .null => true
  | .bool _ => true
  | .num _ => true
  | .str _ => true
  | .arr as => ukArr as
  | .obj ms => ukObj ms

def ukArr : JArr → Bool
  | .nil => true
  | .cons v rest => ukB v && ukArr rest

def ukObj : JObj → Bool
  | .nil => true
  | .cons k v rest => !rest.containsKey k && ukB v && ukObj rest

end

example : jeq (.obj (.cons "a" (.num 1) (.cons "b" .null .nil)))
              (.obj (.cons "b" .null (.cons "a" (.num 1) .nil))) = true := by decide

example : ukB (.obj (.cons "a" (.num 1) (.cons "a" (.num 2) .nil))) = false := by decide

/-! ## Induction principles

The spine of a `JObj` or `JArr` can be inducted on without motives for the
embedded `JValue`s; these eliminators let the `induction` tactic do that. -/

@[induction_eliminator]
theorem JObj.objSpine {P : JObj → Prop} (nil : P .nil)
    (cons : ∀ (k : String) (v : JValue) (rest : JObj), P rest → P (.cons k v rest)) :
    ∀ o, P o
  | .nil => nil
  | .cons k v rest => cons k v rest (JObj.objSpine nil cons rest)

@[induction_eliminator]
theorem JArr.arrSpine {P : JArr → Prop} (nil : P .nil)
    (cons : ∀ (v : JValue) (rest : JArr), P rest → P (.cons v rest)) :
    ∀ xs, P xs
  | .nil => nil
  | .cons v rest => cons v rest (JArr.arrSpine nil cons rest)

/-! ## Induction by size, and size of lookups -/

theorem measureInd {α : Sort u} (f : α → Nat) (P : α → Prop)
    (step : ∀ x, (∀ y, f y < f x → P y) → P x) : ∀ x, P x := by
  have h : ∀ n, ∀ y, f y < n → P y := by
    intro n
    induction n with
    | zero => intro y hy; omega
    | succ n ih => intro y hy; exact step y (fun z hz => ih z (by omega))
  exact fun x => step x (fun y hy => h (f x) y hy)

theorem JObj.sizeOf_lookup : ∀ (ms : JObj) (k : String) (v : JValue),
    ms.lookup k = some v → sizeOf v < sizeOf ms := by
  intro ms
  induction ms with
  | nil => intro k v h; simp [JObj.lookup] at h
  | cons k2 w rest ih =>
      intro k v h
      simp only [JObj.lookup] at h
      by_cases hk : k2 = k
      · simp [hk] at h; subst h; simp; omega
      · simp [hk] at h
        have := ih k v h
        simp; omega

theorem JArr.sizeOf_getAt : ∀ (xs : JArr) (n : Nat) (v : JValue),
    xs.getAt n = some v → sizeOf v < sizeOf xs := by
  intro xs
  induction xs with
  | nil => intro n v h; simp [JArr.getAt] at h
  | cons w rest ih =>
      intro n v h
      match n with
      | 0 => simp [JArr.getAt] at h; subst h; simp; omega
      | n + 1 =>
          simp only [JArr.getAt] at h
          have := ih n v h
          simp; omega

/-! ## Object operation lemmas -/

namespace JObj

theorem lookup_setVal_self : ∀ (o : JObj) (k : String) (x : JValue),
    o.containsKey k = true → (o.setVal k x).lookup k = some x := by
  intro o k x h
  induction o with
  | nil => simp [containsKey, lookup] at h
  | cons k2 v rest ih =>
      by_cases hk : k2 = k
      · simp [setVal, lookup, hk]
      · simp only [containsKey, lookup, hk, if_false] at h
        simp [setVal, lookup, hk, ih h]

theorem lookup_setVal_ne : ∀ (o : JObj) (k k2 : String) (x : JValue),
    k2 ≠ k → (o.setVal k x).lookup k2 = o.lookup k2 := by
  intro o k k2 x hne
  induction o with
  | nil => simp [setVal]
  | cons k3 v rest ih =>
      by_cases hk : k3 = k
      · subst hk
        simp [setVal, lookup, Ne.symm hne]
      · simp [setVal, lookup, hk, ih]

theorem containsKey_setVal : ∀ (o : JObj) (k k2 : String) (x : JValue),
    (o.setVal k x).containsKey k2 = o.containsKey k2 := by
  intro o k k2 x
  induction o with
  | nil => simp [setVal]
  | cons k3 v rest ih =>
      by_cases hk : k3 = k
      · subst hk
        by_cases h2 : k3 = k2 <;> simp [setVal, containsKey, lookup, h2]
      · by_cases h2 : k3 = k2
        · subst h2
          simp [setVal, containsKey, lookup, hk]
        · simp only [setVal, hk, if_false, containsKey, lookup, h2]
          simpa [containsKey] using ih

theorem setVal_setVal_cancel : ∀ (o : JObj) (k : String) (x old : JValue),
    o.lookup k = some old → (o.setVal k x).setVal k old = o := by
  intro o k x old h
  induction o with
  | nil => simp [lookup] at h
  | cons k2 v rest ih =>
      by_cases hk : k2 = k
      · simp only [lookup, hk, if_true] at h
        simp [setVal, hk, Option.some.injEq] at h ⊢
        exact h.symm
      · simp only [lookup, hk, if_false] at h
        simp [setVal, hk, ih h]

theorem removeKey_setVal : ∀ (o : JObj) (k : String) (x : JValue),
    (o.setVal k x).removeKey k = o.removeKey k := by
  intro o k x
  induction o with
  | nil => simp [setVal, removeKey]
  | cons k2 v rest ih =>
      by_cases hk : k2 = k <;> simp [setVal, removeKey, hk, ih]

theorem lookup_append_self : ∀ (o : JObj) (k : String) (x : JValue),
    o.containsKey k = false → (o.append k x).lookup k = some x := by
  intro o k x h
  induction o with
  | nil => simp [append, lookup]
  | cons k2 v rest ih =>
      simp only [containsKey, lookup] at h
      by_cases hk : k2 = k
      · simp [hk] at h
      · simp only [hk, if_false] at h
        simp [append, lookup, hk, ih (by simpa [containsKey] using h)]

theorem lookup_append_ne : ∀ (o : JObj) (k k2 : String) (x : JValue),
    k2 ≠ k → (o.append k x).lookup k2 = o.lookup k2 := by
  intro o k k2 x hne
  induction o with
  | nil => simp [append, lookup, Ne.symm hne]
  | cons k3 v rest ih =>
      by_cases h3 : k3 = k2 <;> simp [append, lookup, h3, ih]

theorem removeKey_append_fresh : ∀ (o : JObj) (k : String) (x : JValue),
    o.containsKey k = false → (o.append k x).removeKey k = o := by
  intro o k x h
  induction o with
  | nil => simp [append, removeKey]
  | cons k2 v rest ih =>
      simp only [containsKey, lookup] at h
      by_cases hk : k2 = k
      · simp [hk] at h
      · simp only [hk, if_false] at h
        simp [append, removeKey, hk, ih (by simpa [containsKey] using h)]

theorem lookup_removeKey_ne : ∀ (o : JObj) (k k2 : String),
    k2 ≠ k → (o.removeKey k).lookup k2 = o.lookup k2 := by
  intro o k k2 hne
  induction o with
  | nil => simp [removeKey]
  | cons k3 v rest ih =>
      by_cases hk : k3 = k
      · subst hk
        simp [removeKey, lookup, Ne.symm hne]
      · simp only [removeKey, hk, if_false, lookup]
        by_cases h2 : k3 = k2 <;> simp [h2, ih]

theorem containsKey_removeKey_self : ∀ (o : JObj) (k : String),
    ukObj o = true → (o.removeKey k).containsKey k = false := by
  intro o k h
  induction o with
  | nil => simp [removeKey, containsKey, lookup]
  | cons k2 v rest ih =>
      simp only [ukObj, Bool.and_eq_true, Bool.not_eq_true'] at h
      by_cases hk : k2 = k
      · subst hk; simpa [removeKey] using h.1.1
      · simp only [removeKey, hk, if_false, containsKey, lookup]
        simpa [containsKey, hk] using ih h.2

theorem lookup_ukB : ∀ (o : JObj) (k : String) (v : JValue),
    ukObj o = true → o.lookup k = some v → ukB v = true := by
  intro o k v h hl
  induction o with
  | nil => simp [lookup] at hl
  | cons k2 w rest ih =>
      simp only [ukObj, Bool.and_eq_true] at h
      simp only [lookup] at hl
      by_cases hk : k2 = k
      · simp [hk] at hl; subst hl; exact h.1.2
      · simp [hk] at hl; exact ih h.2 hl

theorem ukObj_setVal : ∀ (o : JObj) (k : String) (x : JValue),
    ukObj o = true → ukB x = true → ukObj (o.setVal k x) = true := by
  intro o k x h hx
  induction o with
  | nil => simp [setVal, ukObj]
  | cons k2 v rest ih =>
      simp only [ukObj, Bool.and_eq_true, Bool.not_eq_true'] at h
      by_cases hk : k2 = k
      · subst hk
        simp only [setVal, if_pos rfl, ukObj, Bool.and_eq_true, Bool.not_eq_true']
        exact ⟨⟨h.1.1, hx⟩, h.2⟩
      · simp only [setVal, hk, if_false, ukObj, Bool.and_eq_true,
          Bool.not_eq_true']
        exact ⟨⟨by simpa [containsKey_setVal] using h.1.1, h.1.2⟩, ih h.2⟩

theorem ukObj_removeKey : ∀ (o : JObj) (k : String),
    ukObj o = true → ukObj (o.removeKey k) = true := by
  intro o k h
  induction o with
  | nil => simp [removeKey, ukObj]
  | cons k2 v rest ih =>
      simp only [ukObj, Bool.and_eq_true, Bool.not_eq_true'] at h
      by_cases hk : k2 = k
      · simp only [removeKey, hk, if_true]; exact h.2
      · simp only [removeKey, hk, if_false, ukObj, Bool.and_eq_true,
          Bool.not_eq_true']
        refine ⟨⟨?_, h.1.2⟩, ih h.2⟩
        rw [containsKey, lookup_removeKey_ne rest k k2 hk]
        exact h.1.1

theorem ukObj_append_fresh : ∀ (o : JObj) (k : String) (x : JValue),
    ukObj o = true → ukB x = true → o.containsKey k = false →
    ukObj (o.append k x) = true := by
  intro o k x h hx hf
  induction o with
  | nil => simp [append, ukObj, containsKey, lookup, hx]
  | cons k2 v rest ih =>
      simp only [ukObj, Bool.and_eq_true, Bool.not_eq_true'] at h
      simp only [containsKey, lookup] at hf
      by_cases hk : k2 = k
      · simp [hk] at hf
      · simp only [hk, if_false] at hf
        simp only [append, ukObj, Bool.and_eq_true, Bool.not_eq_true']
        refine ⟨⟨?_, h.1.2⟩, ih h.2 (by simpa [containsKey] using hf)⟩
        rw [containsKey, lookup_append_ne rest k k2 x hk]
        exact h.1.1

end JObj

/-! ## Array operation lemmas -/

namespace JArr

theorem getAt_ukB : ∀ (xs : JArr) (n : Nat) (v : JValue),
    ukArr xs = true → xs.getAt n = some v → ukB v = true := by
  intro xs
  induction xs with
  | nil => intro n v _ h; simp [getAt] at h
  | cons w rest ih =>
      intro n v hu h
      simp only [ukArr, Bool.and_eq_true] at hu
      match n with
      | 0 => simp [getAt] at h; subst h; exact hu.1
      | n + 1 => exact ih n v hu.2 h

theorem getAt_some_iff_lt : ∀ (xs : JArr) (n : Nat),
    (xs.getAt n).isSome = true ↔ n < xs.length := by
  intro xs
  induction xs with
  | nil => intro n; simp [getAt, length]
  | cons w rest ih =>
      intro n
      match n with
      | 0 => simp [getAt, length]
      | n + 1 => simp only [getAt, length]; rw [ih]; omega

end JArr

/-! ## Deep-equality lemmas -/

theorem jeqObjSub_lookup : ∀ (as bs : JObj) (k : String) (v : JValue),
    jeqObjSub as bs = true → as.lookup k = some v →
    ∃ w, bs.lookup k = some w ∧ jeq v w = true := by
  intro as
  induction as with
  | nil => intro bs k v _ h; simp [JObj.lookup] at h
  | cons k2 v2 rest ih =>
      intro bs k v hj h
      simp only [jeqObjSub, Bool.and_eq_true] at hj
      simp only [JObj.lookup] at h
      by_cases hk : k2 = k
      · simp only [hk, if_true, Option.some.injEq] at h
        subst h; subst hk
        obtain ⟨w, hw⟩ : ∃ w, bs.lookup k2 = some w := by
          cases hbs : bs.lookup k2 with
          | none => rw [hbs] at hj; simp at hj
          | some w => exact ⟨w, rfl⟩
        refine ⟨w, hw, ?_⟩
        have := hj.1
        rw [hw] at this
        simpa using this
      · simp only [hk, if_false] at h
        exact ih bs k v hj.2 h

theorem keysSub_lookup : ∀ (bs as : JObj) (k : String),
    keysSub bs as = true → bs.containsKey k = true → as.containsKey k = true := by
  intro bs
  induction bs with
  | nil => intro as k _ h; simp [JObj.containsKey, JObj.lookup] at h
  | cons k2 w rest ih =>
      intro as k hs hc
      simp only [keysSub, Bool.and_eq_true] at hs
      simp only [JObj.containsKey, JObj.lookup] at hc
      by_cases hk : k2 = k
      · subst hk; exact hs.1
      · simp only [hk, if_false] at hc
        exact ih as k hs.2 hc

theorem keysSub_intro : ∀ (bs as : JObj),
    (∀ k, bs.containsKey k = true → as.containsKey k = true) →
    keysSub bs as = true := by
  intro bs
  induction bs with
  | nil => intro as _; rfl
  | cons k2 w rest ih =>
      intro as h
      simp only [keysSub, Bool.and_eq_true]
      constructor
      · exact h k2 (by simp [JObj.containsKey, JObj.lookup])
      · refine ih as (fun k hc => h k ?_)
        simp only [JObj.containsKey, JObj.lookup]
        by_cases hk : k2 = k <;> simp [hk]
        simpa [JObj.containsKey] using hc

theorem jeqObjSub_intro : ∀ (ms bs : JObj),
    ukObj ms = true →
    (∀ k v, ms.lookup k = some v → ∃ w, bs.lookup k = some w ∧ jeq v w = true) →
    jeqObjSub ms bs = true := by
  intro ms
  induction ms with
  | nil => intro bs _ _; rfl
  | cons k2 v2 rest ih =>
      intro bs hu h
      simp only [ukObj, Bool.and_eq_true, Bool.not_eq_true'] at hu
      simp only [jeqObjSub, Bool.and_eq_true]
      obtain ⟨w, hw, hvw⟩ := h k2 v2 (by simp [JObj.lookup])
      refine ⟨by rw [hw]; simpa using hvw, ?_⟩
      refine ih bs hu.2 (fun k v hl => h k v ?_)
      have hk : k2 ≠ k := by
        intro hkk
        subst hkk
        have := hu.1.1
        simp [JObj.containsKey, hl] at this
      simp [JObj.lookup, hk, hl]

theorem jeq_obj_elim : ∀ (as bs : JObj),
    jeq (.obj as) (.obj bs) = true →
    ∀ k, optJeq (as.lookup k) (bs.lookup k) = true := by
  intro as bs h k
  have h' : jeqObjSub as bs = true ∧ keysSub bs as = true := by
    simpa [jeq, Bool.and_eq_true] using h
  cases ha : as.lookup k with
  | some v =>
      obtain ⟨w, hw, hvw⟩ := jeqObjSub_lookup as bs k v h'.1 ha
      simp [optJeq, hw, hvw]
  | none =>
      cases hb : bs.lookup k with
      | none => simp [optJeq]
      | some w =>
          have := keysSub_lookup bs as k h'.2 (by simp [JObj.containsKey, hb])
          simp [JObj.containsKey, ha] at this

theorem jeq_obj_intro : ∀ (as bs : JObj),
    ukObj as = true →
    (∀ k, optJeq (as.lookup k) (bs.lookup k) = true) →
    jeq (.obj as) (.obj bs) = true := by
  intro as bs hu h
  have h1 : jeqObjSub as bs = true := by
    refine jeqObjSub_intro as bs hu (fun k v hl => ?_)
    have := h k
    rw [hl] at this
    cases hb : bs.lookup k with
    | none => rw [hb] at this; simp [optJeq] at this
    | some w => rw [hb] at this; exact ⟨w, rfl, by simpa [optJeq] using this⟩
  have h2 : keysSub bs as = true := by
    refine keysSub_intro bs as (fun k hc => ?_)
    have := h k
    cases ha : as.lookup k with
    | some v => simp [JObj.containsKey, ha]
    | none =>
        rw [ha] at this
        cases hb : bs.lookup k with
        | none => simp [JObj.containsKey, hb] at hc
        | some w => rw [hb] at this; simp [optJeq] at this
  simp [jeq, h1, h2]

theorem jeqArr_length : ∀ (as bs : JArr),
    jeqArr as bs = true → as.length = bs.length := by
  intro as
  induction as with
  | nil => intro bs h; cases bs with
      | nil => rfl
      | cons b bs2 => simp [jeqArr] at h
  | cons a rest ih =>
      intro bs h
      cases bs with
      | nil => simp [jeqArr] at h
      | cons b bs2 =>
          simp only [jeqArr, Bool.and_eq_true] at h
          simp [JArr.length, ih bs2 h.2]

theorem jeqArr_getAt : ∀ (as bs : JArr) (n : Nat),
    jeqArr as bs = true → optJeq (as.getAt n) (bs.getAt n) = true := by
  intro as
  induction as with
  | nil => intro bs n h; cases bs with
      | nil => simp [JArr.getAt, optJeq]
      | cons b bs2 => simp [jeqArr] at h
  | cons a rest ih =>
      intro bs n h
      cases bs with
      | nil => simp [jeqArr] at h
      | cons b bs2 =>
          simp only [jeqArr, Bool.and_eq_true] at h
          match n with
          | 0 => simpa [JArr.getAt, optJeq] using h.1
          | n + 1 => exact ih bs2 n h.2

theorem jeqArr_intro : ∀ (as bs : JArr),
    as.length = bs.length →
    (∀ n, optJeq (as.getAt n) (bs.getAt n) = true) →
    jeqArr as bs = true := by
  intro as
  induction as with
  | nil => intro bs hl _; cases bs with
      | nil => rfl
      | cons b bs2 => simp [JArr.length] at hl
  | cons a rest ih =>
      intro bs hl h
      cases bs with
      | nil => simp [JArr.length] at hl
      | cons b bs2 =>
          simp only [jeqArr, Bool.and_eq_true]
          constructor
          · have := h 0; simpa [JArr.getAt, optJeq] using this
          · exact ih bs2 (by simpa [JArr.length] using hl) (fun n => h (n + 1))

theorem jeq_refl : ∀ (v : JValue), ukB v = true → jeq v v = true := by
  refine measureInd sizeOf _ ?_
  intro v ih hu
  cases v with
  | null => rfl
  | bool b => simp [jeq]
  | num n => simp [jeq]
  | str s => simp [jeq]
  | arr as =>
      have h : jeqArr as as = true := by
        refine jeqArr_intro as as rfl (fun n => ?_)
        cases hg : as.getAt n with
        | none => simp [optJeq]
        | some v2 =>
            have hs : sizeOf v2 < sizeOf (JValue.arr as) := by
              have := JArr.sizeOf_getAt as n v2 hg
              simp only [JValue.arr.sizeOf_spec]; omega
            have hu2 : ukB v2 = true :=
              JArr.getAt_ukB as n v2 (by simpa [ukB] using hu) hg
            simpa [optJeq] using ih v2 hs hu2
      simpa [jeq] using h
  | obj ms =>
      refine jeq_obj_intro ms ms (by simpa [ukB] using hu) (fun k => ?_)
      cases hg : ms.lookup k with
      | none => simp [optJeq]
      | some v2 =>
          have hs : sizeOf v2 < sizeOf (JValue.obj ms) := by
            have := JObj.sizeOf_lookup ms k v2 hg
            simp only [JValue.obj.sizeOf_spec]; omega
          have hu2 : ukB v2 = true :=
            JObj.lookup_ukB ms k v2 (by simpa [ukB] using hu) hg
          simpa [optJeq] using ih v2 hs hu2

theorem jeq_symm : ∀ (b : JValue), ukB b = true →
    ∀ a, jeq a b = true → jeq b a = true := by
  refine measureInd sizeOf _ ?_
  intro b ih hub a hab
  cases a with
  | null => cases b <;> first | rfl | simp [jeq] at hab
  | bool x => cases b <;> simp_all [jeq]
  | num x => cases b <;> simp_all [jeq]
  | str x => cases b <;> simp_all [jeq]
  | arr as =>
      cases b with
      | arr bs =>
          have h : jeqArr as bs = true := by simpa [jeq] using hab
          have hlen := jeqArr_length as bs h
          have h2 : jeqArr bs as = true := by
            refine jeqArr_intro bs as hlen.symm (fun n => ?_)
            have hpt := jeqArr_getAt as bs n h
            cases ha : as.getAt n with
            | none =>
                rw [ha] at hpt
                cases hb : bs.getAt n with
                | none => simp [optJeq]
                | some w => rw [hb] at hpt; simp [optJeq] at hpt
            | some v =>
                rw [ha] at hpt
                cases hb : bs.getAt n with
                | none => rw [hb] at hpt; simp [optJeq] at hpt
                | some w =>
                    rw [hb] at hpt
                    simp only [optJeq] at hpt ⊢
                    have hs : sizeOf w < sizeOf (JValue.arr bs) := by
                      have := JArr.sizeOf_getAt bs n w hb
                      simp only [JValue.arr.sizeOf_spec]; omega
                    have huw : ukB w = true :=
                      JArr.getAt_ukB bs n w (by simpa [ukB] using hub) hb
                    exact ih w hs huw v hpt
          simpa [jeq] using h2
      | null => simp [jeq] at hab
      | bool _ => simp [jeq] at hab
      | num _ => simp [jeq] at hab
      | str _ => simp [jeq] at hab
      | obj _ => simp [jeq] at hab
  | obj as =>
      cases b with
      | obj bs =>
          refine jeq_obj_intro bs as (by simpa [ukB] using hub) (fun k => ?_)
          have hpt := jeq_obj_elim as bs hab k
          cases ha : as.lookup k with
          | none =>
              rw [ha] at hpt
              cases hb : bs.lookup k with
              | none => simp [optJeq]
              | some w => rw [hb] at hpt; simp [optJeq] at hpt
          | some v =>
              rw [ha] at hpt
              cases hb : bs.lookup k with
              | none => rw [hb] at hpt; simp [optJeq] at hpt
              | some w =>
                  rw [hb] at hpt
                  simp only [optJeq] at hpt ⊢
                  have hs : sizeOf w < sizeOf (JValue.obj bs) := by
                    have := JObj.sizeOf_lookup bs k w hb
                    simp only [JValue.obj.sizeOf_spec]; omega
                  have huw : ukB w = true :=
                    JObj.lookup_ukB bs k w (by simpa [ukB] using hub) hb
                  exact ih w hs huw v hpt
      | null => simp [jeq] at hab
      | bool _ => simp [jeq] at hab
      | num _ => simp [jeq] at hab
      | str _ => simp [jeq] at hab
      | arr _ => simp [jeq] at hab

theorem jeq_trans : ∀ (b : JValue), ∀ a c,
    jeq a b = true → jeq b c = true → jeq a c = true := by
  refine measureInd sizeOf _ ?_
  intro b ih a c hab hbc
  cases b with
  | null => cases a <;> simp [jeq] at hab; cases c <;> simp [jeq] at hbc; rfl
  | bool x =>
      cases a <;> simp [jeq] at hab
      cases c <;> simp [jeq] at hbc
      simp [jeq, hab, hbc]
  | num x =>
      cases a <;> simp [jeq] at hab
      cases c <;> simp [jeq] at hbc
      simp [jeq, hab, hbc]
  | str x =>
      cases a <;> simp [jeq] at hab
      cases c <;> simp [jeq] at hbc
      simp [jeq, hab, hbc]
  | arr bs =>
      cases a with
      | arr as =>
          cases c with
          | arr cs =>
              have h1 : jeqArr as bs = true := by simpa [jeq] using hab
              have h2 : jeqArr bs cs = true := by simpa [jeq] using hbc
              have h3 : jeqArr as cs = true := by
                refine jeqArr_intro as cs
                  ((jeqArr_length as bs h1).trans (jeqArr_length bs cs h2)) (fun n => ?_)
                have p1 := jeqArr_getAt as bs n h1
                have p2 := jeqArr_getAt bs cs n h2
                cases hb : bs.getAt n with
                | none =>
                    rw [hb] at p1 p2
                    cases ha : as.getAt n with
                    | some v => rw [ha] at p1; simp [optJeq] at p1
                    | none =>
                        cases hc : cs.getAt n with
                        | some u => rw [hc] at p2; simp [optJeq] at p2
                        | none => simp [optJeq]
                | some w =>
                    rw [hb] at p1 p2
                    cases ha : as.getAt n with
                    | none => rw [ha] at p1; simp [optJeq] at p1
                    | some v =>
                        rw [ha] at p1
                        cases hc : cs.getAt n with
                        | none => rw [hc] at p2; simp [optJeq] at p2
                        | some u =>
                            rw [hc] at p2
                            simp only [optJeq] at p1 p2 ⊢
                            have hs : sizeOf w < sizeOf (JValue.arr bs) := by
                              have := JArr.sizeOf_getAt bs n w hb
                              simp only [JValue.arr.sizeOf_spec]; omega
                            exact ih w hs v u p1 p2
              simpa [jeq] using h3
          | null => simp [jeq] at hbc
          | bool _ => simp [jeq] at hbc
          | num _ => simp [jeq] at hbc
          | str _ => simp [jeq] at hbc
          | obj _ => simp [jeq] at hbc
      | null => simp [jeq] at hab
      | bool _ => simp [jeq] at hab
      | num _ => simp [jeq] at hab
      | str _ => simp [jeq] at hab
      | obj _ => simp [jeq] at hab
  | obj bs =>
      cases a with
      | obj as =>
          cases c with
          | obj cs =>
              have h3 : ∀ k, optJeq (as.lookup k) (cs.lookup k) = true := by
                intro k
                have p1 := jeq_obj_elim as bs hab k
                have p2 := jeq_obj_elim bs cs hbc k
                cases hb : bs.lookup k with
                | none =>
                    rw [hb] at p1 p2
                    cases ha : as.lookup k with
                    | some v => rw [ha] at p1; simp [optJeq] at p1
                    | none =>
                        cases hc : cs.lookup k with
                        | some u => rw [hc] at p2; simp [optJeq] at p2
                        | none => simp [optJeq]
                | some w =>
                    rw [hb] at p1 p2
                    cases ha : as.lookup k with
                    | none => rw [ha] at p1; simp [optJeq] at p1
                    | some v =>
                        rw [ha] at p1
                        cases hc : cs.lookup k with
                        | none => rw [hc] at p2; simp [optJeq] at p2
                        | some u =>
                            rw [hc] at p2
                            simp only [optJeq] at p1 p2 ⊢
                            have hs : sizeOf w < sizeOf (JValue.obj bs) := by
                              have := JObj.sizeOf_lookup bs k w hb
                              simp only [JValue.obj.sizeOf_spec]; omega
                            exact ih w hs v u p1 p2
              -- rebuild the object-level equality: per-member facts of
              -- `as` against `bs`, then the pointwise step from `bs` to `cs`
              have hbc2 : ∀ k, optJeq (bs.lookup k) (cs.lookup k) = true :=
                jeq_obj_elim bs cs hbc
              have hsub : jeqObjSub as cs = true := by
                have hab' : jeqObjSub as bs = true := by
                  have := hab; simp only [jeq, Bool.and_eq_true] at this; exact this.1
                clear hab hbc h3
                revert hab'
                induction as with
                | nil => intro _; rfl
                | cons k v rest ihs =>
                    intro hab'
                    simp only [jeqObjSub, Bool.and_eq_true] at hab' ⊢
                    refine ⟨?_, ihs hab'.2⟩
                    have hw := hab'.1
                    cases hbk : bs.lookup k with
                    | none => rw [hbk] at hw; simp at hw
                    | some w =>
                        rw [hbk] at hw
                        simp only at hw
                        have hpt := hbc2 k
                        rw [hbk] at hpt
                        cases hck : cs.lookup k with
                        | none => rw [hck] at hpt; simp [optJeq] at hpt
                        | some u =>
                            rw [hck] at hpt
                            simp only [optJeq] at hpt
                            have hs : sizeOf w < sizeOf (JValue.obj bs) := by
                              have := JObj.sizeOf_lookup bs k w hbk
                              simp only [JValue.obj.sizeOf_spec]; omega
                            simp only [ih w hs v u hw hpt]
              have hks : keysSub cs as = true := by
                refine keysSub_intro cs as (fun k hc => ?_)
                have := h3 k
                cases ha : as.lookup k with
                | some v => simp [JObj.containsKey, ha]
                | none =>
                    rw [ha] at this
                    cases hcc : cs.lookup k with
                    | none => simp [JObj.containsKey, hcc] at hc
                    | some u => rw [hcc] at this; simp [optJeq] at this
              simp [jeq, hsub, hks]
          | null => simp [jeq] at hbc
          | bool _ => simp [jeq] at hbc
          | num _ => simp [jeq] at hbc
          | str _ => simp [jeq] at hbc
          | arr _ => simp [jeq] at hbc
      | null => simp [jeq] at hab
      | bool _ => simp [jeq] at hab
      | num _ => simp [jeq] at hab
      | str _ => simp [jeq] at hab
      | arr _ => simp [jeq] at hab

/-! ## JSON Patch engine

Modelled from the spec: the low-level JSON-patch-apply and inverse-patch
primitives (`immutableJSONPatch`, `revertJSONPatch` of the external
`immutable-json-patch` package) are consumed by `TextMode.svelte` as
black-box pure functions; the spec describes them as an ordered sequence of
add/remove/replace/move/copy/test operations targeting paths, where applying
is pure and every applied patch document has a computable inverse that
undoes it against the original value. -/

inductive Seg where
  | key : String → Seg
  | idx : Nat → Seg
deriving DecidableEq

abbrev Path := List Seg

/-- Resolve a path to the value it points at. -/
def getJ : JValue → Path → Option JValue
  | v, [] => some v
  | .obj ms, .key k :: p =>
      match ms.lookup k with
      | some c => getJ c p
      | none => none
  | .arr xs, .idx n :: p =>
      match xs.getAt n with
      | some c => getJ c p
      | none => none
  | _, _ => none

/-- Navigate to the parent container of a non-empty path, returning the
final segment together with that container. -/
def navParent : JValue → Path → Option (Seg × JValue)
  | _, [] => none
  | v, [s] => some (s, v)
  | .obj ms, .key k :: rest@(_ :: _) =>
      match ms.lookup k with
      | some c => navParent c rest
      | none => none
  | .arr xs, .idx n :: rest@(_ :: _) =>
      match xs.getAt n with
      | some c => navParent c rest
      | none => none
  | _, _ => none

/-- The immediate child of a container selected by one segment. -/
def childAt : Seg → JValue → Option JValue
  | .key k, .obj ms => ms.lookup k
  | .idx n, .arr xs => xs.getAt n
  | _, _ => none

/-- Navigate to the parent container of a non-empty path and rewrite it with
`fin`; every container along the way is rebuilt in place. -/
def navEdit (fin : Seg → JValue → Option JValue) : JValue → Path → Option JValue
  | _, [] => none
  | v, [s] => fin s v
  | .obj ms, .key k :: rest@(_ :: _) =>
      match ms.lookup k with
      | some c =>
          match navEdit fin c rest with
          | some c2 => some (.obj (ms.setVal k c2))
          | none => none
      | none => none
  | .arr xs, .idx n :: rest@(_ :: _) =>
      match xs.getAt n with
      | some c =>
          match navEdit fin c rest with
          | some c2 => some (.arr (xs.setAt n c2))
          | none => none
      | none => none
  | _, _ => none

/-- Final step of a JSON Patch `add`: insert before an array index
(index ≤ length) or add-or-replace an object member. -/
def addFin (x : JValue) : Seg → JValue → Option JValue
  | .key k, .obj ms => some (.obj (ms.upsert k x))
  | .idx n, .arr xs =>
      if n ≤ xs.length then some (.arr (xs.insertAt n x)) else none
  | _, _ => none

/-- Final step of a JSON Patch `replace`: the member or element must exist. -/
def replaceFin (x : JValue) : Seg → JValue → Option JValue
  | .key k, .obj ms =>
      if ms.containsKey k then some (.obj (ms.setVal k x)) else none
  | .idx n, .arr xs =>
      if n < xs.length then some (.arr (xs.setAt n x)) else none
  | _, _ => none

/-- Final step of a JSON Patch `remove`: the member or element must exist. -/
def removeFin : Seg → JValue → Option JValue
  | .key k, .obj ms =>
      if ms.containsKey k then some (.obj (ms.removeKey k)) else none
  | .idx n, .arr xs =>
      if n < xs.length then some (.arr (xs.removeAt n)) else none
  | _, _ => none

/-- JSON Patch `add`; at the empty path it replaces the whole document. -/
def addJ (v : JValue) (p : Path) (x : JValue) : Option JValue :=
  match p with
  | [] => some x
  | _ => navEdit (addFin x) v p

/-- JSON Patch `replace`; at the empty path it replaces the whole document. -/
def replaceJ (v : JValue) (p : Path) (x : JValue) : Option JValue :=
  match p with
  | [] => some x
  | _ => navEdit (replaceFin x) v p

/-- JSON Patch `remove`; the whole document cannot be removed. -/
def removeJ (v : JValue) (p : Path) : Option JValue :=
  match p with
  | [] => none
  | _ => navEdit removeFin v p

/-- Whether an `add` at this path overwrites an existing value (object member
replace, or whole-document replace) rather than inserting a new one. -/
def addReplaces (v : JValue) (p : Path) : Bool :=
  match p with
  | [] => true
  | _ =>
      match navParent v p with
      | some (.key k, .obj ms) => ms.containsKey k
      | _ => false

inductive Op where
  | add : Path → JValue → Op
  | remove : Path → Op
  | replace : Path → JValue → Op
  | move : Path → Path → Op
  | copy : Path → Path → Op
  | test : Path → JValue → Op

/-- One JSON Patch operation (`move` is remove-then-add, a `move` onto
itself is the identity, `test` compares by deep equality). -/
def applyOp (v : JValue) : Op → Option JValue
  | .add p x => addJ v p x
  | .remove p => removeJ v p
  | .replace p x => replaceJ v p x
  | .move f t =>
      if f = t then some v
      else
        match getJ v f with
        | some x =>
            match removeJ v f with
            | some v1 => addJ v1 t x
            | none => none
        | none => none
  | .copy f t =>
      match getJ v f with
      | some x => addJ v t x
      | none => none
  | .test p x =>
      match getJ v p with
      | some y => if jeq y x then some v else none
      | none => none

/-- `immutableJSONPatch`: apply the operations of a patch document in order. -/
def applyPatch : JValue → List Op → Option JValue
  | v, [] => some v
  | v, o :: os =>
      match applyOp v o with
      | some v2 => applyPatch v2 os
      | none => none

/-- Inverse of an `add` at path `p`, computed against the document as it was
before the add. -/
def revertAdd (v : JValue) (p : Path) : Option (List Op) :=
  if addReplaces v p then
    match getJ v p with
    | some old => some [.replace p old]
    | none => none
  else some [.remove p]

/-- Inverse of a single operation, computed against the document as it was
before the operation was applied. -/
def revertOps (v : JValue) : Op → Option (List Op)
  | .add p _ => revertAdd v p
  | .remove p =>
      match getJ v p with
      | some old => some [.add p old]
      | none => none
  | .replace p _ =>
      match getJ v p with
      | some old => some [.replace p old]
      | none => none
  | .move f t =>
      if f = t then some []
      else
        match getJ v f with
        | some x =>
            match removeJ v f with
            | some v1 =>
                match revertAdd v1 t with
                | some r => some (r ++ [.add f x])
                | none => none
            | none => none
        | none => none
  | .copy _ t => revertAdd v t
  | .test _ _ => some []

/-- `revertJSONPatch`: the inverse of a patch document, computed against the
pre-patch document; the inverse of each operation is computed against the
intermediate document it applied to, and prepended, so the whole inverse
undoes the operations in reverse order. -/
def revertPatch : JValue → List Op → Option (List Op)
  | _, [] => some []
  | v, o :: os =>
      match revertOps v o, applyOp v o with
      | some r, some v2 =>
          match revertPatch v2 os with
          | some rs => some (rs ++ r)
          | none => none
      | _, _ => none

/-- Payloads entering the document through an operation have unique keys
(JavaScript objects cannot carry duplicate keys). -/
def ukOp : Op → Bool
  | .add _ x => ukB x
  | .replace _ x => ukB x
  | _ => true

/-! ## Array lemmas for the patch engine -/

namespace JArr

theorem getAt_insertAt_self : ∀ (xs : JArr) (n : Nat) (x : JValue),
    n ≤ xs.length → (xs.insertAt n x).getAt n = some x := by
  intro xs
  induction xs with
  | nil =>
      intro n x h
      simp only [length] at h
      have : n = 0 := by omega
      subst this
      simp [insertAt, getAt]
  | cons v rest ih =>
      intro n x h
      match n with
      | 0 => simp [insertAt, getAt]
      | n + 1 =>
          simp only [length] at h
          simp only [insertAt, getAt]
          exact ih n x (by omega)

theorem removeAt_insertAt : ∀ (xs : JArr) (n : Nat) (x : JValue),
    n ≤ xs.length → (xs.insertAt n x).removeAt n = xs := by
  intro xs
  induction xs with
  | nil =>
      intro n x h
      simp only [length] at h
      have : n = 0 := by omega
      subst this
      simp [insertAt, removeAt]
  | cons v rest ih =>
      intro n x h
      match n with
      | 0 => simp [insertAt, removeAt]
      | n + 1 =>
          simp only [length] at h
          simp only [insertAt, removeAt]
          rw [ih n x (by omega)]

theorem insertAt_removeAt : ∀ (xs : JArr) (n : Nat) (y : JValue),
    xs.getAt n = some y → (xs.removeAt n).insertAt n y = xs := by
  intro xs
  induction xs with
  | nil => intro n y h; simp [getAt] at h
  | cons v rest ih =>
      intro n y h
      match n with
      | 0 =>
          simp only [getAt, Option.some.injEq] at h
          subst h
          simp [removeAt, insertAt]
      | n + 1 =>
          simp only [getAt] at h
          simp only [removeAt, insertAt]
          rw [ih n y h]

theorem getAt_setAt_self : ∀ (xs : JArr) (n : Nat) (x : JValue),
    n < xs.length → (xs.setAt n x).getAt n = some x := by
  intro xs
  induction xs with
  | nil => intro n x h; simp [length] at h
  | cons v rest ih =>
      intro n x h
      match n with
      | 0 => simp [setAt, getAt]
      | n + 1 =>
          simp only [length] at h
          simp only [setAt, getAt]
          exact ih n x (by omega)

theorem setAt_setAt_cancel : ∀ (xs : JArr) (n : Nat) (x old : JValue),
    xs.getAt n = some old → (xs.setAt n x).setAt n old = xs := by
  intro xs
  induction xs with
  | nil => intro n x old h; simp [getAt] at h
  | cons v rest ih =>
      intro n x old h
      match n with
      | 0 =>
          simp only [getAt, Option.some.injEq] at h
          subst h
          simp [setAt]
      | n + 1 =>
          simp only [getAt] at h
          simp only [setAt]
          rw [ih n x old h]

theorem length_setAt : ∀ (xs : JArr) (n : Nat) (x : JValue),
    (xs.setAt n x).length = xs.length := by
  intro xs
  induction xs with
  | nil => intro n x; simp [setAt]
  | cons v rest ih =>
      intro n x
      match n with
      | 0 => simp [setAt, length]
      | n + 1 => simp [setAt, length, ih]

theorem getAt_setAt : ∀ (xs : JArr) (n : Nat) (x : JValue),
    n < xs.length → (xs.setAt n x).getAt n = some x := getAt_setAt_self

theorem ukArr_setAt : ∀ (xs : JArr) (n : Nat) (x : JValue),
    ukArr xs = true → ukB x = true → ukArr (xs.setAt n x) = true := by
  intro xs
  induction xs with
  | nil => intro n x h _; simpa [setAt] using h
  | cons v rest ih =>
      intro n x h hx
      simp only [ukArr, Bool.and_eq_true] at h
      match n with
      | 0 => simp only [setAt, ukArr, Bool.and_eq_true]; exact ⟨hx, h.2⟩
      | n + 1 =>
          simp only [setAt, ukArr, Bool.and_eq_true]
          exact ⟨h.1, ih n x h.2 hx⟩

theorem ukArr_insertAt : ∀ (xs : JArr) (n : Nat) (x : JValue),
    ukArr xs = true → ukB x = true → ukArr (xs.insertAt n x) = true := by
  intro xs
  induction xs with
  | nil =>
      intro n x h hx
      match n with
      | 0 => simp [insertAt, ukArr, hx]
      | n + 1 => simp [insertAt, ukArr, hx]
  | cons v rest ih =>
      intro n x h hx
      simp only [ukArr, Bool.and_eq_true] at h
      match n with
      | 0 => simp only [insertAt, ukArr, Bool.and_eq_true]
             exact ⟨hx, h.1, h.2⟩
      | n + 1 =>
          simp only [insertAt, ukArr, Bool.and_eq_true]
          exact ⟨h.1, ih n x h.2 hx⟩

theorem ukArr_removeAt : ∀ (xs : JArr) (n : Nat),
    ukArr xs = true → ukArr (xs.removeAt n) = true := by
  intro xs
  induction xs with
  | nil => intro n h; simpa [removeAt] using h
  | cons v rest ih =>
      intro n h
      simp only [ukArr, Bool.and_eq_true] at h
      match n with
      | 0 => simpa [removeAt] using h.2
      | n + 1 =>
          simp only [removeAt, ukArr, Bool.and_eq_true]
          exact ⟨h.1, ih n h.2⟩

end JArr

/-! ## Deep-equality congruences for array edits -/

theorem jeqArr_setAt : ∀ (as bs : JArr) (n : Nat) (x y : JValue),
    jeqArr as bs = true → jeq x y = true →
    jeqArr (as.setAt n x) (bs.setAt n y) = true := by
  intro as
  induction as with
  | nil =>
      intro bs n x y h _
      cases bs with
      | nil => simpa [JArr.setAt] using h
      | cons b bs2 => simp [jeqArr] at h
  | cons a rest ih =>
      intro bs n x y h hxy
      cases bs with
      | nil => simp [jeqArr] at h
      | cons b bs2 =>
          simp only [jeqArr, Bool.and_eq_true] at h
          match n with
          | 0 => simp only [JArr.setAt, jeqArr, Bool.and_eq_true]
                 exact ⟨hxy, h.2⟩
          | n + 1 =>
              simp only [JArr.setAt, jeqArr, Bool.and_eq_true]
              exact ⟨h.1, ih bs2 n x y h.2 hxy⟩

theorem jeqArr_insertAt : ∀ (as bs : JArr) (n : Nat) (x y : JValue),
    jeqArr as bs = true → jeq x y = true →
    jeqArr (as.insertAt n x) (bs.insertAt n y) = true := by
  intro as
  induction as with
  | nil =>
      intro bs n x y h hxy
      cases bs with
      | nil =>
          match n with
          | 0 => simp [JArr.insertAt, jeqArr, hxy]
          | n + 1 => simp [JArr.insertAt, jeqArr, hxy]
      | cons b bs2 => simp [jeqArr] at h
  | cons a rest ih =>
      intro bs n x y h hxy
      cases bs with
      | nil => simp [jeqArr] at h
      | cons b bs2 =>
          simp only [jeqArr, Bool.and_eq_true] at h
          match n with
          | 0 => simp only [JArr.insertAt, jeqArr, Bool.and_eq_true]
                 exact ⟨hxy, h.1, h.2⟩
          | n + 1 =>
              simp only [JArr.insertAt, jeqArr, Bool.and_eq_true]
              exact ⟨h.1, ih bs2 n x y h.2 hxy⟩

theorem jeqArr_removeAt : ∀ (as bs : JArr) (n : Nat),
    jeqArr as bs = true → jeqArr (as.removeAt n) (bs.removeAt n) = true := by
  intro as
  induction as with
  | nil =>
      intro bs n h
      cases bs with
      | nil => simpa [JArr.removeAt] using h
      | cons b bs2 => simp [jeqArr] at h
  | cons a rest ih =>
      intro bs n h
      cases bs with
      | nil => simp [jeqArr] at h
      | cons b bs2 =>
          simp only [jeqArr, Bool.and_eq_true] at h
          match n with
          | 0 => simpa [JArr.removeAt] using h.2
          | n + 1 =>
              simp only [JArr.removeAt, jeqArr, Bool.and_eq_true]
              exact ⟨h.1, ih bs2 n h.2⟩

/-! ## Additional container lemmas -/

namespace JObj

theorem setVal_setVal : ∀ (o : JObj) (k : String) (x y : JValue),
    (o.setVal k x).setVal k y = o.setVal k y := by
  intro o k x y
  induction o with
  | nil => simp [setVal]
  | cons k2 v rest ih =>
      by_cases hk : k2 = k <;> simp [setVal, hk, ih]

theorem setVal_lookup_id : ∀ (o : JObj) (k : String) (c : JValue),
    o.lookup k = some c → o.setVal k c = o := by
  intro o k c h
  induction o with
  | nil => simp [setVal]
  | cons k2 v rest ih =>
      simp only [lookup] at h
      by_cases hk : k2 = k
      · simp only [hk, if_true, Option.some.injEq] at h
        simp [setVal, hk, h]
      · simp only [hk, if_false] at h
        simp [setVal, hk, ih h]

end JObj

namespace JArr

theorem setAt_setAt : ∀ (xs : JArr) (n : Nat) (x y : JValue),
    (xs.setAt n x).setAt n y = xs.setAt n y := by
  intro xs
  induction xs with
  | nil => intro n x y; simp [setAt]
  | cons v rest ih =>
      intro n x y
      match n with
      | 0 => simp [setAt]
      | n + 1 => simp [setAt, ih]

theorem setAt_getAt_id : ∀ (xs : JArr) (n : Nat) (c : JValue),
    xs.getAt n = some c → xs.setAt n c = xs := by
  intro xs
  induction xs with
  | nil => intro n c h; simp [getAt] at h
  | cons v rest ih =>
      intro n c h
      match n with
      | 0 =>
          simp only [getAt, Option.some.injEq] at h
          simp [setAt, h]
      | n + 1 =>
          simp only [getAt] at h
          simp [setAt, ih n c h]

theorem length_insertAt : ∀ (xs : JArr) (n : Nat) (x : JValue),
    n ≤ xs.length → (xs.insertAt n x).length = xs.length + 1 := by
  intro xs
  induction xs with
  | nil =>
      intro n x h
      simp only [length] at h
      have : n = 0 := by omega
      subst this
      simp [insertAt, length]
  | cons v rest ih =>
      intro n x h
      match n with
      | 0 => simp [insertAt, length]
      | n + 1 =>
          simp only [length] at h
          simp only [insertAt, length]
          rw [ih n x (by omega)]

theorem length_removeAt : ∀ (xs : JArr) (n : Nat),
    n < xs.length → (xs.removeAt n).length + 1 = xs.length := by
  intro xs
  induction xs with
  | nil => intro n h; simp [length] at h
  | cons v rest ih =>
      intro n h
      match n with
      | 0 => simp [removeAt, length]
      | n + 1 =>
          simp only [removeAt, length] at h ⊢
          have := ih n (by omega)
          omega

end JArr

/-! ## Navigation lemmas -/

theorem getJ_navParent : ∀ (p : Path) (v : JValue), p ≠ [] →
    getJ v p = (match navParent v p with
                | some (s, c) => childAt s c
                | none => none) := by
  intro p
  induction p with
  | nil => intro v h; exact absurd rfl h
  | cons s rest ih =>
      intro v _
      cases rest with
      | nil =>
          cases s with
          | key k =>
              cases v with
              | obj ms =>
                  simp only [getJ, navParent, childAt]
                  cases ms.lookup k <;> simp [getJ]
              | null => simp [getJ, navParent, childAt]
              | bool _ => simp [getJ, navParent, childAt]
              | num _ => simp [getJ, navParent, childAt]
              | str _ => simp [getJ, navParent, childAt]
              | arr _ => simp [getJ, navParent, childAt]
          | idx n =>
              cases v with
              | arr xs =>
                  simp only [getJ, navParent, childAt]
                  cases xs.getAt n <;> simp [getJ]
              | null => simp [getJ, navParent, childAt]
              | bool _ => simp [getJ, navParent, childAt]
              | num _ => simp [getJ, navParent, childAt]
              | str _ => simp [getJ, navParent, childAt]
              | obj _ => simp [getJ, navParent, childAt]
      | cons s2 rest2 =>
          cases s with
          | key k =>
              cases v with
              | obj ms =>
                  cases hm : ms.lookup k with
                  | none => simp [getJ, navParent, hm]
                  | some c =>
                      simp only [getJ, navParent, hm]
                      exact ih c (by simp)
              | null => simp [getJ, navParent]
              | bool _ => simp [getJ, navParent]
              | num _ => simp [getJ, navParent]
              | str _ => simp [getJ, navParent]
              | arr _ => simp [getJ, navParent]
          | idx n =>
              cases v with
              | arr xs =>
                  cases hm : xs.getAt n with
                  | none => simp [getJ, navParent, hm]
                  | some c =>
                      simp only [getJ, navParent, hm]
                      exact ih c (by simp)
              | null => simp [getJ, navParent]
              | bool _ => simp [getJ, navParent]
              | num _ => simp [getJ, navParent]
              | str _ => simp [getJ, navParent]
              | obj _ => simp [getJ, navParent]

theorem navEdit_navParent {fin : Seg → JValue → Option JValue} :
    ∀ (p : Path) (v v' : JValue), navEdit fin v p = some v' →
    ∃ s c, navParent v p = some (s, c) ∧ ∃ c2, fin s c = some c2 := by
  intro p
  induction p with
  | nil => intro v v' h; simp [navEdit] at h
  | cons s rest ih =>
      intro v v' h
      cases rest with
      | nil =>
          refine ⟨s, v, by simp [navParent], v', ?_⟩
          simpa [navEdit] using h
      | cons s2 rest2 =>
          cases s with
          | key k =>
              cases v with
              | obj ms =>
                  cases hm : ms.lookup k with
                  | none => simp [navEdit, hm] at h
                  | some c =>
                      cases hn : navEdit fin c (s2 :: rest2) with
                      | none => simp [navEdit, hm, hn] at h
                      | some c2 =>
                          obtain ⟨s3, c3, hnav, hfin⟩ := ih c c2 hn
                          exact ⟨s3, c3, by simp [navParent, hm, hnav], hfin⟩
              | null => simp [navEdit] at h
              | bool _ => simp [navEdit] at h
              | num _ => simp [navEdit] at h
              | str _ => simp [navEdit] at h
              | arr _ => simp [navEdit] at h
          | idx n =>
              cases v with
              | arr xs =>
                  cases hm : xs.getAt n with
                  | none => simp [navEdit, hm] at h
                  | some c =>
                      cases hn : navEdit fin c (s2 :: rest2) with
                      | none => simp [navEdit, hm, hn] at h
                      | some c2 =>
                          obtain ⟨s3, c3, hnav, hfin⟩ := ih c c2 hn
                          exact ⟨s3, c3, by simp [navParent, hm, hnav], hfin⟩
              | null => simp [navEdit] at h
              | bool _ => simp [navEdit] at h
              | num _ => simp [navEdit] at h
              | str _ => simp [navEdit] at h
              | obj _ => simp [navEdit] at h

theorem navEdit_ukB {fin : Seg → JValue → Option JValue}
    (Huk : ∀ s c c2, ukB c = true → fin s c = some c2 → ukB c2 = true) :
    ∀ (p : Path) (v v' : JValue), ukB v = true →
    navEdit fin v p = some v' → ukB v' = true := by
  intro p
  induction p with
  | nil => intro v v' _ h; simp [navEdit] at h
  | cons s rest ih =>
      intro v v' hv h
      cases rest with
      | nil => exact Huk s v v' hv (by simpa [navEdit] using h)
      | cons s2 rest2 =>
          cases s with
          | key k =>
              cases v with
              | obj ms =>
                  cases hm : ms.lookup k with
                  | none => simp [navEdit, hm] at h
                  | some c =>
                      cases hn : navEdit fin c (s2 :: rest2) with
                      | none => simp [navEdit, hm, hn] at h
                      | some c2 =>
                          simp only [navEdit, hm, hn, Option.some.injEq] at h
                          subst h
                          have hc : ukB c = true :=
                            JObj.lookup_ukB ms k c (by simpa [ukB] using hv) hm
                          have hc2 : ukB c2 = true := ih c c2 hc hn
                          simpa [ukB] using
                            JObj.ukObj_setVal ms k c2 (by simpa [ukB] using hv) hc2
              | null => simp [navEdit] at h
              | bool _ => simp [navEdit] at h
              | num _ => simp [navEdit] at h
              | str _ => simp [navEdit] at h
              | arr _ => simp [navEdit] at h
          | idx n =>
              cases v with
              | arr xs =>
                  cases hm : xs.getAt n with
                  | none => simp [navEdit, hm] at h
                  | some c =>
                      cases hn : navEdit fin c (s2 :: rest2) with
                      | none => simp [navEdit, hm, hn] at h
                      | some c2 =>
                          simp only [navEdit, hm, hn, Option.some.injEq] at h
                          subst h
                          have hc : ukB c = true :=
                            JArr.getAt_ukB xs n c (by simpa [ukB] using hv) hm
                          have hc2 : ukB c2 = true := ih c c2 hc hn
                          simpa [ukB] using
                            JArr.ukArr_setAt xs n c2 (by simpa [ukB] using hv) hc2
              | null => simp [navEdit] at h
              | bool _ => simp [navEdit] at h
              | num _ => simp [navEdit] at h
              | str _ => simp [navEdit] at h
              | obj _ => simp [navEdit] at h

/-- Replacing an existing member by a `jeq`-equal value yields a `jeq`-equal
object. -/
theorem jeq_obj_setVal_left : ∀ (ms : JObj) (k : String) (c x : JValue),
    ukObj ms = true → ukB x = true → ms.lookup k = some c → jeq x c = true →
    jeq (.obj (ms.setVal k x)) (.obj ms) = true := by
  intro ms k c x hu hx hl hj
  refine jeq_obj_intro _ ms (JObj.ukObj_setVal ms k x hu hx) (fun k2 => ?_)
  by_cases hk : k2 = k
  · subst hk
    rw [JObj.lookup_setVal_self ms k2 x (by simp [JObj.containsKey, hl]), hl]
    simpa [optJeq] using hj
  · rw [JObj.lookup_setVal_ne ms k k2 x hk]
    cases h2 : ms.lookup k2 with
    | none => simp [optJeq]
    | some u => simpa [optJeq] using jeq_refl u (JObj.lookup_ukB ms k2 u hu h2)

/-- Replacing an existing element by a `jeq`-equal value yields a `jeq`-equal
array. -/
theorem jeq_arr_setAt_left : ∀ (xs : JArr) (n : Nat) (c x : JValue),
    ukArr xs = true → xs.getAt n = some c → jeq x c = true →
    jeq (.arr (xs.setAt n x)) (.arr xs) = true := by
  intro xs n c x hu hg hj
  have h1 : jeqArr xs xs = true := by
    have := jeq_refl (.arr xs) (by simpa [ukB] using hu)
    simpa [jeq] using this
  have h2 : jeqArr (xs.setAt n x) (xs.setAt n c) = true :=
    jeqArr_setAt xs xs n x c h1 hj
  rw [JArr.setAt_getAt_id xs n c hg] at h2
  simpa [jeq] using h2

/-- If the final edits cancel exactly at the parent container, the whole
edits cancel exactly. -/
theorem navEdit_cancel_exact {fin gin : Seg → JValue → Option JValue} :
    ∀ (p : Path) (v v' : JValue), navEdit fin v p = some v' →
    (∀ s c c2, navParent v p = some (s, c) → fin s c = some c2 →
       gin s c2 = some c) →
    navEdit gin v' p = some v := by
  intro p
  induction p with
  | nil => intro v v' h _; simp [navEdit] at h
  | cons s rest ih =>
      intro v v' h H
      cases rest with
      | nil =>
          have hf : fin s v = some v' := by simpa [navEdit] using h
          have := H s v v' (by simp [navParent]) hf
          simpa [navEdit] using this
      | cons s2 rest2 =>
          cases s with
          | key k =>
              cases v with
              | obj ms =>
                  cases hm : ms.lookup k with
                  | none => simp [navEdit, hm] at h
                  | some c =>
                      cases hn : navEdit fin c (s2 :: rest2) with
                      | none => simp [navEdit, hm, hn] at h
                      | some c2 =>
                          simp only [navEdit, hm, hn, Option.some.injEq] at h
                          subst h
                          have hrec := ih c c2 hn (fun s3 c3 c4 hnav hfin =>
                            H s3 c3 c4 (by simp [navParent, hm, hnav]) hfin)
                          have hl2 : (ms.setVal k c2).lookup k = some c2 :=
                            JObj.lookup_setVal_self ms k c2
                              (by simp [JObj.containsKey, hm])
                          simp only [navEdit, hl2, hrec, Option.some.injEq]
                          rw [JObj.setVal_setVal, JObj.setVal_lookup_id ms k c hm]
              | null => simp [navEdit] at h
              | bool _ => simp [navEdit] at h
              | num _ => simp [navEdit] at h
              | str _ => simp [navEdit] at h
              | arr _ => simp [navEdit] at h
          | idx n =>
              cases v with
              | arr xs =>
                  cases hm : xs.getAt n with
                  | none => simp [navEdit, hm] at h
                  | some c =>
                      cases hn : navEdit fin c (s2 :: rest2) with
                      | none => simp [navEdit, hm, hn] at h
                      | some c2 =>
                          simp only [navEdit, hm, hn, Option.some.injEq] at h
                          subst h
                          have hrec := ih c c2 hn (fun s3 c3 c4 hnav hfin =>
                            H s3 c3 c4 (by simp [navParent, hm, hnav]) hfin)
                          have hlt : n < xs.length := by
                            have := (JArr.getAt_some_iff_lt xs n).1 (by simp [hm])
                            exact this
                          have hl2 : (xs.setAt n c2).getAt n = some c2 :=
                            JArr.getAt_setAt_self xs n c2 hlt
                          simp only [navEdit, hl2, hrec, Option.some.injEq]
                          rw [JArr.setAt_setAt, JArr.setAt_getAt_id xs n c hm]
              | null => simp [navEdit] at h
              | bool _ => simp [navEdit] at h
              | num _ => simp [navEdit] at h
              | str _ => simp [navEdit] at h
              | obj _ => simp [navEdit] at h

/-- If the final edits cancel up to deep equality at the parent container,
the whole edits cancel up to deep equality. -/
theorem navEdit_cancel_jeq {fin gin : Seg → JValue → Option JValue} :
    ∀ (p : Path) (v v' : JValue), ukB v = true → navEdit fin v p = some v' →
    (∀ s c c2, navParent v p = some (s, c) → fin s c = some c2 →
       ∃ c3, gin s c2 = some c3 ∧ jeq c3 c = true ∧ ukB c3 = true) →
    ∃ w, navEdit gin v' p = some w ∧ jeq w v = true ∧ ukB w = true := by
  intro p
  induction p with
  | nil => intro v v' _ h _; simp [navEdit] at h
  | cons s rest ih =>
      intro v v' hv h H
      cases rest with
      | nil =>
          have hf : fin s v = some v' := by simpa [navEdit] using h
          obtain ⟨c3, hg, hj, hu3⟩ := H s v v' (by simp [navParent]) hf
          exact ⟨c3, by simpa [navEdit] using hg, hj, hu3⟩
      | cons s2 rest2 =>
          cases s with
          | key k =>
              cases v with
              | obj ms =>
                  cases hm : ms.lookup k with
                  | none => simp [navEdit, hm] at h
                  | some c =>
                      cases hn : navEdit fin c (s2 :: rest2) with
                      | none => simp [navEdit, hm, hn] at h
                      | some c2 =>
                          simp only [navEdit, hm, hn, Option.some.injEq] at h
                          subst h
                          have huo : ukObj ms = true := by simpa [ukB] using hv
                          have hc : ukB c = true := JObj.lookup_ukB ms k c huo hm
                          obtain ⟨w2, hw2, hj2, hu2⟩ := ih c c2 hc hn
                            (fun s3 c3 c4 hnav hfin =>
                              H s3 c3 c4 (by simp [navParent, hm, hnav]) hfin)
                          have hl2 : (ms.setVal k c2).lookup k = some c2 :=
                            JObj.lookup_setVal_self ms k c2
                              (by simp [JObj.containsKey, hm])
                          refine ⟨.obj ((ms.setVal k c2).setVal k w2),
                            by simp only [navEdit, hl2, hw2], ?_, ?_⟩
                          · rw [JObj.setVal_setVal]
                            exact jeq_obj_setVal_left ms k c w2 huo hu2 hm hj2
                          · rw [JObj.setVal_setVal]
                            simpa [ukB] using JObj.ukObj_setVal ms k w2 huo hu2
              | null => simp [navEdit] at h
              | bool _ => simp [navEdit] at h
              | num _ => simp [navEdit] at h
              | str _ => simp [navEdit] at h
              | arr _ => simp [navEdit] at h
          | idx n =>
              cases v with
              | arr xs =>
                  cases hm : xs.getAt n with
                  | none => simp [navEdit, hm] at h
                  | some c =>
                      cases hn : navEdit fin c (s2 :: rest2) with
                      | none => simp [navEdit, hm, hn] at h
                      | some c2 =>
                          simp only [navEdit, hm, hn, Option.some.injEq] at h
                          subst h
                          have hua : ukArr xs = true := by simpa [ukB] using hv
                          have hc : ukB c = true := JArr.getAt_ukB xs n c hua hm
                          obtain ⟨w2, hw2, hj2, hu2⟩ := ih c c2 hc hn
                            (fun s3 c3 c4 hnav hfin =>
                              H s3 c3 c4 (by simp [navParent, hm, hnav]) hfin)
                          have hlt : n < xs.length :=
                            (JArr.getAt_some_iff_lt xs n).1 (by simp [hm])
                          have hl2 : (xs.setAt n c2).getAt n = some c2 := by
                            rw [JArr.getAt_setAt_self xs n c2 hlt]
                          refine ⟨.arr ((xs.setAt n c2).setAt n w2),
                            by simp only [navEdit, hl2, hw2], ?_, ?_⟩
                          · rw [JArr.setAt_setAt]
                            exact jeq_arr_setAt_left xs n c w2 hua hm hj2
                          · rw [JArr.setAt_setAt]
                            simpa [ukB] using JArr.ukArr_setAt xs n w2 hua hu2
              | null => simp [navEdit] at h
              | bool _ => simp [navEdit] at h
              | num _ => simp [navEdit] at h
              | str _ => simp [navEdit] at h
              | obj _ => simp [navEdit] at h

/-- Congruence: a navigation edit transports along deep equality, final-step
by final-step. -/
theorem navEdit_jeq {fin gin : Seg → JValue → Option JValue}
    (Huk : ∀ s c c2, ukB c = true → fin s c = some c2 → ukB c2 = true)
    (Hfin : ∀ s c d c2, jeq c d = true → ukB c = true → ukB d = true →
       fin s c = some c2 → ∃ d2, gin s d = some d2 ∧ jeq c2 d2 = true) :
    ∀ (p : Path) (a b a' : JValue), jeq a b = true → ukB a = true →
    ukB b = true → navEdit fin a p = some a' →
    ∃ b', navEdit gin b p = some b' ∧ jeq a' b' = true := by
  intro p
  induction p with
  | nil => intro a b a' _ _ _ h; simp [navEdit] at h
  | cons s rest ih =>
      intro a b a' hab hua hub h
      cases rest with
      | nil =>
          have hf : fin s a = some a' := by simpa [navEdit] using h
          obtain ⟨b', hg, hj⟩ := Hfin s a b a' hab hua hub hf
          exact ⟨b', by simpa [navEdit] using hg, hj⟩
      | cons s2 rest2 =>
          cases s with
          | key k =>
              cases a with
              | obj as =>
                  cases b with
                  | obj bs =>
                      cases hm : as.lookup k with
                      | none => simp [navEdit, hm] at h
                      | some c =>
                          cases hn : navEdit fin c (s2 :: rest2) with
                          | none => simp [navEdit, hm, hn] at h
                          | some c2 =>
                              simp only [navEdit, hm, hn, Option.some.injEq] at h
                              subst h
                              have hpt := jeq_obj_elim as bs hab k
                              rw [hm] at hpt
                              cases hd : bs.lookup k with
                              | none => rw [hd] at hpt; simp [optJeq] at hpt
                              | some d =>
                                  rw [hd] at hpt
                                  simp only [optJeq] at hpt
                                  have huas : ukObj as = true := by
                                    simpa [ukB] using hua
                                  have hubs : ukObj bs = true := by
                                    simpa [ukB] using hub
                                  have huc : ukB c = true :=
                                    JObj.lookup_ukB as k c huas hm
                                  have hud : ukB d = true :=
                                    JObj.lookup_ukB bs k d hubs hd
                                  obtain ⟨d2, hd2, hj2⟩ := ih c d c2 hpt huc hud hn
                                  have huc2 : ukB c2 = true :=
                                    navEdit_ukB Huk (s2 :: rest2) c c2 huc hn
                                  refine ⟨.obj (bs.setVal k d2),
                                    by simp only [navEdit, hd, hd2], ?_⟩
                                  refine jeq_obj_intro _ _
                                    (JObj.ukObj_setVal as k c2 huas huc2) (fun k2 => ?_)
                                  by_cases hk : k2 = k
                                  · subst hk
                                    rw [JObj.lookup_setVal_self as k2 c2
                                          (by simp [JObj.containsKey, hm]),
                                        JObj.lookup_setVal_self bs k2 d2
                                          (by simp [JObj.containsKey, hd])]
                                    simpa [optJeq] using hj2
                                  · rw [JObj.lookup_setVal_ne as k k2 c2 hk,
                                        JObj.lookup_setVal_ne bs k k2 d2 hk]
                                    exact jeq_obj_elim as bs hab k2
                  | null => simp [jeq] at hab
                  | bool _ => simp [jeq] at hab
                  | num _ => simp [jeq] at hab
                  | str _ => simp [jeq] at hab
                  | arr _ => simp [jeq] at hab
              | null => simp [navEdit] at h
              | bool _ => simp [navEdit] at h
              | num _ => simp [navEdit] at h
              | str _ => simp [navEdit] at h
              | arr _ => simp [navEdit] at h
          | idx n =>
              cases a with
              | arr as2 =>
                  cases b with
                  | arr bs2 =>
                      cases hm : as2.getAt n with
                      | none => simp [navEdit, hm] at h
                      | some c =>
                          cases hn : navEdit fin c (s2 :: rest2) with
                          | none => simp [navEdit, hm, hn] at h
                          | some c2 =>
                              simp only [navEdit, hm, hn, Option.some.injEq] at h
                              subst h
                              have harr : jeqArr as2 bs2 = true := by
                                simpa [jeq] using hab
                              have hpt := jeqArr_getAt as2 bs2 n harr
                              rw [hm] at hpt
                              cases hd : bs2.getAt n with
                              | none => rw [hd] at hpt; simp [optJeq] at hpt
                              | some d =>
                                  rw [hd] at hpt
                                  simp only [optJeq] at hpt
                                  have huas : ukArr as2 = true := by
                                    simpa [ukB] using hua
                                  have hubs : ukArr bs2 = true := by
                                    simpa [ukB] using hub
                                  have huc : ukB c = true :=
                                    JArr.getAt_ukB as2 n c huas hm
                                  have hud : ukB d = true :=
                                    JArr.getAt_ukB bs2 n d hubs hd
                                  obtain ⟨d2, hd2, hj2⟩ := ih c d c2 hpt huc hud hn
                                  refine ⟨.arr (bs2.setAt n d2),
                                    by simp only [navEdit, hd, hd2], ?_⟩
                                  have := jeqArr_setAt as2 bs2 n c2 d2 harr hj2
                                  simpa [jeq] using this
                  | null => simp [jeq] at hab
                  | bool _ => simp [jeq] at hab
                  | num _ => simp [jeq] at hab
                  | str _ => simp [jeq] at hab
                  | obj _ => simp [jeq] at hab
              | null => simp [navEdit] at h
              | bool _ => simp [navEdit] at h
              | num _ => simp [navEdit] at h
              | str _ => simp [navEdit] at h
              | obj _ => simp [navEdit] at h

/-! ## Sub-value lemmas for `getJ` and `navParent` -/

theorem getJ_ukB : ∀ (p : Path) (v x : JValue),
    ukB v = true → getJ v p = some x → ukB x = true := by
  intro p
  induction p with
  | nil =>
      intro v x hv h
      simp only [getJ, Option.some.injEq] at h
      subst h; exact hv
  | cons s rest ih =>
      intro v x hv h
      cases s with
      | key k =>
          cases v with
          | obj ms =>
              cases hm : ms.lookup k with
              | none => simp [getJ, hm] at h
              | some c =>
                  simp only [getJ, hm] at h
                  exact ih c x (JObj.lookup_ukB ms k c (by simpa [ukB] using hv) hm) h
          | null => simp [getJ] at h
          | bool _ => simp [getJ] at h
          | num _ => simp [getJ] at h
          | str _ => simp [getJ] at h
          | arr _ => simp [getJ] at h
      | idx n =>
          cases v with
          | arr xs =>
              cases hm : xs.getAt n with
              | none => simp [getJ, hm] at h
              | some c =>
                  simp only [getJ, hm] at h
                  exact ih c x (JArr.getAt_ukB xs n c (by simpa [ukB] using hv) hm) h
          | null => simp [getJ] at h
          | bool _ => simp [getJ] at h
          | num _ => simp [getJ] at h
          | str _ => simp [getJ] at h
          | obj _ => simp [getJ] at h

theorem navParent_ukB : ∀ (p : Path) (v : JValue) (s : Seg) (c : JValue),
    ukB v = true → navParent v p = some (s, c) → ukB c = true := by
  intro p
  induction p with
  | nil => intro v s c _ h; simp [navParent] at h
  | cons s0 rest ih =>
      intro v s c hv h
      cases rest with
      | nil =>
          simp only [navParent, Option.some.injEq, Prod.mk.injEq] at h
          obtain ⟨h1, h2⟩ := h
          subst h2; exact hv
      | cons s2 rest2 =>
          cases s0 with
          | key k =>
              cases v with
              | obj ms =>
                  cases hm : ms.lookup k with
                  | none => simp [navParent, hm] at h
                  | some c0 =>
                      simp only [navParent, hm] at h
                      exact ih c0 s c
                        (JObj.lookup_ukB ms k c0 (by simpa [ukB] using hv) hm) h
              | null => simp [navParent] at h
              | bool _ => simp [navParent] at h
              | num _ => simp [navParent] at h
              | str _ => simp [navParent] at h
              | arr _ => simp [navParent] at h
          | idx n =>
              cases v with
              | arr xs =>
                  cases hm : xs.getAt n with
                  | none => simp [navParent, hm] at h
                  | some c0 =>
                      simp only [navParent, hm] at h
                      exact ih c0 s c
                        (JArr.getAt_ukB xs n c0 (by simpa [ukB] using hv) hm) h
              | null => simp [navParent] at h
              | bool _ => simp [navParent] at h
              | num _ => simp [navParent] at h
              | str _ => simp [navParent] at h
              | obj _ => simp [navParent] at h

theorem getJ_jeq : ∀ (p : Path) (a b : JValue), jeq a b = true →
    optJeq (getJ a p) (getJ b p) = true := by
  intro p
  induction p with
  | nil => intro a b h; simpa [getJ, optJeq] using h
  | cons s rest ih =>
      intro a b h
      cases s with
      | key k =>
          cases a with
          | obj as =>
              cases b with
              | obj bs =>
                  have hpt := jeq_obj_elim as bs h k
                  cases hm : as.lookup k with
                  | none =>
                      rw [hm] at hpt
                      cases hd : bs.lookup k with
                      | none => simp [getJ, hm, hd, optJeq]
                      | some d => rw [hd] at hpt; simp [optJeq] at hpt
                  | some c =>
                      rw [hm] at hpt
                      cases hd : bs.lookup k with
                      | none => rw [hd] at hpt; simp [optJeq] at hpt
                      | some d =>
                          rw [hd] at hpt
                          simp only [optJeq] at hpt
                          simpa [getJ, hm, hd] using ih c d hpt
              | null => simp [jeq] at h
              | bool _ => simp [jeq] at h
              | num _ => simp [jeq] at h
              | str _ => simp [jeq] at h
              | arr _ => simp [jeq] at h
          | null => cases b <;> simp [jeq, getJ, optJeq] at h ⊢
          | bool _ => cases b <;> simp [jeq, getJ, optJeq] at h ⊢
          | num _ => cases b <;> simp [jeq, getJ, optJeq] at h ⊢
          | str _ => cases b <;> simp [jeq, getJ, optJeq] at h ⊢
          | arr _ => cases b <;> simp [jeq, getJ, optJeq] at h ⊢
      | idx n =>
          cases a with
          | arr as2 =>
              cases b with
              | arr bs2 =>
                  have harr : jeqArr as2 bs2 = true := by simpa [jeq] using h
                  have hpt := jeqArr_getAt as2 bs2 n harr
                  cases hm : as2.getAt n with
                  | none =>
                      rw [hm] at hpt
                      cases hd : bs2.getAt n with
                      | none => simp [getJ, hm, hd, optJeq]
                      | some d => rw [hd] at hpt; simp [optJeq] at hpt
                  | some c =>
                      rw [hm] at hpt
                      cases hd : bs2.getAt n with
                      | none => rw [hd] at hpt; simp [optJeq] at hpt
                      | some d =>
                          rw [hd] at hpt
                          simp only [optJeq] at hpt
                          simpa [getJ, hm, hd] using ih c d hpt
              | null => simp [jeq] at h
              | bool _ => simp [jeq] at h
              | num _ => simp [jeq] at h
              | str _ => simp [jeq] at h
              | obj _ => simp [jeq] at h
          | null => cases b <;> simp [jeq, getJ, optJeq] at h ⊢
          | bool _ => cases b <;> simp [jeq, getJ, optJeq] at h ⊢
          | num _ => cases b <;> simp [jeq, getJ, optJeq] at h ⊢
          | str _ => cases b <;> simp [jeq, getJ, optJeq] at h ⊢
          | obj _ => cases b <;> simp [jeq, getJ, optJeq] at h ⊢

/-! ## Deep-equality congruences for object edits -/

theorem jeq_obj_setVal_cong : ∀ (as bs : JObj) (k : String) (x y : JValue),
    jeq (.obj as) (.obj bs) = true → ukObj as = true → ukB x = true →
    jeq x y = true → as.containsKey k = true →
    jeq (.obj (as.setVal k x)) (.obj (bs.setVal k y)) = true := by
  intro as bs k x y hab hu hx hxy hca
  have hcb : bs.containsKey k = true := by
    have := jeq_obj_elim as bs hab k
    simp only [JObj.containsKey] at hca ⊢
    cases ha : as.lookup k with
    | none => simp [ha] at hca
    | some c =>
        rw [ha] at this
        cases hb : bs.lookup k with
        | none => rw [hb] at this; simp [optJeq] at this
        | some d => simp [hb]
  refine jeq_obj_intro _ _ (JObj.ukObj_setVal as k x hu hx) (fun k2 => ?_)
  by_cases hk : k2 = k
  · subst hk
    rw [JObj.lookup_setVal_self as k2 x hca, JObj.lookup_setVal_self bs k2 y hcb]
    simpa [optJeq] using hxy
  · rw [JObj.lookup_setVal_ne as k k2 x hk, JObj.lookup_setVal_ne bs k k2 y hk]
    exact jeq_obj_elim as bs hab k2

theorem jeq_obj_append_cong : ∀ (as bs : JObj) (k : String) (x y : JValue),
    jeq (.obj as) (.obj bs) = true → ukObj as = true → ukB x = true →
    jeq x y = true → as.containsKey k = false → bs.containsKey k = false →
    jeq (.obj (as.append k x)) (.obj (bs.append k y)) = true := by
  intro as bs k x y hab hu hx hxy hca hcb
  refine jeq_obj_intro _ _ (JObj.ukObj_append_fresh as k x hu hx hca) (fun k2 => ?_)
  by_cases hk : k2 = k
  · subst hk
    rw [JObj.lookup_append_self as k2 x hca, JObj.lookup_append_self bs k2 y hcb]
    simpa [optJeq] using hxy
  · rw [JObj.lookup_append_ne as k k2 x hk, JObj.lookup_append_ne bs k k2 y hk]
    exact jeq_obj_elim as bs hab k2

theorem jeq_obj_removeKey_cong : ∀ (as bs : JObj) (k : String),
    jeq (.obj as) (.obj bs) = true → ukObj as = true → ukObj bs = true →
    jeq (.obj (as.removeKey k)) (.obj (bs.removeKey k)) = true := by
  intro as bs k hab hua hub
  refine jeq_obj_intro _ _ (JObj.ukObj_removeKey as k hua) (fun k2 => ?_)
  by_cases hk : k2 = k
  · subst hk
    have h1 := JObj.containsKey_removeKey_self as k2 hua
    have h2 := JObj.containsKey_removeKey_self bs k2 hub
    rw [JObj.containsKey] at h1 h2
    have h1' : (as.removeKey k2).lookup k2 = none := by
      cases h : (as.removeKey k2).lookup k2
      · rfl
      · rw [h] at h1; simp at h1
    have h2' : (bs.removeKey k2).lookup k2 = none := by
      cases h : (bs.removeKey k2).lookup k2
      · rfl
      · rw [h] at h2; simp at h2
    simp [h1', h2', optJeq]
  · rw [JObj.lookup_removeKey_ne as k k2 hk, JObj.lookup_removeKey_ne bs k k2 hk]
    exact jeq_obj_elim as bs hab k2

/-- Removing a member and appending it back yields a deep-equal object. -/
theorem jeq_obj_restore : ∀ (ms : JObj) (k : String) (old : JValue),
    ukObj ms = true → ms.lookup k = some old →
    jeq (.obj ((ms.removeKey k).append k old)) (.obj ms) = true := by
  intro ms k old hu hl
  have hfresh := JObj.containsKey_removeKey_self ms k hu
  have huold : ukB old = true := JObj.lookup_ukB ms k old hu hl
  refine jeq_obj_intro _ _
    (JObj.ukObj_append_fresh (ms.removeKey k) k old
      (JObj.ukObj_removeKey ms k hu) huold hfresh) (fun k2 => ?_)
  by_cases hk : k2 = k
  · subst hk
    rw [JObj.lookup_append_self (ms.removeKey k2) k2 old hfresh, hl]
    simpa [optJeq] using jeq_refl old huold
  · rw [JObj.lookup_append_ne (ms.removeKey k) k k2 old hk,
        JObj.lookup_removeKey_ne ms k k2 hk]
    cases h2 : ms.lookup k2 with
    | none => simp [optJeq]
    | some u => simpa [optJeq] using jeq_refl u (JObj.lookup_ukB ms k2 u hu h2)

/-! ## Unique-key preservation through the patch operations -/

theorem addFin_ukB (x : JValue) (hx : ukB x = true) :
    ∀ s c c2, ukB c = true → addFin x s c = some c2 → ukB c2 = true := by
  intro s c c2 hc h
  cases s with
  | key k =>
      cases c with
      | obj ms =>
          simp only [addFin, Option.some.injEq] at h
          subst h
          simp only [ukB, JObj.upsert]
          by_cases hck : ms.containsKey k = true
          · simp only [hck, if_true]
            exact JObj.ukObj_setVal ms k x (by simpa [ukB] using hc) hx
          · have hck' : ms.containsKey k = false := by
              cases hcc : ms.containsKey k
              · rfl
              · exact absurd hcc hck
            simp only [hck', Bool.false_eq_true, if_false]
            exact JObj.ukObj_append_fresh ms k x (by simpa [ukB] using hc) hx hck'
      | null => simp [addFin] at h
      | bool _ => simp [addFin] at h
      | num _ => simp [addFin] at h
      | str _ => simp [addFin] at h
      | arr _ => simp [addFin] at h
  | idx n =>
      cases c with
      | arr xs =>
          simp only [addFin] at h
          by_cases hn : n ≤ xs.length
          · simp only [hn, if_true, Option.some.injEq] at h
            subst h
            simpa [ukB] using JArr.ukArr_insertAt xs n x (by simpa [ukB] using hc) hx
          · simp [hn] at h
      | null => simp [addFin] at h
      | bool _ => simp [addFin] at h
      | num _ => simp [addFin] at h
      | str _ => simp [addFin] at h
      | obj _ => simp [addFin] at h

theorem replaceFin_ukB (x : JValue) (hx : ukB x = true) :
    ∀ s c c2, ukB c = true → replaceFin x s c = some c2 → ukB c2 = true := by
  intro s c c2 hc h
  cases s with
  | key k =>
      cases c with
      | obj ms =>
          simp only [replaceFin] at h
          by_cases hck : ms.containsKey k = true
          · simp only [hck, if_true, Option.some.injEq] at h
            subst h
            simpa [ukB] using
              JObj.ukObj_setVal ms k x (by simpa [ukB] using hc) hx
          · simp [hck] at h
      | null => simp [replaceFin] at h
      | bool _ => simp [replaceFin] at h
      | num _ => simp [replaceFin] at h
      | str _ => simp [replaceFin] at h
      | arr _ => simp [replaceFin] at h
  | idx n =>
      cases c with
      | arr xs =>
          simp only [replaceFin] at h
          by_cases hn : n < xs.length
          · simp only [hn, if_true, Option.some.injEq] at h
            subst h
            simpa [ukB] using
              JArr.ukArr_setAt xs n x (by simpa [ukB] using hc) hx
          · simp [hn] at h
      | null => simp [replaceFin] at h
      | bool _ => simp [replaceFin] at h
      | num _ => simp [replaceFin] at h
      | str _ => simp [replaceFin] at h
      | obj _ => simp [replaceFin] at h

theorem removeFin_ukB :
    ∀ s c c2, ukB c = true → removeFin s c = some c2 → ukB c2 = true := by
  intro s c c2 hc h
  cases s with
  | key k =>
      cases c with
      | obj ms =>
          simp only [removeFin] at h
          by_cases hck : ms.containsKey k = true
          · simp only [hck, if_true, Option.some.injEq] at h
            subst h
            simpa [ukB] using JObj.ukObj_removeKey ms k (by simpa [ukB] using hc)
          · simp [hck] at h
      | null => simp [removeFin] at h
      | bool _ => simp [removeFin] at h
      | num _ => simp [removeFin] at h
      | str _ => simp [removeFin] at h
      | arr _ => simp [removeFin] at h
  | idx n =>
      cases c with
      | arr xs =>
          simp only [removeFin] at h
          by_cases hn : n < xs.length
          · simp only [hn, if_true, Option.some.injEq] at h
            subst h
            simpa [ukB] using JArr.ukArr_removeAt xs n (by simpa [ukB] using hc)
          · simp [hn] at h
      | null => simp [removeFin] at h
      | bool _ => simp [removeFin] at h
      | num _ => simp [removeFin] at h
      | str _ => simp [removeFin] at h
      | obj _ => simp [removeFin] at h

theorem addJ_ukB : ∀ (p : Path) (v x v2 : JValue), ukB v = true → ukB x = true →
    addJ v p x = some v2 → ukB v2 = true := by
  intro p v x v2 hv hx h
  cases p with
  | nil =>
      simp only [addJ, Option.some.injEq] at h
      subst h; exact hx
  | cons s rest =>
      simp only [addJ] at h
      exact navEdit_ukB (addFin_ukB x hx) (s :: rest) v v2 hv h

theorem replaceJ_ukB : ∀ (p : Path) (v x v2 : JValue), ukB v = true →
    ukB x = true → replaceJ v p x = some v2 → ukB v2 = true := by
  intro p v x v2 hv hx h
  cases p with
  | nil =>
      simp only [replaceJ, Option.some.injEq] at h
      subst h; exact hx
  | cons s rest =>
      simp only [replaceJ] at h
      exact navEdit_ukB (replaceFin_ukB x hx) (s :: rest) v v2 hv h

theorem removeJ_ukB : ∀ (p : Path) (v v2 : JValue), ukB v = true →
    removeJ v p = some v2 → ukB v2 = true := by
  intro p v v2 hv h
  cases p with
  | nil => simp [removeJ] at h
  | cons s rest =>
      simp only [removeJ] at h
      exact navEdit_ukB removeFin_ukB (s :: rest) v v2 hv h

theorem applyOp_ukB : ∀ (o : Op) (v v2 : JValue), ukB v = true →
    ukOp o = true → applyOp v o = some v2 → ukB v2 = true := by
  intro o v v2 hv ho h
  cases o with
  | add p x => exact addJ_ukB p v x v2 hv (by simpa [ukOp] using ho) h
  | remove p => exact removeJ_ukB p v v2 hv h
  | replace p x => exact replaceJ_ukB p v x v2 hv (by simpa [ukOp] using ho) h
  | move f t =>
      simp only [applyOp] at h
      by_cases hft : f = t
      · simp only [hft, if_true, Option.some.injEq] at h; subst h; exact hv
      · simp only [hft, if_false] at h
        cases hg : getJ v f with
        | none => rw [hg] at h; simp at h
        | some x =>
            rw [hg] at h
            cases hr : removeJ v f with
            | none => rw [hr] at h; simp at h
            | some v1 =>
                rw [hr] at h
                simp only at h
                exact addJ_ukB t v1 x v2 (removeJ_ukB f v v1 hv hr)
                  (getJ_ukB f v x hv hg) h
  | copy f t =>
      simp only [applyOp] at h
      cases hg : getJ v f with
      | none => rw [hg] at h; simp at h
      | some x =>
          rw [hg] at h
          simp only at h
          exact addJ_ukB t v x v2 hv (getJ_ukB f v x hv hg) h
  | test p x =>
      simp only [applyOp] at h
      cases hg : getJ v p with
      | none => rw [hg] at h; simp at h
      | some y =>
          rw [hg] at h
          by_cases hj : jeq y x = true
          · simp only [hj, if_true, Option.some.injEq] at h; subst h; exact hv
          · simp [hj] at h

def opsUK : List Op → Bool
  | [] => true
  | o :: os => ukOp o && opsUK os

theorem applyPatch_ukB : ∀ (ops : List Op) (v v2 : JValue), ukB v = true →
    opsUK ops = true → applyPatch v ops = some v2 → ukB v2 = true := by
  intro ops
  induction ops with
  | nil =>
      intro v v2 hv _ h
      simp only [applyPatch, Option.some.injEq] at h
      subst h; exact hv
  | cons o os ih =>
      intro v v2 hv ho h
      simp only [opsUK, Bool.and_eq_true] at ho
      simp only [applyPatch] at h
      cases ha : applyOp v o with
      | none => rw [ha] at h; simp at h
      | some vm =>
          rw [ha] at h
          exact ih vm v2 (applyOp_ukB o v vm hv ho.1 ha) ho.2 h

theorem applyPatch_append : ∀ (l1 l2 : List Op) (v : JValue),
    applyPatch v (l1 ++ l2) = (match applyPatch v l1 with
                               | some v1 => applyPatch v1 l2
                               | none => none) := by
  intro l1
  induction l1 with
  | nil => intro l2 v; simp [applyPatch]
  | cons o os ih =>
      intro l2 v
      simp only [List.cons_append, applyPatch]
      cases ha : applyOp v o with
      | none => simp
      | some vm => simpa using ih l2 vm

/-! ## Per-operation inverses -/

theorem replaceJ_getJ_isSome : ∀ (p : Path) (v x v' : JValue),
    replaceJ v p x = some v' → ∃ old, getJ v p = some old := by
  intro p v x v' h
  cases p with
  | nil => exact ⟨v, by simp [getJ]⟩
  | cons s rest =>
      simp only [replaceJ] at h
      obtain ⟨s2, c, hnav, c2, hfin⟩ := navEdit_navParent (s :: rest) v v' h
      rw [getJ_navParent (s :: rest) v (by simp), hnav]
      cases s2 with
      | key k =>
          cases c with
          | obj ms =>
              simp only [replaceFin] at hfin
              by_cases hck : ms.containsKey k = true
              · simp only [JObj.containsKey] at hck
                cases hl : ms.lookup k with
                | none => rw [hl] at hck; simp at hck
                | some old => exact ⟨old, by simp [childAt, hl]⟩
              · simp [hck] at hfin
          | null => simp [replaceFin] at hfin
          | bool _ => simp [replaceFin] at hfin
          | num _ => simp [replaceFin] at hfin
          | str _ => simp [replaceFin] at hfin
          | arr _ => simp [replaceFin] at hfin
      | idx n =>
          cases c with
          | arr xs =>
              simp only [replaceFin] at hfin
              by_cases hn : n < xs.length
              · have := (JArr.getAt_some_iff_lt xs n).2 hn
                cases hg : xs.getAt n with
                | none => rw [hg] at this; simp at this
                | some old => exact ⟨old, by simp [childAt, hg]⟩
              · simp [hn] at hfin
          | null => simp [replaceFin] at hfin
          | bool _ => simp [replaceFin] at hfin
          | num _ => simp [replaceFin] at hfin
          | str _ => simp [replaceFin] at hfin
          | obj _ => simp [replaceFin] at hfin

theorem removeJ_getJ_isSome : ∀ (p : Path) (v v' : JValue),
    removeJ v p = some v' → ∃ old, getJ v p = some old := by
  intro p v v' h
  cases p with
  | nil => simp [removeJ] at h
  | cons s rest =>
      simp only [removeJ] at h
      obtain ⟨s2, c, hnav, c2, hfin⟩ := navEdit_navParent (s :: rest) v v' h
      rw [getJ_navParent (s :: rest) v (by simp), hnav]
      cases s2 with
      | key k =>
          cases c with
          | obj ms =>
              simp only [removeFin] at hfin
              by_cases hck : ms.containsKey k = true
              · simp only [JObj.containsKey] at hck
                cases hl : ms.lookup k with
                | none => rw [hl] at hck; simp at hck
                | some old => exact ⟨old, by simp [childAt, hl]⟩
              · simp [hck] at hfin
          | null => simp [removeFin] at hfin
          | bool _ => simp [removeFin] at hfin
          | num _ => simp [removeFin] at hfin
          | str _ => simp [removeFin] at hfin
          | arr _ => simp [removeFin] at hfin
      | idx n =>
          cases c with
          | arr xs =>
              simp only [removeFin] at hfin
              by_cases hn : n < xs.length
              · have := (JArr.getAt_some_iff_lt xs n).2 hn
                cases hg : xs.getAt n with
                | none => rw [hg] at this; simp at this
                | some old => exact ⟨old, by simp [childAt, hg]⟩
              · simp [hn] at hfin
          | null => simp [removeFin] at hfin
          | bool _ => simp [removeFin] at hfin
          | num _ => simp [removeFin] at hfin
          | str _ => simp [removeFin] at hfin
          | obj _ => simp [removeFin] at hfin

theorem addReplaces_getJ_isSome : ∀ (p : Path) (v : JValue),
    addReplaces v p = true → ∃ old, getJ v p = some old := by
  intro p v h
  cases p with
  | nil => exact ⟨v, by simp [getJ]⟩
  | cons s rest =>
      simp only [addReplaces] at h
      cases hnav : navParent v (s :: rest) with
      | none => rw [hnav] at h; simp at h
      | some sc =>
          obtain ⟨s2, c⟩ := sc
          rw [hnav] at h
          rw [getJ_navParent (s :: rest) v (by simp), hnav]
          cases s2 with
          | key k =>
              cases c with
              | obj ms =>
                  simp only at h
                  simp only [JObj.containsKey] at h
                  cases hl : ms.lookup k with
                  | none => rw [hl] at h; simp at h
                  | some old => exact ⟨old, by simp [childAt, hl]⟩
              | null => simp at h
              | bool _ => simp at h
              | num _ => simp at h
              | str _ => simp at h
              | arr _ => simp at h
          | idx n => cases c <;> simp at h

theorem replaceJ_cancel : ∀ (p : Path) (v x v' old : JValue),
    replaceJ v p x = some v' → getJ v p = some old →
    replaceJ v' p old = some v := by
  intro p v x v' old h hg
  cases p with
  | nil =>
      simp only [replaceJ, Option.some.injEq] at h
      simp only [getJ, Option.some.injEq] at hg
      subst h; subst hg
      simp [replaceJ]
  | cons s rest =>
      simp only [replaceJ] at h ⊢
      refine navEdit_cancel_exact (s :: rest) v v' h ?_
      intro s2 c c2 hnav hfin
      rw [getJ_navParent (s :: rest) v (by simp), hnav] at hg
      cases s2 with
      | key k =>
          cases c with
          | obj ms =>
              simp only [childAt] at hg
              simp only [replaceFin] at hfin
              by_cases hck : ms.containsKey k = true
              · simp only [hck, if_true, Option.some.injEq] at hfin
                subst hfin
                have hck2 : (ms.setVal k x).containsKey k = true := by
                  simpa [JObj.containsKey_setVal] using hck
                simp [replaceFin, hck2, JObj.setVal_setVal,
                  JObj.setVal_lookup_id ms k old hg]
              · simp [hck] at hfin
          | null => simp [replaceFin] at hfin
          | bool _ => simp [replaceFin] at hfin
          | num _ => simp [replaceFin] at hfin
          | str _ => simp [replaceFin] at hfin
          | arr _ => simp [replaceFin] at hfin
      | idx n =>
          cases c with
          | arr xs =>
              simp only [childAt] at hg
              simp only [replaceFin] at hfin
              by_cases hn : n < xs.length
              · simp only [hn, if_true, Option.some.injEq] at hfin
                subst hfin
                have hn2 : n < (xs.setAt n x).length := by rwa [JArr.length_setAt]
                simp [replaceFin, hn2, JArr.setAt_setAt,
                  JArr.setAt_getAt_id xs n old hg]
              · simp [hn] at hfin
          | null => simp [replaceFin] at hfin
          | bool _ => simp [replaceFin] at hfin
          | num _ => simp [replaceFin] at hfin
          | str _ => simp [replaceFin] at hfin
          | obj _ => simp [replaceFin] at hfin

theorem addJ_replaces_cancel : ∀ (p : Path) (v x v' old : JValue),
    addReplaces v p = true → addJ v p x = some v' → getJ v p = some old →
    replaceJ v' p old = some v := by
  intro p v x v' old hrep h hg
  cases p with
  | nil =>
      simp only [addJ, Option.some.injEq] at h
      simp only [getJ, Option.some.injEq] at hg
      subst h; subst hg
      simp [replaceJ]
  | cons s rest =>
      simp only [addJ] at h
      simp only [replaceJ]
      refine navEdit_cancel_exact (s :: rest) v v' h ?_
      intro s2 c c2 hnav hfin
      rw [getJ_navParent (s :: rest) v (by simp), hnav] at hg
      simp only [addReplaces, hnav] at hrep
      cases s2 with
      | key k =>
          cases c with
          | obj ms =>
              simp only at hrep
              simp only [childAt] at hg
              simp only [addFin, Option.some.injEq] at hfin
              subst hfin
              have hck2 : (ms.setVal k x).containsKey k = true := by
                simpa [JObj.containsKey_setVal] using hrep
              simp [replaceFin, JObj.upsert, hrep, hck2, JObj.setVal_setVal,
                JObj.setVal_lookup_id ms k old hg]
          | null => simp at hrep
          | bool _ => simp at hrep
          | num _ => simp at hrep
          | str _ => simp at hrep
          | arr _ => simp at hrep
      | idx n => cases c <;> simp at hrep

theorem addJ_inserts_cancel : ∀ (p : Path) (v x v' : JValue),
    addReplaces v p = false → addJ v p x = some v' →
    removeJ v' p = some v := by
  intro p v x v' hrep h
  cases p with
  | nil => simp [addReplaces] at hrep
  | cons s rest =>
      simp only [addJ] at h
      simp only [removeJ]
      refine navEdit_cancel_exact (s :: rest) v v' h ?_
      intro s2 c c2 hnav hfin
      simp only [addReplaces, hnav] at hrep
      cases s2 with
      | key k =>
          cases c with
          | obj ms =>
              simp only at hrep
              simp only [addFin, Option.some.injEq] at hfin
              subst hfin
              have hck2 : (ms.append k x).containsKey k = true := by
                simp [JObj.containsKey, JObj.lookup_append_self ms k x hrep]
              simp [JObj.upsert, hrep, removeFin, hck2,
                JObj.removeKey_append_fresh ms k x hrep]
          | null => simp [addFin] at hfin
          | bool _ => simp [addFin] at hfin
          | num _ => simp [addFin] at hfin
          | str _ => simp [addFin] at hfin
          | arr _ => simp [addFin] at hfin
      | idx n =>
          cases c with
          | arr xs =>
              simp only [addFin] at hfin
              by_cases hn : n ≤ xs.length
              · simp only [hn, if_true, Option.some.injEq] at hfin
                subst hfin
                have hn2 : n < (xs.insertAt n x).length := by
                  rw [JArr.length_insertAt xs n x hn]; omega
                simp [removeFin, hn2, JArr.removeAt_insertAt xs n x hn]
              · simp [hn] at hfin
          | null => simp [addFin] at hfin
          | bool _ => simp [addFin] at hfin
          | num _ => simp [addFin] at hfin
          | str _ => simp [addFin] at hfin
          | obj _ => simp [addFin] at hfin

theorem removeJ_restore : ∀ (p : Path) (v v' old : JValue), ukB v = true →
    removeJ v p = some v' → getJ v p = some old →
    ∃ w, addJ v' p old = some w ∧ jeq w v = true ∧ ukB w = true := by
  intro p v v' old hv h hg
  cases p with
  | nil => simp [removeJ] at h
  | cons s rest =>
      simp only [removeJ] at h
      simp only [addJ]
      refine navEdit_cancel_jeq (s :: rest) v v' hv h ?_
      intro s2 c c2 hnav hfin
      rw [getJ_navParent (s :: rest) v (by simp), hnav] at hg
      have huc : ukB c = true := navParent_ukB (s :: rest) v s2 c hv hnav
      cases s2 with
      | key k =>
          cases c with
          | obj ms =>
              simp only [childAt] at hg
              simp only [removeFin] at hfin
              by_cases hck : ms.containsKey k = true
              · simp only [hck, if_true, Option.some.injEq] at hfin
                subst hfin
                have huo : ukObj ms = true := by simpa [ukB] using huc
                have hfresh := JObj.containsKey_removeKey_self ms k huo
                refine ⟨.obj ((ms.removeKey k).append k old), ?_, ?_, ?_⟩
                · simp [addFin, JObj.upsert, hfresh]
                · exact jeq_obj_restore ms k old huo hg
                · simpa [ukB] using JObj.ukObj_append_fresh (ms.removeKey k) k old
                    (JObj.ukObj_removeKey ms k huo)
                    (JObj.lookup_ukB ms k old huo hg) hfresh
              · simp [hck] at hfin
          | null => simp [removeFin] at hfin
          | bool _ => simp [removeFin] at hfin
          | num _ => simp [removeFin] at hfin
          | str _ => simp [removeFin] at hfin
          | arr _ => simp [removeFin] at hfin
      | idx n =>
          cases c with
          | arr xs =>
              simp only [childAt] at hg
              simp only [removeFin] at hfin
              by_cases hn : n < xs.length
              · simp only [hn, if_true, Option.some.injEq] at hfin
                subst hfin
                have hlen := JArr.length_removeAt xs n hn
                refine ⟨.arr ((xs.removeAt n).insertAt n old), ?_, ?_, ?_⟩
                · have hn2 : n ≤ (xs.removeAt n).length := by omega
                  simp [addFin, hn2]
                · rw [JArr.insertAt_removeAt xs n old hg]
                  exact jeq_refl (.arr xs) huc
                · rw [JArr.insertAt_removeAt xs n old hg]
                  exact huc
              · simp [hn] at hfin
          | null => simp [removeFin] at hfin
          | bool _ => simp [removeFin] at hfin
          | num _ => simp [removeFin] at hfin
          | str _ => simp [removeFin] at hfin
          | obj _ => simp [removeFin] at hfin

/-! ## Deep-equality congruence of the patch operations -/

theorem contains_of_jeq : ∀ (as bs : JObj) (k : String),
    jeq (.obj as) (.obj bs) = true → as.containsKey k = bs.containsKey k := by
  intro as bs k h
  have hpt := jeq_obj_elim as bs h k
  simp only [JObj.containsKey]
  cases ha : as.lookup k with
  | none =>
      rw [ha] at hpt
      cases hb : bs.lookup k with
      | none => simp
      | some d => rw [hb] at hpt; simp [optJeq] at hpt
  | some c =>
      rw [ha] at hpt
      cases hb : bs.lookup k with
      | none => rw [hb] at hpt; simp [optJeq] at hpt
      | some d => simp

theorem addFin_jeq (x y : JValue) (hx : ukB x = true) (hxy : jeq x y = true) :
    ∀ s c d c2, jeq c d = true → ukB c = true → ukB d = true →
    addFin x s c = some c2 → ∃ d2, addFin y s d = some d2 ∧ jeq c2 d2 = true := by
  intro s c d c2 hcd hc _ h
  cases s with
  | key k =>
      cases c with
      | obj ms =>
          cases d with
          | obj ms2 =>
              simp only [addFin, Option.some.injEq] at h
              subst h
              refine ⟨.obj (ms2.upsert k y), by simp [addFin], ?_⟩
              have hck := contains_of_jeq ms ms2 k hcd
              simp only [JObj.upsert, hck]
              by_cases hc2 : ms2.containsKey k = true
              · simp only [hc2, if_true]
                exact jeq_obj_setVal_cong ms ms2 k x y hcd
                  (by simpa [ukB] using hc) hx hxy (by rw [hck]; exact hc2)
              · have hc2' : ms2.containsKey k = false := by
                  cases hcc : ms2.containsKey k
                  · rfl
                  · exact absurd hcc hc2
                simp only [hc2', Bool.false_eq_true, if_false]
                exact jeq_obj_append_cong ms ms2 k x y hcd
                  (by simpa [ukB] using hc) hx hxy (by rw [hck]; exact hc2') hc2'
          | null => simp [jeq] at hcd
          | bool _ => simp [jeq] at hcd
          | num _ => simp [jeq] at hcd
          | str _ => simp [jeq] at hcd
          | arr _ => simp [jeq] at hcd
      | null => simp [addFin] at h
      | bool _ => simp [addFin] at h
      | num _ => simp [addFin] at h
      | str _ => simp [addFin] at h
      | arr _ => simp [addFin] at h
  | idx n =>
      cases c with
      | arr xs =>
          cases d with
          | arr ys =>
              simp only [addFin] at h
              by_cases hn : n ≤ xs.length
              · simp only [hn, if_true, Option.some.injEq] at h
                subst h
                have harr : jeqArr xs ys = true := by simpa [jeq] using hcd
                have hlen := jeqArr_length xs ys harr
                refine ⟨.arr (ys.insertAt n y), by simp [addFin]; omega, ?_⟩
                simpa [jeq] using jeqArr_insertAt xs ys n x y harr hxy
              · simp [hn] at h
          | null => simp [jeq] at hcd
          | bool _ => simp [jeq] at hcd
          | num _ => simp [jeq] at hcd
          | str _ => simp [jeq] at hcd
          | obj _ => simp [jeq] at hcd
      | null => simp [addFin] at h
      | bool _ => simp [addFin] at h
      | num _ => simp [addFin] at h
      | str _ => simp [addFin] at h
      | obj _ => simp [addFin] at h

theorem replaceFin_jeq (x y : JValue) (hx : ukB x = true) (hxy : jeq x y = true) :
    ∀ s c d c2, jeq c d = true → ukB c = true → ukB d = true →
    replaceFin x s c = some c2 →
    ∃ d2, replaceFin y s d = some d2 ∧ jeq c2 d2 = true := by
  intro s c d c2 hcd hc _ h
  cases s with
  | key k =>
      cases c with
      | obj ms =>
          cases d with
          | obj ms2 =>
              simp only [replaceFin] at h
              by_cases hck : ms.containsKey k = true
              · simp only [hck, if_true, Option.some.injEq] at h
                subst h
                have hck2 : ms2.containsKey k = true := by
                  rw [← contains_of_jeq ms ms2 k hcd]; exact hck
                refine ⟨.obj (ms2.setVal k y), by simp [replaceFin, hck2], ?_⟩
                exact jeq_obj_setVal_cong ms ms2 k x y hcd
                  (by simpa [ukB] using hc) hx hxy hck
              · simp [hck] at h
          | null => simp [jeq] at hcd
          | bool _ => simp [jeq] at hcd
          | num _ => simp [jeq] at hcd
          | str _ => simp [jeq] at hcd
          | arr _ => simp [jeq] at hcd
      | null => simp [replaceFin] at h
      | bool _ => simp [replaceFin] at h
      | num _ => simp [replaceFin] at h
      | str _ => simp [replaceFin] at h
      | arr _ => simp [replaceFin] at h
  | idx n =>
      cases c with
      | arr xs =>
          cases d with
          | arr ys =>
              simp only [replaceFin] at h
              by_cases hn : n < xs.length
              · simp only [hn, if_true, Option.some.injEq] at h
                subst h
                have harr : jeqArr xs ys = true := by simpa [jeq] using hcd
                have hlen := jeqArr_length xs ys harr
                refine ⟨.arr (ys.setAt n y), by simp [replaceFin]; omega, ?_⟩
                simpa [jeq] using jeqArr_setAt xs ys n x y harr hxy
              · simp [hn] at h
          | null => simp [jeq] at hcd
          | bool _ => simp [jeq] at hcd
          | num _ => simp [jeq] at hcd
          | str _ => simp [jeq] at hcd
          | obj _ => simp [jeq] at hcd
      | null => simp [replaceFin] at h
      | bool _ => simp [replaceFin] at h
      | num _ => simp [replaceFin] at h
      | str _ => simp [replaceFin] at h
      | obj _ => simp [replaceFin] at h

theorem removeFin_jeq :
    ∀ s c d c2, jeq c d = true → ukB c = true → ukB d = true →
    removeFin s c = some c2 → ∃ d2, removeFin s d = some d2 ∧ jeq c2 d2 = true := by
  intro s c d c2 hcd hc hd h
  cases s with
  | key k =>
      cases c with
      | obj ms =>
          cases d with
          | obj ms2 =>
              simp only [removeFin] at h
              by_cases hck : ms.containsKey k = true
              · simp only [hck, if_true, Option.some.injEq] at h
                subst h
                have hck2 : ms2.containsKey k = true := by
                  rw [← contains_of_jeq ms ms2 k hcd]; exact hck
                refine ⟨.obj (ms2.removeKey k), by simp [removeFin, hck2], ?_⟩
                exact jeq_obj_removeKey_cong ms ms2 k hcd
                  (by simpa [ukB] using hc) (by simpa [ukB] using hd)
              · simp [hck] at h
          | null => simp [jeq] at hcd
          | bool _ => simp [jeq] at hcd
          | num _ => simp [jeq] at hcd
          | str _ => simp [jeq] at hcd
          | arr _ => simp [jeq] at hcd
      | null => simp [removeFin] at h
      | bool _ => simp [removeFin] at h
      | num _ => simp [removeFin] at h
      | str _ => simp [removeFin] at h
      | arr _ => simp [removeFin] at h
  | idx n =>
      cases c with
      | arr xs =>
          cases d with
          | arr ys =>
              simp only [removeFin] at h
              by_cases hn : n < xs.length
              · simp only [hn, if_true, Option.some.injEq] at h
                subst h
                have harr : jeqArr xs ys = true := by simpa [jeq] using hcd
                have hlen := jeqArr_length xs ys harr
                refine ⟨.arr (ys.removeAt n), by simp [removeFin]; omega, ?_⟩
                simpa [jeq] using jeqArr_removeAt xs ys n harr
              · simp [hn] at h
          | null => simp [jeq] at hcd
          | bool _ => simp [jeq] at hcd
          | num _ => simp [jeq] at hcd
          | str _ => simp [jeq] at hcd
          | obj _ => simp [jeq] at hcd
      | null => simp [removeFin] at h
      | bool _ => simp [removeFin] at h
      | num _ => simp [removeFin] at h
      | str _ => simp [removeFin] at h
      | obj _ => simp [removeFin] at h

theorem addJ_jeq : ∀ (p : Path) (a b x y a' : JValue), jeq a b = true →
    ukB a = true → ukB b = true → ukB x = true → jeq x y = true →
    addJ a p x = some a' → ∃ b', addJ b p y = some b' ∧ jeq a' b' = true := by
  intro p a b x y a' hab hua hub hx hxy h
  cases p with
  | nil =>
      simp only [addJ, Option.some.injEq] at h
      subst h
      exact ⟨y, by simp [addJ], hxy⟩
  | cons s rest =>
      simp only [addJ] at h ⊢
      exact navEdit_jeq (addFin_ukB x hx) (addFin_jeq x y hx hxy)
        (s :: rest) a b a' hab hua hub h

theorem replaceJ_jeq : ∀ (p : Path) (a b x y a' : JValue), jeq a b = true →
    ukB a = true → ukB b = true → ukB x = true → jeq x y = true →
    replaceJ a p x = some a' →
    ∃ b', replaceJ b p y = some b' ∧ jeq a' b' = true := by
  intro p a b x y a' hab hua hub hx hxy h
  cases p with
  | nil =>
      simp only [replaceJ, Option.some.injEq] at h
      subst h
      exact ⟨y, by simp [replaceJ], hxy⟩
  | cons s rest =>
      simp only [replaceJ] at h ⊢
      exact navEdit_jeq (replaceFin_ukB x hx) (replaceFin_jeq x y hx hxy)
        (s :: rest) a b a' hab hua hub h

theorem removeJ_jeq : ∀ (p : Path) (a b a' : JValue), jeq a b = true →
    ukB a = true → ukB b = true → removeJ a p = some a' →
    ∃ b', removeJ b p = some b' ∧ jeq a' b' = true := by
  intro p a b a' hab hua hub h
  cases p with
  | nil => simp [removeJ] at h
  | cons s rest =>
      simp only [removeJ] at h ⊢
      exact navEdit_jeq removeFin_ukB removeFin_jeq
        (s :: rest) a b a' hab hua hub h

theorem applyOp_jeq : ∀ (o : Op) (a b a' : JValue), jeq a b = true →
    ukB a = true → ukB b = true → ukOp o = true → applyOp a o = some a' →
    ∃ b', applyOp b o = some b' ∧ jeq a' b' = true := by
  intro o a b a' hab hua hub ho h
  cases o with
  | add p x =>
      simp only [applyOp] at h ⊢
      exact addJ_jeq p a b x x a' hab hua hub (by simpa [ukOp] using ho)
        (jeq_refl x (by simpa [ukOp] using ho)) h
  | remove p =>
      simp only [applyOp] at h ⊢
      exact removeJ_jeq p a b a' hab hua hub h
  | replace p x =>
      simp only [applyOp] at h ⊢
      exact replaceJ_jeq p a b x x a' hab hua hub (by simpa [ukOp] using ho)
        (jeq_refl x (by simpa [ukOp] using ho)) h
  | move f t =>
      simp only [applyOp] at h ⊢
      by_cases hft : f = t
      · simp only [hft, if_true, Option.some.injEq] at h ⊢
        subst h
        exact ⟨b, rfl, hab⟩
      · simp only [hft, if_false] at h ⊢
        cases hg : getJ a f with
        | none => rw [hg] at h; simp at h
        | some x =>
            rw [hg] at h
            have hpt := getJ_jeq f a b hab
            rw [hg] at hpt
            cases hg2 : getJ b f with
            | none => rw [hg2] at hpt; simp [optJeq] at hpt
            | some x2 =>
                rw [hg2] at hpt
                simp only [optJeq] at hpt
                cases hr : removeJ a f with
                | none => rw [hr] at h; simp at h
                | some v1 =>
                    rw [hr] at h
                    simp only at h
                    obtain ⟨v1b, hr2, hj1⟩ :=
                      removeJ_jeq f a b v1 hab hua hub hr
                    obtain ⟨b', hb', hj2⟩ := addJ_jeq t v1 v1b x x2 a' hj1
                      (removeJ_ukB f a v1 hua hr) (removeJ_ukB f b v1b hub hr2)
                      (getJ_ukB f a x hua hg) hpt h
                    exact ⟨b', by simp [hg2, hr2, hb'], hj2⟩
  | copy f t =>
      simp only [applyOp] at h ⊢
      cases hg : getJ a f with
      | none => rw [hg] at h; simp at h
      | some x =>
          rw [hg] at h
          simp only at h
          have hpt := getJ_jeq f a b hab
          rw [hg] at hpt
          cases hg2 : getJ b f with
          | none => rw [hg2] at hpt; simp [optJeq] at hpt
          | some x2 =>
              rw [hg2] at hpt
              simp only [optJeq] at hpt
              obtain ⟨b', hb', hj2⟩ := addJ_jeq t a b x x2 a' hab hua hub
                (getJ_ukB f a x hua hg) hpt h
              exact ⟨b', by simp [hg2, hb'], hj2⟩
  | test p x =>
      simp only [applyOp] at h ⊢
      cases hg : getJ a p with
      | none => rw [hg] at h; simp at h
      | some y =>
          rw [hg] at h
          by_cases hj : jeq y x = true
          · simp only [hj, if_true, Option.some.injEq] at h
            subst h
            have hpt := getJ_jeq p a b hab
            rw [hg] at hpt
            cases hg2 : getJ b p with
            | none => rw [hg2] at hpt; simp [optJeq] at hpt
            | some y2 =>
                rw [hg2] at hpt
                simp only [optJeq] at hpt
                have hy2 : ukB y2 = true := getJ_ukB p b y2 hub hg2
                have hsym : jeq y2 y = true := jeq_symm y2 hy2 y hpt
                have hy2x : jeq y2 x = true := jeq_trans y y2 x hsym hj
                exact ⟨b, by simp [hg2, hy2x], hab⟩
          · simp [hj] at h

theorem applyPatch_jeq : ∀ (ops : List Op) (a b a' : JValue), jeq a b = true →
    ukB a = true → ukB b = true → opsUK ops = true →
    applyPatch a ops = some a' →
    ∃ b', applyPatch b ops = some b' ∧ jeq a' b' = true := by
  intro ops
  induction ops with
  | nil =>
      intro a b a' hab _ _ _ h
      simp only [applyPatch, Option.some.injEq] at h
      subst h
      exact ⟨b, rfl, hab⟩
  | cons o os ih =>
      intro a b a' hab hua hub ho h
      simp only [opsUK, Bool.and_eq_true] at ho
      simp only [applyPatch] at h ⊢
      cases ha : applyOp a o with
      | none => rw [ha] at h; simp at h
      | some am =>
          rw [ha] at h
          obtain ⟨bm, hbm, hjm⟩ := applyOp_jeq o a b am hab hua hub ho.1 ha
          obtain ⟨b', hb', hj'⟩ := ih am bm a' hjm
            (applyOp_ukB o a am hua ho.1 ha) (applyOp_ukB o b bm hub ho.1 hbm)
            ho.2 h
          exact ⟨b', by simp [hbm, hb'], hj'⟩

/-! ## Correctness of the inverse patch -/

theorem opsUK_append : ∀ (l1 l2 : List Op),
    opsUK (l1 ++ l2) = (opsUK l1 && opsUK l2) := by
  intro l1
  induction l1 with
  | nil => intro l2; simp [opsUK]
  | cons o os ih => intro l2; simp [opsUK, ih, Bool.and_assoc]

theorem revertAdd_ops_uk : ∀ (v : JValue) (p : Path) (r : List Op),
    ukB v = true → revertAdd v p = some r → opsUK r = true := by
  intro v p r hv h
  simp only [revertAdd] at h
  by_cases hrep : addReplaces v p = true
  · simp only [hrep, if_true] at h
    cases hg : getJ v p with
    | none => rw [hg] at h; simp at h
    | some old =>
        simp only [hg, Option.some.injEq] at h
        subst h
        simp [opsUK, ukOp, getJ_ukB p v old hv hg]
  · rw [Bool.not_eq_true] at hrep
    simp only [hrep, Bool.false_eq_true, if_false, Option.some.injEq] at h
    subst h
    simp [opsUK, ukOp]

theorem revertOps_ops_uk : ∀ (o : Op) (v : JValue) (r : List Op),
    ukB v = true → revertOps v o = some r → opsUK r = true := by
  intro o v r hv h
  cases o with
  | add p x => exact revertAdd_ops_uk v p r hv (by simpa [revertOps] using h)
  | remove p =>
      simp only [revertOps] at h
      cases hg : getJ v p with
      | none => rw [hg] at h; simp at h
      | some old =>
          simp only [hg, Option.some.injEq] at h
          subst h
          simp [opsUK, ukOp, getJ_ukB p v old hv hg]
  | replace p x =>
      simp only [revertOps] at h
      cases hg : getJ v p with
      | none => rw [hg] at h; simp at h
      | some old =>
          simp only [hg, Option.some.injEq] at h
          subst h
          simp [opsUK, ukOp, getJ_ukB p v old hv hg]
  | move f t =>
      simp only [revertOps] at h
      by_cases hft : f = t
      · simp only [hft, if_true, Option.some.injEq] at h
        subst h; rfl
      · simp only [hft, if_false] at h
        cases hg : getJ v f with
        | none => rw [hg] at h; simp at h
        | some x =>
            cases hr : removeJ v f with
            | none => simp [hg, hr] at h
            | some v1 =>
                cases hra : revertAdd v1 t with
                | none => simp [hg, hr, hra] at h
                | some r2 =>
                    simp only [hg, hr, hra, Option.some.injEq] at h
                    subst h
                    rw [opsUK_append]
                    simp [revertAdd_ops_uk v1 t r2 (removeJ_ukB f v v1 hv hr) hra,
                      opsUK, ukOp, getJ_ukB f v x hv hg]
  | copy f t => exact revertAdd_ops_uk v t r hv (by simpa [revertOps] using h)
  | test p x =>
      simp only [revertOps, Option.some.injEq] at h
      subst h; rfl

/-- Reverting an `add` restores the original document exactly. -/
theorem revertAdd_correct : ∀ (v x v2 : JValue) (p : Path) (r : List Op),
    addJ v p x = some v2 → revertAdd v p = some r →
    applyPatch v2 r = some v := by
  intro v x v2 p r h hr
  simp only [revertAdd] at hr
  by_cases hrep : addReplaces v p = true
  · simp only [hrep, if_true] at hr
    cases hg : getJ v p with
    | none => rw [hg] at hr; simp at hr
    | some old =>
        rw [hg] at hr
        simp only [Option.some.injEq] at hr
        subst hr
        simp only [applyPatch, applyOp]
        rw [addJ_replaces_cancel p v x v2 old hrep h hg]
  · rw [Bool.not_eq_true] at hrep
    simp only [hrep, Bool.false_eq_true, if_false, Option.some.injEq] at hr
    subst hr
    simp only [applyPatch, applyOp]
    rw [addJ_inserts_cancel p v x v2 hrep h]

/-- Reverting a single operation restores a deep-equal document. -/
theorem revert_op : ∀ (o : Op) (v v2 : JValue) (r : List Op), ukB v = true →
    applyOp v o = some v2 → revertOps v o = some r →
    ∃ w, applyPatch v2 r = some w ∧ jeq w v = true ∧ ukB w = true := by
  intro o v v2 r hv h hr
  cases o with
  | add p x =>
      simp only [applyOp] at h
      simp only [revertOps] at hr
      exact ⟨v, revertAdd_correct v x v2 p r h hr, jeq_refl v hv, hv⟩
  | remove p =>
      simp only [applyOp] at h
      simp only [revertOps] at hr
      cases hg : getJ v p with
      | none => rw [hg] at hr; simp at hr
      | some old =>
          rw [hg] at hr
          simp only [Option.some.injEq] at hr
          subst hr
          obtain ⟨w, hw, hj, hu⟩ := removeJ_restore p v v2 old hv h hg
          refine ⟨w, ?_, hj, hu⟩
          simp [applyPatch, applyOp, hw]
  | replace p x =>
      simp only [applyOp] at h
      simp only [revertOps] at hr
      cases hg : getJ v p with
      | none => rw [hg] at hr; simp at hr
      | some old =>
          rw [hg] at hr
          simp only [Option.some.injEq] at hr
          subst hr
          refine ⟨v, ?_, jeq_refl v hv, hv⟩
          simp [applyPatch, applyOp, replaceJ_cancel p v x v2 old h hg]
  | move f t =>
      simp only [applyOp] at h
      simp only [revertOps] at hr
      by_cases hft : f = t
      · simp only [hft, if_true, Option.some.injEq] at h hr
        subst h; subst hr
        exact ⟨v, by simp [applyPatch], jeq_refl v hv, hv⟩
      · simp only [hft, if_false] at h hr
        cases hg : getJ v f with
        | none => rw [hg] at h; simp at h
        | some x =>
            cases hrm : removeJ v f with
            | none => simp [hg, hrm] at h
            | some v1 =>
                simp only [hg, hrm] at h hr
                cases hra : revertAdd v1 t with
                | none => simp [hra] at hr
                | some r2 =>
                    simp only [hra, Option.some.injEq] at hr
                    subst hr
                    rw [applyPatch_append]
                    rw [revertAdd_correct v1 x v2 t r2 h hra]
                    obtain ⟨w, hw, hj, hu⟩ := removeJ_restore f v v1 x hv hrm hg
                    refine ⟨w, ?_, hj, hu⟩
                    simp [applyPatch, applyOp, hw]
  | copy f t =>
      simp only [applyOp] at h
      simp only [revertOps] at hr
      cases hg : getJ v f with
      | none => rw [hg] at h; simp at h
      | some x =>
          rw [hg] at h
          simp only at h
          exact ⟨v, revertAdd_correct v x v2 t r h hr, jeq_refl v hv, hv⟩
  | test p x =>
      simp only [applyOp] at h
      simp only [revertOps, Option.some.injEq] at hr
      subst hr
      cases hg : getJ v p with
      | none => rw [hg] at h; simp at h
      | some y =>
          rw [hg] at h
          by_cases hj : jeq y x = true
          · simp only [hj, if_true, Option.some.injEq] at h
            subst h
            exact ⟨v, by simp [applyPatch], jeq_refl v hv, hv⟩
          · simp [hj] at h

/-- `revertJSONPatch` is correct: applying the inverse patch to the patched
document restores a document deep-equal to the original. -/
theorem revertPatch_correct : ∀ (ops : List Op) (v v2 : JValue) (inv : List Op),
    ukB v = true → opsUK ops = true → applyPatch v ops = some v2 →
    revertPatch v ops = some inv →
    ∃ w, applyPatch v2 inv = some w ∧ jeq w v = true ∧ ukB w = true := by
  intro ops
  induction ops with
  | nil =>
      intro v v2 inv hv _ h hr
      simp only [applyPatch, Option.some.injEq] at h
      simp only [revertPatch, Option.some.injEq] at hr
      subst h; subst hr
      exact ⟨v, by simp [applyPatch], jeq_refl v hv, hv⟩
  | cons o os ih =>
      intro v v2 inv hv ho h hr
      simp only [opsUK, Bool.and_eq_true] at ho
      simp only [applyPatch] at h
      simp only [revertPatch] at hr
      cases ha : applyOp v o with
      | none => rw [ha] at h; simp at h
      | some vm =>
          rw [ha] at h hr
          cases hro : revertOps v o with
          | none => rw [hro] at hr; simp at hr
          | some r =>
              rw [hro] at hr
              simp only at hr
              cases hrs : revertPatch vm os with
              | none => rw [hrs] at hr; simp at hr
              | some rs =>
                  rw [hrs] at hr
                  simp only [Option.some.injEq] at hr
                  subst hr
                  have hukm : ukB vm = true := applyOp_ukB o v vm hv ho.1 ha
                  obtain ⟨w1, hw1, hj1, hu1⟩ := ih vm v2 rs hukm ho.2 h hrs
                  obtain ⟨w0, hw0, hj0, hu0⟩ := revert_op o v vm r hv ha hro
                  have hops_r : opsUK r = true := revertOps_ops_uk o v r hv hro
                  have hsym : jeq vm w1 = true := jeq_symm vm hukm w1 hj1
                  obtain ⟨w2, hw2, hj2⟩ :=
                    applyPatch_jeq r vm w1 w0 hsym hukm hu1 hops_r hw0
                  have hu2 : ukB w2 = true := applyPatch_ukB r w1 w2 hu1 hops_r hw2
                  have hsym2 : jeq w2 w0 = true := jeq_symm w2 hu2 w0 hj2
                  have hfin : jeq w2 v = true := jeq_trans w0 w2 v hsym2 hj0
                  refine ⟨w2, ?_, hfin, hu2⟩
                  rw [applyPatch_append, hw1]
                  exact hw2

example :
    applyPatch (.obj (.cons "a" (.num 1) .nil)) [.replace [.key "a"] (.num 2)]
      = some (.obj (.cons "a" (.num 2) .nil)) := by
  simp [applyPatch, applyOp, replaceJ, navEdit, replaceFin, JObj.containsKey,
    JObj.lookup, JObj.setVal]

example :
    revertPatch (.obj (.cons "a" (.num 1) .nil)) [.replace [.key "a"] (.num 2)]
      = some [.replace [.key "a"] (.num 1)] := by
  simp [revertPatch, revertOps, applyOp, replaceJ, navEdit, replaceFin, getJ,
    JObj.containsKey, JObj.lookup, JObj.setVal]

/-! ## JSON serializer and parser

Modelled from the spec: `JSON.parse` / `JSON.stringify` are host builtins
consumed by `TextMode.svelte`; the spec describes Format as "parse then
re-serialize with indentation" and Compact as "parse then re-serialize with
no whitespace".  Numbers are decimal integers (the `JValue` fragment);
strings escape the quote, the backslash and control characters. -/

def isWs (c : Char) : Bool :=
  c = ' ' || c = '\n' || c = '\t' || c = '\r'

def skipWs : List Char → List Char
  | [] => []
  | c :: cs => if isWs c then skipWs cs else c :: cs

def hexDigitChar : Nat → Char
  | 0 => '0' | 1 => '1' | 2 => '2' | 3 => '3' | 4 => '4'
  | 5 => '5' | 6 => '6' | 7 => '7' | 8 => '8' | 9 => '9'
  | 10 => 'a' | 11 => 'b' | 12 => 'c' | 13 => 'd' | 14 => 'e' | 15 => 'f'
  | _ => '0'

def hexVal (c : Char) : Option Nat :=
  if c.isDigit then some (c.toNat - 48)
  else if 97 ≤ c.toNat ∧ c.toNat ≤ 102 then some (c.toNat - 87)
  else if 65 ≤ c.toNat ∧ c.toNat ≤ 70 then some (c.toNat - 55)
  else none

/-- `JSON.stringify` escaping of one string character. -/
def escapeChar (c : Char) : List Char :=
  if c = '"' then ['\\', '"']
  else if c = '\\' then ['\\', '\\']
  else if c = '\n' then ['\\', 'n']
  else if c = '\t' then ['\\', 't']
  else if c = '\r' then ['\\', 'r']
  else if c = Char.ofNat 8 then ['\\', 'b']
  else if c = Char.ofNat 12 then ['\\', 'f']
  else if c.toNat < 32 then
    ['\\', 'u', '0', '0', hexDigitChar (c.toNat / 16), hexDigitChar (c.toNat % 16)]
  else [c]

def escapeList : List Char → List Char
  | [] => []
  | c :: cs => escapeChar c ++ escapeList cs

/-- A JSON string literal, quotes included. -/
def quoteString (s : String) : List Char :=
  '"' :: (escapeList s.data ++ ['"'])

/-- Parse the body of a string literal up to the closing quote. -/
def parseStringBody : List Char → Option (List Char × List Char)
  | [] => none
  | c :: cs =>
      if c = '"' then some ([], cs)
      else if c = '\\' then
        match cs with
        | [] => none
        | e :: cs2 =>
            if e = '"' then (parseStringBody cs2).map (fun r => ('"' :: r.1, r.2))
            else if e = '\\' then
              (parseStringBody cs2).map (fun r => ('\\' :: r.1, r.2))
            else if e = '/' then
              (parseStringBody cs2).map (fun r => ('/' :: r.1, r.2))
            else if e = 'n' then
              (parseStringBody cs2).map (fun r => ('\n' :: r.1, r.2))
            else if e = 't' then
              (parseStringBody cs2).map (fun r => ('\t' :: r.1, r.2))
            else if e = 'r' then
              (parseStringBody cs2).map (fun r => ('\r' :: r.1, r.2))
            else if e = 'b' then
              (parseStringBody cs2).map (fun r => (Char.ofNat 8 :: r.1, r.2))
            else if e = 'f' then
              (parseStringBody cs2).map (fun r => (Char.ofNat 12 :: r.1, r.2))
            else if e = 'u' then
              match cs2 with
              | h1 :: h2 :: h3 :: h4 :: cs3 =>
                  match hexVal h1, hexVal h2, hexVal h3, hexVal h4 with
                  | some a, some b, some c3, some d =>
                      (parseStringBody cs3).map
                        (fun r =>
                          (Char.ofNat (((a * 16 + b) * 16 + c3) * 16 + d) :: r.1,
                           r.2))
                  | _, _, _, _ => none
              | _ => none
            else none
      else if 32 ≤ c.toNat then
        (parseStringBody cs).map (fun r => (c :: r.1, r.2))
      else none

/-- Match an expected literal tail character by character. -/
def expectChars : List Char → List Char → Option (List Char)
  | [], r => some r
  | e :: es, c :: r => if c = e then expectChars es r else none
  | _ :: _, [] => none

def digitChar (n : Nat) : Char := Char.ofNat (48 + n)

def natRevDigits : Nat → List Char
  | 0 => []
  | n + 1 => digitChar ((n + 1) % 10) :: natRevDigits ((n + 1) / 10)
  decreasing_by exact Nat.div_lt_self (Nat.succ_pos n) (by omega)

/-- Decimal digits of a natural number. -/
def natChars (n : Nat) : List Char :=
  if n = 0 then ['0'] else (natRevDigits n).reverse

/-- Decimal representation of an integer (`String(number)` for integers). -/
def intChars (i : Int) : List Char :=
  if i < 0 then '-' :: natChars i.natAbs else natChars i.natAbs

def takeDigits : List Char → List Char × List Char
  | [] => ([], [])
  | c :: cs =>
      if c.isDigit then
        let r := takeDigits cs
        (c :: r.1, r.2)
      else ([], c :: cs)

def digitsVal (ds : List Char) : Nat :=
  ds.foldl (fun a c => a * 10 + (c.toNat - 48)) 0

def indentChars (gap d : Nat) : List Char :=
  List.replicate (gap * d) ' '

mutual

/-- `JSON.stringify(value, null, gap)` (`gap = 0` is the compact form). -/
def printVal (gap d : Nat) : JValue → List Char
  | .num i => intChars i
  | .str s => quoteString s
  | .null => 'n' :: ['u', 'l', 'l']
  | .bool b => if b then 't' :: ['r', 'u', 'e'] else 'f' :: ['a', 'l', 's', 'e']
  | .arr .nil => ['[', ']']
  | .arr (.cons v rest) =>
      if gap = 0 then
        '[' :: (printVal 0 0 v ++ printItems 0 0 rest ++ [']'])
      else
        '[' :: '\n' :: (indentChars gap (d + 1) ++ printVal gap (d + 1) v
          ++ printItems gap (d + 1) rest ++ '\n' :: (indentChars gap d ++ [']']))
  | .obj .nil => ['{', '}']
  | .obj (.cons k v rest) =>
      if gap = 0 then
        '{' :: (printMember 0 0 k v ++ printMembers 0 0 rest ++ ['}'])
      else
        '{' :: '\n' :: (indentChars gap (d + 1) ++ printMember gap (d + 1) k v
          ++ printMembers gap (d + 1) rest ++ '\n' :: (indentChars gap d ++ ['}']))
  termination_by v => (sizeOf v, 0)

def printMember (gap d : Nat) (k : String) (v : JValue) : List Char :=
  quoteString k ++ (if gap = 0 then [':'] else [':', ' ']) ++ printVal gap d v
  termination_by (sizeOf v, 1)

/-- Second and later array items, each preceded by its separator. -/
def printItems (gap d : Nat) : JArr → List Char
  | .nil => []
  | .cons v rest =>
      (if gap = 0 then [','] else ',' :: '\n' :: indentChars gap d)
        ++ printVal gap d v ++ printItems gap d rest
  termination_by xs => (sizeOf xs, 0)

/-- Second and later object members, each preceded by its separator. -/
def printMembers (gap d : Nat) : JObj → List Char
  | .nil => []
  | .cons k v rest =>
      (if gap = 0 then [','] else ',' :: '\n' :: indentChars gap d)
        ++ printMember gap d k v ++ printMembers gap d rest
  termination_by ms => (sizeOf ms, 0)

end

mutual

/-- Recursive-descent JSON parser (fuelled; each recursive call consumes one
unit of fuel). -/
def parseValue : Nat → List Char → Option (JValue × List Char)
  | 0, _ => none
  | fuel + 1, cs0 =>
      match skipWs cs0 with
      | [] => none
      | c :: r =>
          if c = 'n' then
            (expectChars ['u', 'l', 'l'] r).map (fun r2 => (.null, r2))
          else if c = 't' then
            (expectChars ['r', 'u', 'e'] r).map (fun r2 => (.bool true, r2))
          else if c = 'f' then
            (expectChars ['a', 'l', 's', 'e'] r).map (fun r2 => (.bool false, r2))
          else if c = '"' then
            (parseStringBody r).map (fun p => (.str (String.mk p.1), p.2))
          else if c = '[' then
            match skipWs r with
            | [] => none
            | c2 :: r2 =>
                if c2 = ']' then some (.arr .nil, r2)
                else
                  match parseItems fuel r with
                  | some (xs, r3) => some (.arr xs, r3)
                  | none => none
          else if c = '{' then
            match skipWs r with
            | [] => none
            | c2 :: r2 =>
                if c2 = '}' then some (.obj .nil, r2)
                else
                  match parseMembers fuel .nil r with
                  | some (ms, r3) => some (.obj ms, r3)
                  | none => none
          else if c = '-' then
            match takeDigits r with
            | ([], _) => none
            | (ds, r2) => some (.num (-(digitsVal ds : Int)), r2)
          else if c.isDigit then
            match takeDigits (c :: r) with
            | (ds, r2) => some (.num (digitsVal ds), r2)
          else none

def parseItems : Nat → List Char → Option (JArr × List Char)
  | 0, _ => none
  | fuel + 1, cs =>
      match parseValue fuel cs with
      | some (v, r) =>
          (match skipWs r with
           | [] => none
           | c :: r2 =>
              if c = ',' then
                match parseItems fuel r2 with
                | some (xs, r3) => some (.cons v xs, r3)
                | none => none
              else if c = ']' then some (.cons v .nil, r2)
              else none)
      | none => none

/-- Members accumulate by JavaScript property assignment, so a later
duplicate key overwrites the value of an earlier one. -/
def parseMembers : Nat → JObj → List Char → Option (JObj × List Char)
  | 0, _, _ => none
  | fuel + 1, acc, cs =>
      match skipWs cs with
      | [] => none
      | c :: r =>
          if c = '"' then
            match parseStringBody r with
            | some (kchars, r2) =>
                (match skipWs r2 with
                 | [] => none
                 | c2 :: r3 =>
                    if c2 = ':' then
                      match parseValue fuel r3 with
                      | some (v, r4) =>
                          (match skipWs r4 with
                           | [] => none
                           | c3 :: r5 =>
                              if c3 = ',' then
                                parseMembers fuel
                                  (acc.upsert (String.mk kchars) v) r5
                              else if c3 = '}' then
                                some (acc.upsert (String.mk kchars) v, r5)
                              else none)
                      | none => none
                    else none)
            | none => none
          else none

end

/-- `JSON.stringify(value, null, gap)` as a string. -/
def jsonStringify (gap : Nat) (j : JValue) : String :=
  String.mk (printVal gap 0 j)

/-- `JSON.parse`: succeeds exactly when the whole text is one JSON value
surrounded by whitespace. -/
def jsonParse (s : String) : Option JValue :=
  match parseValue (s.length + 1) s.data with
  | some (v, r) => if skipWs r = [] then some v else none
  | none => none

example : jsonParse "[1, 2]" = some (.arr (.cons (.num 1) (.cons (.num 2) .nil))) := by
  simp [jsonParse, parseValue, parseItems, skipWs, isWs, takeDigits, digitsVal]

example : (jsonStringify 2 (.obj (.cons "a" (.num 1) .nil))).data
    = ['\x7b', '\n', ' ', ' ', '"', 'a', '"', ':', ' ', '1', '\n', '\x7d'] := by
  simp [jsonStringify, printVal, printMember, printMembers, quoteString,
    escapeList, escapeChar, intChars, natChars, natRevDigits, digitChar,
    indentChars]

/-! ## Whitespace and digit lemmas -/

def allWs (ws : List Char) : Prop := ∀ c ∈ ws, isWs c = true

theorem allWs_nil : allWs [] := by intro c hc; simp at hc

theorem skipWs_append : ∀ (ws l : List Char), allWs ws →
    skipWs (ws ++ l) = skipWs l := by
  intro ws
  induction ws with
  | nil => intro l _; rfl
  | cons c cs ih =>
      intro l h
      have hc : isWs c = true := h c (by simp)
      simp only [List.cons_append, skipWs, hc, if_true]
      exact ih l (fun c2 hc2 => h c2 (by simp [hc2]))

theorem skipWs_cons_not (c : Char) (l : List Char) (h : isWs c = false) :
    skipWs (c :: l) = c :: l := by
  simp [skipWs, h]

theorem allWs_indent (gap d : Nat) : allWs (indentChars gap d) := by
  intro c hc
  simp only [indentChars, List.mem_replicate] at hc
  simp [hc.2, isWs]

theorem allWs_cons (c : Char) (ws : List Char) (hc : isWs c = true)
    (h : allWs ws) : allWs (c :: ws) := by
  intro c2 hc2
  rcases List.mem_cons.1 hc2 with h1 | h2
  · subst h1; exact hc
  · exact h c2 h2

theorem digitChar_isDigit (m : Nat) (h : m < 10) :
    (digitChar m).isDigit = true := by
  interval_cases m <;> decide

theorem digitChar_toNat (m : Nat) (h : m < 10) :
    (digitChar m).toNat = 48 + m := by
  interval_cases m <;> decide

theorem natRevDigits_digits : ∀ n, ∀ c ∈ natRevDigits n, c.isDigit = true := by
  intro n
  induction n using Nat.strong_induction_on with
  | _ n ih =>
      match n with
      | 0 => intro c hc; simp [natRevDigits] at hc
      | m + 1 =>
          intro c hc
          simp only [natRevDigits, List.mem_cons] at hc
          rcases hc with h1 | h2
          · subst h1
            exact digitChar_isDigit _ (Nat.mod_lt _ (by omega))
          · exact ih ((m + 1) / 10) (Nat.div_lt_self (by omega) (by omega)) c h2

theorem natChars_digits : ∀ n, ∀ c ∈ natChars n, c.isDigit = true := by
  intro n c hc
  simp only [natChars] at hc
  by_cases h0 : n = 0
  · simp [h0] at hc
    subst hc; decide
  · simp only [h0, if_false] at hc
    exact natRevDigits_digits n c (List.mem_reverse.1 hc)

theorem natChars_ne_nil (n : Nat) : natChars n ≠ [] := by
  simp only [natChars]
  by_cases h0 : n = 0
  · simp [h0]
  · simp only [h0, if_false]
    intro hrev
    rw [List.reverse_eq_nil_iff] at hrev
    match h : n, h0 with
    | m + 1, _ => simp [natRevDigits] at hrev

theorem digitsVal_append_digit (ds : List Char) (c : Char) :
    digitsVal (ds ++ [c]) = 10 * digitsVal ds + (c.toNat - 48) := by
  simp [digitsVal, List.foldl_append]
  omega

theorem digitsVal_revDigits : ∀ n, digitsVal ((natRevDigits n).reverse) = n := by
  intro n
  induction n using Nat.strong_induction_on with
  | _ n ih =>
      match n with
      | 0 => simp [natRevDigits, digitsVal]
      | m + 1 =>
          simp only [natRevDigits, List.reverse_cons]
          rw [digitsVal_append_digit]
          rw [ih ((m + 1) / 10) (Nat.div_lt_self (by omega) (by omega))]
          rw [digitChar_toNat _ (Nat.mod_lt _ (by omega))]
          omega

theorem digitsVal_natChars (n : Nat) : digitsVal (natChars n) = n := by
  simp only [natChars]
  by_cases h0 : n = 0
  · simp [h0, digitsVal]
  · simp only [h0, if_false]
    exact digitsVal_revDigits n

/-- The head of the remainder is not a digit (so a greedy number parse
stops exactly at the printed digits). -/
def headNotDigit : List Char → Prop
  | [] => True
  | c :: _ => c.isDigit = false

theorem takeDigits_append : ∀ (ds rest : List Char),
    (∀ c ∈ ds, c.isDigit = true) → headNotDigit rest →
    takeDigits (ds ++ rest) = (ds, rest) := by
  intro ds
  induction ds with
  | nil =>
      intro rest _ hrest
      match rest with
      | [] => rfl
      | c :: cs =>
          simp only [headNotDigit] at hrest
          simp [takeDigits, hrest]
  | cons c cs ih =>
      intro rest hds hrest
      have hc : c.isDigit = true := hds c (by simp)
      simp only [List.cons_append, takeDigits, hc, if_true, List.append_eq]
      rw [ih rest (fun c2 hc2 => hds c2 (by simp [hc2])) hrest]

theorem isDigit_not_ws (c : Char) (h : c.isDigit = true) : isWs c = false := by
  simp only [isWs, Bool.or_eq_false_iff, decide_eq_false_iff_not]
  refine ⟨⟨⟨?_, ?_⟩, ?_⟩, ?_⟩ <;>
    (intro he; subst he; exact absurd h (by decide))

theorem isDigit_ne (c : Char) (h : c.isDigit = true) :
    c ≠ 'n' ∧ c ≠ 't' ∧ c ≠ 'f' ∧ c ≠ '"' ∧ c ≠ '[' ∧ c ≠ '{' ∧ c ≠ '-' ∧
    c ≠ ']' ∧ c ≠ '}' ∧ c ≠ ',' := by
  refine ⟨?_, ?_, ?_, ?_, ?_, ?_, ?_, ?_, ?_, ?_⟩ <;>
    (intro he; subst he; exact absurd h (by decide))

/-! ## String-literal roundtrip -/

theorem hexVal_hexDigitChar (m : Nat) (h : m < 16) :
    hexVal (hexDigitChar m) = some m := by
  interval_cases m <;> decide

theorem parseStringBody_escape : ∀ (l rest : List Char),
    parseStringBody (escapeList l ++ '"' :: rest) = some (l, rest) := by
  intro l
  induction l with
  | nil =>
      intro rest
      rw [escapeList, List.nil_append, parseStringBody.eq_def]
      simp
  | cons c cs ih =>
      intro rest
      simp only [escapeList, List.append_assoc]
      by_cases h1 : c = '"'
      · subst h1
        rw [parseStringBody.eq_def]
        simp [escapeChar, ih]
      · by_cases h2 : c = '\\'
        · subst h2
          rw [parseStringBody.eq_def]
          simp [escapeChar, ih]
        · by_cases h3 : c = '\n'
          · subst h3
            rw [parseStringBody.eq_def]
            simp [escapeChar, ih]
          · by_cases h4 : c = '\t'
            · subst h4
              rw [parseStringBody.eq_def]
              simp [escapeChar, ih]
            · by_cases h5 : c = '\r'
              · subst h5
                rw [parseStringBody.eq_def]
                simp [escapeChar, ih]
              · by_cases h6 : c = Char.ofNat 8
                · subst h6
                  rw [parseStringBody.eq_def]
                  simp [escapeChar, ih]
                · by_cases h7 : c = Char.ofNat 12
                  · subst h7
                    rw [parseStringBody.eq_def]
                    simp [escapeChar, ih]
                  · by_cases h8 : c.toNat < 32
                    · have hd1 : c.toNat / 16 < 16 := by omega
                      have hd2 : c.toNat % 16 < 16 := by omega
                      have hval : ((0 * 16 + 0) * 16 + c.toNat / 16) * 16 +
                          c.toNat % 16 = c.toNat := by omega
                      have h0 : hexVal '0' = some 0 := by decide
                      rw [parseStringBody.eq_def]
                      simp only [escapeChar, h1, h2, h3, h4, h5, h6, h7, h8,
                        if_false, if_true, List.cons_append, List.nil_append]
                      simp [h0, hexVal_hexDigitChar _ hd1,
                        hexVal_hexDigitChar _ hd2, ih]
                      have hval3 : c.toNat / 16 * 16 + c.toNat % 16 = c.toNat := by
                        omega
                      rw [hval3, Char.ofNat_toNat]
                    · have hge : 32 ≤ c.toNat := by omega
                      rw [parseStringBody.eq_def]
                      simp only [escapeChar, h1, h2, h3, h4, h5, h6, h7, h8,
                        if_false, List.cons_append, List.nil_append]
                      simp [h1, h2, hge, ih]

/-! ## Fuel accounting and print head characters -/

mutual

/-- Fuel needed by `parseValue` to read this value back. -/
def need : JValue → Nat
  | .null => 1
  | .bool _ => 1
  | .num _ => 1
  | .str _ => 1
  | .arr .nil => 1
  | .arr (.cons v rest) => 1 + needItems (.cons v rest)
  | .obj .nil => 1
  | .obj (.cons k v rest) => 1 + needMembers (.cons k v rest)
  termination_by v => (sizeOf v, 1)

/-- Fuel needed by `parseItems` on a non-empty item sequence. -/
def needItems : JArr → Nat
  | .nil => 0
  | .cons v rest => 1 + max (need v) (needItems rest)
  termination_by xs => (sizeOf xs, 0)

/-- Fuel needed by `parseMembers` on a non-empty member sequence. -/
def needMembers : JObj → Nat
  | .nil => 0
  | .cons _ v rest => 1 + max (need v) (needMembers rest)
  termination_by ms => (sizeOf ms, 0)

end

theorem need_pos : ∀ j, 1 ≤ need j := by
  intro j
  cases j with
  | null => simp [need]
  | bool _ => simp [need]
  | num _ => simp [need]
  | str _ => simp [need]
  | arr xs => cases xs <;> simp [need]
  | obj ms => cases ms <;> simp [need]

theorem ws_not_digit (c : Char) (h : isWs c = true) : c.isDigit = false := by
  simp only [isWs, Bool.or_eq_true, decide_eq_true_eq] at h
  rcases h with ((h | h) | h) | h <;> (subst h; decide)

theorem headNotDigit_ws_append (ws : List Char) (c : Char) (rest : List Char)
    (hws : allWs ws) (hc : c.isDigit = false) :
    headNotDigit (ws ++ c :: rest) := by
  cases ws with
  | nil => exact hc
  | cons w ws2 =>
      simp only [List.cons_append, headNotDigit]
      exact ws_not_digit w (hws w (by simp))

theorem stringMk_data : ∀ s : String, String.mk s.data = s := by
  intro s
  cases s
  rfl

/-- Every printed value starts with a character that is not whitespace and
not a closing bracket. -/
theorem printVal_starter : ∀ (gap d : Nat) (j : JValue),
    ∃ c l, printVal gap d j = c :: l ∧ isWs c = false ∧ c ≠ ']' ∧ c ≠ '}' := by
  intro gap d j
  cases j with
  | null =>
      refine ⟨'n', ['u', 'l', 'l'], ?_, by decide, by decide, by decide⟩
      simp [printVal]
  | bool b =>
      cases b with
      | true =>
          refine ⟨'t', ['r', 'u', 'e'], ?_, by decide, by decide, by decide⟩
          simp [printVal]
      | false =>
          refine ⟨'f', ['a', 'l', 's', 'e'], ?_, by decide, by decide, by decide⟩
          simp [printVal]
  | num i =>
      by_cases hi : i < 0
      · refine ⟨'-', natChars i.natAbs, ?_, by decide, by decide, by decide⟩
        simp [printVal, intChars, hi]
      · cases hnc : natChars i.natAbs with
        | nil => exact absurd hnc (natChars_ne_nil _)
        | cons c l =>
            have hd : c.isDigit = true :=
              natChars_digits i.natAbs c (by rw [hnc]; simp)
            have hne := isDigit_ne c hd
            refine ⟨c, l, ?_, isDigit_not_ws c hd, hne.2.2.2.2.2.2.2.1,
              hne.2.2.2.2.2.2.2.2.1⟩
            simp [printVal, intChars, hi, hnc]
  | str s =>
      refine ⟨'"', escapeList s.data ++ ['"'], ?_, by decide, by decide, by decide⟩
      simp [printVal, quoteString]
  | arr xs =>
      cases xs with
      | nil =>
          refine ⟨'[', [']'], ?_, by decide, by decide, by decide⟩
          simp [printVal]
      | cons v rest =>
          by_cases hg : gap = 0
          · refine ⟨'[', printVal 0 0 v ++ printItems 0 0 rest ++ [']'], ?_,
              by decide, by decide, by decide⟩
            simp [printVal, hg]
          · refine ⟨'[', '\n' :: (indentChars gap (d + 1) ++ printVal gap (d + 1) v
              ++ printItems gap (d + 1) rest ++ '\n' :: (indentChars gap d ++ [']'])),
              ?_, by decide, by decide, by decide⟩
            simp [printVal, hg]
  | obj ms =>
      cases ms with
      | nil =>
          refine ⟨'{', ['}'], ?_, by decide, by decide, by decide⟩
          simp [printVal]
      | cons k v rest =>
          by_cases hg : gap = 0
          · refine ⟨'{', printMember 0 0 k v ++ printMembers 0 0 rest ++ ['}'], ?_,
              by decide, by decide, by decide⟩
            simp [printVal, hg]
          · refine ⟨'{', '\n' :: (indentChars gap (d + 1) ++ printMember gap (d + 1) k v
              ++ printMembers gap (d + 1) rest ++ '\n' :: (indentChars gap d ++ ['}'])),
              ?_, by decide, by decide, by decide⟩
            simp [printVal, hg]

/-- Concatenation of member lists. -/
def JObj.concat : JObj → JObj → JObj
  | .nil, o2 => o2
  | .cons k v rest, o2 => .cons k v (rest.concat o2)

theorem JObj.concat_append : ∀ (acc : JObj) (k : String) (v : JValue) (ms : JObj),
    (acc.append k v).concat ms = acc.concat (.cons k v ms) := by
  intro acc k v ms
  induction acc with
  | nil => rfl
  | cons k2 v2 rest ih => simp [JObj.append, JObj.concat, ih]

theorem JObj.append_eq_concat_single (acc : JObj) (k : String) (v : JValue) :
    acc.append k v = acc.concat (.cons k v .nil) := by
  induction acc with
  | nil => rfl
  | cons k2 v2 rest ih => simp [JObj.append, JObj.concat, ih]

/-- Keys of the object are pairwise distinct (the key part of `ukObj`). -/
def keysUK : JObj → Bool
  | .nil => true
  | .cons k _ rest => !rest.containsKey k && keysUK rest

theorem keysUK_of_ukObj : ∀ (ms : JObj), ukObj ms = true → keysUK ms = true := by
  intro ms h
  induction ms with
  | nil => rfl
  | cons k v rest ih =>
      simp only [ukObj, Bool.and_eq_true, Bool.not_eq_true'] at h
      simp [keysUK, h.1.1, ih h.2]

/-- What may follow a printed value so that parsing stops at its end: after
a number the next character must not be a digit. -/
def numOk : JValue → List Char → Prop
  | .num _, rest => headNotDigit rest
  | _, _ => True

theorem numOk_intro (j : JValue) (rest : List Char) (h : headNotDigit rest) :
    numOk j rest := by
  cases j with
  | num i => exact h
  | null => trivial
  | bool b => trivial
  | str s => trivial
  | arr xs => trivial
  | obj ms => trivial

theorem headNotDigit_printItems (gap d : Nat) (xs : JArr) (ws2 rest : List Char)
    (h : allWs ws2) :
    headNotDigit (printItems gap d xs ++ (ws2 ++ ']' :: rest)) := by
  cases xs with
  | nil =>
      simp only [printItems, List.nil_append]
      exact headNotDigit_ws_append ws2 ']' rest h (by decide)
  | cons v xs2 =>
      by_cases hg : gap = 0
      · have ht : printItems gap d (.cons v xs2) ++ (ws2 ++ ']' :: rest)
            = ',' :: (printVal gap d v ++ (printItems gap d xs2
              ++ (ws2 ++ ']' :: rest))) := by
          simp [printItems, hg]
        rw [ht]
        simp only [headNotDigit]
        decide
      · have ht : printItems gap d (.cons v xs2) ++ (ws2 ++ ']' :: rest)
            = ',' :: ('\n' :: (indentChars gap d ++ (printVal gap d v
              ++ (printItems gap d xs2 ++ (ws2 ++ ']' :: rest))))) := by
          simp [printItems, hg]
        rw [ht]
        simp only [headNotDigit]
        decide

theorem headNotDigit_printMembers (gap d : Nat) (ms : JObj)
    (ws2 rest : List Char) (h : allWs ws2) :
    headNotDigit (printMembers gap d ms ++ (ws2 ++ '}' :: rest)) := by
  cases ms with
  | nil =>
      simp only [printMembers, List.nil_append]
      exact headNotDigit_ws_append ws2 '}' rest h (by decide)
  | cons k v ms2 =>
      by_cases hg : gap = 0
      · have ht : printMembers gap d (.cons k v ms2) ++ (ws2 ++ '}' :: rest)
            = ',' :: (printMember gap d k v ++ (printMembers gap d ms2
              ++ (ws2 ++ '}' :: rest))) := by
          simp [printMembers, hg]
        rw [ht]
        simp only [headNotDigit]
        decide
      · have ht : printMembers gap d (.cons k v ms2) ++ (ws2 ++ '}' :: rest)
            = ',' :: ('\n' :: (indentChars gap d ++ (printMember gap d k v
              ++ (printMembers gap d ms2 ++ (ws2 ++ '}' :: rest))))) := by
          simp [printMembers, hg]
        rw [ht]
        simp only [headNotDigit]
        decide

theorem JObj.containsKey_cons (k : String) (v : JValue) (ms : JObj)
    (k2 : String) :
    (JObj.cons k v ms).containsKey k2
      = if k = k2 then true else ms.containsKey k2 := by
  by_cases h : k = k2 <;> simp [JObj.containsKey, JObj.lookup, h]

theorem JObj.containsKey_append_ne (o : JObj) (k k2 : String) (v : JValue)
    (h : k2 ≠ k) : (o.append k v).containsKey k2 = o.containsKey k2 := by
  simp [JObj.containsKey, JObj.lookup_append_ne o k k2 v h]

theorem JObj.upsert_fresh (o : JObj) (k : String) (v : JValue)
    (h : o.containsKey k = false) : o.upsert k v = o.append k v := by
  simp [JObj.upsert, h]

/-- The print-parse roundtrip, by strong induction on the parser fuel. -/
theorem parseRound : ∀ fuel : Nat,
    (∀ (j : JValue) (gap d : Nat) (ws rest : List Char),
       need j ≤ fuel → allWs ws → ukB j = true → numOk j rest →
       parseValue fuel (ws ++ printVal gap d j ++ rest) = some (j, rest)) ∧
    (∀ (v : JValue) (xs : JArr) (gap d : Nat) (ws1 ws2 rest : List Char),
       1 + max (need v) (needItems xs) ≤ fuel → allWs ws1 → allWs ws2 →
       ukB v = true → ukArr xs = true →
       parseItems fuel
         (ws1 ++ printVal gap d v ++ printItems gap d xs ++ ws2 ++ ']' :: rest)
         = some (.cons v xs, rest)) ∧
    (∀ (k : String) (v : JValue) (ms : JObj) (acc : JObj) (gap d : Nat)
       (ws1 ws2 rest : List Char),
       1 + max (need v) (needMembers ms) ≤ fuel → allWs ws1 → allWs ws2 →
       ukB v = true → ukObj ms = true → ms.containsKey k = false →
       (∀ k2, (JObj.cons k v ms).containsKey k2 = true →
          acc.containsKey k2 = false) →
       parseMembers fuel acc
         (ws1 ++ printMember gap d k v ++ printMembers gap d ms ++ ws2
           ++ '}' :: rest)
         = some (acc.concat (.cons k v ms), rest)) := by
  intro fuel
  induction fuel using Nat.strong_induction_on with
  | _ fuel ih =>
  match fuel with
  | 0 =>
      refine ⟨?_, ?_, ?_⟩
      · intro j gap d ws rest hneed _ _ _
        have := need_pos j
        omega
      · intro v xs gap d ws1 ws2 rest hf _ _ _ _
        omega
      · intro k v ms acc gap d ws1 ws2 rest hf _ _ _ _ _ _
        omega
  | f + 1 =>
      obtain ⟨IH1, IH2, IH3⟩ := ih f (by omega)
      refine ⟨?_, ?_, ?_⟩
      · -- parseValue roundtrip
        intro j gap d ws rest hneed hws huk hnum
        simp only [List.append_assoc]
        cases j with
        | null =>
            have hs : skipWs (ws ++ (printVal gap d JValue.null ++ rest))
                = 'n' :: ('u' :: 'l' :: 'l' :: rest) := by
              rw [show printVal gap d JValue.null = ['n', 'u', 'l', 'l'] from
                    by simp [printVal],
                  skipWs_append _ _ hws]
              simp [skipWs, isWs]
            simp [parseValue, hs, expectChars]
        | bool b =>
            cases b with
            | true =>
                have hs : skipWs (ws ++ (printVal gap d (JValue.bool true) ++ rest))
                    = 't' :: ('r' :: 'u' :: 'e' :: rest) := by
                  rw [show printVal gap d (JValue.bool true) = ['t', 'r', 'u', 'e']
                        from by simp [printVal],
                      skipWs_append _ _ hws]
                  simp [skipWs, isWs]
                simp [parseValue, hs, expectChars]
            | false =>
                have hs : skipWs (ws ++ (printVal gap d (JValue.bool false) ++ rest))
                    = 'f' :: ('a' :: 'l' :: 's' :: 'e' :: rest) := by
                  rw [show printVal gap d (JValue.bool false)
                        = ['f', 'a', 'l', 's', 'e'] from by simp [printVal],
                      skipWs_append _ _ hws]
                  simp [skipWs, isWs]
                simp [parseValue, hs, expectChars]
        | str s =>
            have hs : skipWs (ws ++ (printVal gap d (JValue.str s) ++ rest))
                = '"' :: (escapeList s.data ++ ('"' :: rest)) := by
              rw [show printVal gap d (JValue.str s)
                    = '"' :: (escapeList s.data ++ ['"']) from
                    by simp [printVal, quoteString],
                  skipWs_append _ _ hws]
              simp [skipWs, isWs]
            simp [parseValue, hs, parseStringBody_escape, stringMk_data]
        | num i =>
            simp only [numOk] at hnum
            by_cases hi : i < 0
            · cases hnc : natChars i.natAbs with
              | nil => exact absurd hnc (natChars_ne_nil _)
              | cons c0 l0 =>
                  have hs : skipWs (ws ++ (printVal gap d (JValue.num i) ++ rest))
                      = '-' :: (c0 :: (l0 ++ rest)) := by
                    rw [show printVal gap d (JValue.num i) = '-' :: natChars i.natAbs
                          from by simp [printVal, intChars, hi],
                        skipWs_append _ _ hws, hnc]
                    simp [skipWs, isWs]
                  have htd : takeDigits (c0 :: (l0 ++ rest))
                      = (c0 :: l0, rest) := by
                    have := takeDigits_append (c0 :: l0) rest
                      (by intro c2 hc2; exact natChars_digits i.natAbs c2
                            (by rw [hnc]; exact hc2)) hnum
                    simpa using this
                  have hdv : (digitsVal (c0 :: l0) : Int) = (i.natAbs : Int) := by
                    rw [← hnc, digitsVal_natChars]
                  simp [parseValue, hs, htd, hdv, -Int.natCast_natAbs]
                  omega
            · cases hnc : natChars i.natAbs with
              | nil => exact absurd hnc (natChars_ne_nil _)
              | cons c0 l0 =>
                  have hdig : c0.isDigit = true :=
                    natChars_digits i.natAbs c0 (by rw [hnc]; simp)
                  have hne := isDigit_ne c0 hdig
                  have hs : skipWs (ws ++ (printVal gap d (JValue.num i) ++ rest))
                      = c0 :: (l0 ++ rest) := by
                    rw [show printVal gap d (JValue.num i) = natChars i.natAbs
                          from by simp [printVal, intChars, hi],
                        skipWs_append _ _ hws, hnc]
                    simp [skipWs_cons_not _ _ (isDigit_not_ws c0 hdig)]
                  have htd : takeDigits (c0 :: (l0 ++ rest))
                      = (c0 :: l0, rest) := by
                    have := takeDigits_append (c0 :: l0) rest
                      (by intro c2 hc2; exact natChars_digits i.natAbs c2
                            (by rw [hnc]; exact hc2)) hnum
                    simpa using this
                  have hdv : (digitsVal (c0 :: l0) : Int) = (i.natAbs : Int) := by
                    rw [← hnc, digitsVal_natChars]
                  simp [parseValue, hs, htd, hdv, hne.1, hne.2.1, hne.2.2.1,
                    hne.2.2.2.1, hne.2.2.2.2.1, hne.2.2.2.2.2.1,
                    hne.2.2.2.2.2.2.1, hdig, -Int.natCast_natAbs]
                  omega
        | arr xs =>
            cases xs with
            | nil =>
                have hs : skipWs (ws ++ (printVal gap d (JValue.arr .nil) ++ rest))
                    = '[' :: (']' :: rest) := by
                  rw [show printVal gap d (JValue.arr .nil) = ['[', ']'] from
                        by simp [printVal],
                      skipWs_append _ _ hws]
                  simp [skipWs, isWs]
                simp [parseValue, hs, skipWs, isWs]
            | cons v xs2 =>
                have hfuel : 1 + max (need v) (needItems xs2) ≤ f := by
                  have h2 : need (JValue.arr (.cons v xs2))
                      = 1 + (1 + max (need v) (needItems xs2)) := by
                    simp [need, needItems]
                  omega
                simp only [ukB, ukArr, Bool.and_eq_true] at huk
                by_cases hg : gap = 0
                · subst hg
                  obtain ⟨c0, l0, hpr0, hnw0, hne0r, _⟩ := printVal_starter 0 0 v
                  have hs : skipWs (ws ++ (printVal 0 d (JValue.arr (.cons v xs2))
                      ++ rest))
                      = '[' :: (printVal 0 0 v ++ (printItems 0 0 xs2
                        ++ (']' :: rest))) := by
                    rw [show printVal 0 d (JValue.arr (.cons v xs2))
                          = '[' :: (printVal 0 0 v ++ (printItems 0 0 xs2 ++ [']']))
                          from by simp [printVal],
                        skipWs_append _ _ hws]
                    simp [skipWs, isWs]
                  have hinner : skipWs (printVal 0 0 v ++ (printItems 0 0 xs2
                      ++ (']' :: rest)))
                      = c0 :: (l0 ++ (printItems 0 0 xs2 ++ (']' :: rest))) := by
                    rw [hpr0]
                    simp only [List.cons_append]
                    exact skipWs_cons_not _ _ hnw0
                  have hitems : parseItems f (printVal 0 0 v ++ (printItems 0 0 xs2
                      ++ (']' :: rest))) = some (.cons v xs2, rest) := by
                    have := IH2 v xs2 0 0 [] [] rest hfuel allWs_nil allWs_nil
                      huk.1 huk.2
                    simpa [List.append_assoc] using this
                  simp [parseValue, hs, hinner, hne0r, hitems]
                · obtain ⟨c0, l0, hpr0, hnw0, hne0r, _⟩ :=
                    printVal_starter gap (d + 1) v
                  have hws1 : allWs ('\n' :: indentChars gap (d + 1)) :=
                    allWs_cons _ _ (by decide) (allWs_indent _ _)
                  have hws2 : allWs ('\n' :: indentChars gap d) :=
                    allWs_cons _ _ (by decide) (allWs_indent _ _)
                  have hs : skipWs (ws ++ (printVal gap d (JValue.arr (.cons v xs2))
                      ++ rest))
                      = '[' :: ('\n' :: (indentChars gap (d + 1)
                        ++ (printVal gap (d + 1) v ++ (printItems gap (d + 1) xs2
                          ++ ('\n' :: (indentChars gap d ++ (']' :: rest))))))) := by
                    rw [show printVal gap d (JValue.arr (.cons v xs2))
                          = '[' :: ('\n' :: (indentChars gap (d + 1)
                            ++ printVal gap (d + 1) v ++ printItems gap (d + 1) xs2
                            ++ '\n' :: (indentChars gap d ++ [']'])))
                          from by simp [printVal, hg],
                        skipWs_append _ _ hws]
                    simp [skipWs, isWs]
                  have hinner : skipWs ('\n' :: (indentChars gap (d + 1)
                      ++ (printVal gap (d + 1) v ++ (printItems gap (d + 1) xs2
                        ++ ('\n' :: (indentChars gap d ++ (']' :: rest)))))))
                      = c0 :: (l0 ++ (printItems gap (d + 1) xs2
                        ++ ('\n' :: (indentChars gap d ++ (']' :: rest))))) := by
                    have he : ('\n' :: (indentChars gap (d + 1)
                        ++ (printVal gap (d + 1) v ++ (printItems gap (d + 1) xs2
                          ++ ('\n' :: (indentChars gap d ++ (']' :: rest)))))))
                        = ('\n' :: indentChars gap (d + 1))
                          ++ (printVal gap (d + 1) v ++ (printItems gap (d + 1) xs2
                            ++ ('\n' :: (indentChars gap d ++ (']' :: rest))))) := by
                      simp
                    rw [he, skipWs_append _ _ hws1, hpr0]
                    simp only [List.cons_append]
                    exact skipWs_cons_not _ _ hnw0
                  have hitems : parseItems f ('\n' :: (indentChars gap (d + 1)
                      ++ (printVal gap (d + 1) v ++ (printItems gap (d + 1) xs2
                        ++ ('\n' :: (indentChars gap d ++ (']' :: rest)))))))
                      = some (.cons v xs2, rest) := by
                    have := IH2 v xs2 gap (d + 1) ('\n' :: indentChars gap (d + 1))
                      ('\n' :: indentChars gap d) rest hfuel hws1 hws2 huk.1 huk.2
                    simpa [List.append_assoc] using this
                  simp [parseValue, hs, hinner, hne0r, hitems]
        | obj ms =>
            cases ms with
            | nil =>
                have hs : skipWs (ws ++ (printVal gap d (JValue.obj .nil) ++ rest))
                    = '{' :: ('}' :: rest) := by
                  rw [show printVal gap d (JValue.obj .nil) = ['{', '}'] from
                        by simp [printVal],
                      skipWs_append _ _ hws]
                  simp [skipWs, isWs]
                simp [parseValue, hs, skipWs, isWs]
            | cons k v ms2 =>
                have hfuel : 1 + max (need v) (needMembers ms2) ≤ f := by
                  have h2 : need (JValue.obj (.cons k v ms2))
                      = 1 + (1 + max (need v) (needMembers ms2)) := by
                    simp [need, needMembers]
                  omega
                simp only [ukB, ukObj, Bool.and_eq_true, Bool.not_eq_true'] at huk
                by_cases hg : gap = 0
                · subst hg
                  obtain ⟨t0, hpm⟩ :
                      ∃ t, printMember 0 0 k v = '"' :: t :=
                    ⟨escapeList k.data ++ ('"' :: (':' :: printVal 0 0 v)),
                      by simp [printMember, quoteString]⟩
                  have hs : skipWs (ws ++ (printVal 0 d (JValue.obj (.cons k v ms2))
                      ++ rest))
                      = '{' :: (printMember 0 0 k v ++ (printMembers 0 0 ms2
                        ++ ('}' :: rest))) := by
                    rw [show printVal 0 d (JValue.obj (.cons k v ms2))
                          = '{' :: (printMember 0 0 k v
                            ++ (printMembers 0 0 ms2 ++ ['}']))
                          from by simp [printVal],
                        skipWs_append _ _ hws]
                    simp [skipWs, isWs]
                  have hinner : skipWs (printMember 0 0 k v ++ (printMembers 0 0 ms2
                      ++ ('}' :: rest)))
                      = '"' :: (t0 ++ (printMembers 0 0 ms2 ++ ('}' :: rest))) := by
                    rw [hpm]
                    simp only [List.cons_append]
                    exact skipWs_cons_not _ _ (by decide)
                  have hmem : parseMembers f JObj.nil (printMember 0 0 k v
                      ++ (printMembers 0 0 ms2 ++ ('}' :: rest)))
                      = some (JObj.nil.concat (.cons k v ms2), rest) := by
                    have := IH3 k v ms2 .nil 0 0 [] [] rest hfuel allWs_nil
                      allWs_nil huk.1.2 huk.2 huk.1.1 (fun k2 _ => rfl)
                    simpa [List.append_assoc] using this
                  simp [parseValue, hs, hinner, hmem, JObj.concat]
                · obtain ⟨t0, hpm⟩ :
                      ∃ t, printMember gap (d + 1) k v = '"' :: t :=
                    ⟨escapeList k.data ++ ('"' :: (':' :: (' ' ::
                        printVal gap (d + 1) v))),
                      by simp [printMember, quoteString, hg]⟩
                  have hws1 : allWs ('\n' :: indentChars gap (d + 1)) :=
                    allWs_cons _ _ (by decide) (allWs_indent _ _)
                  have hws2 : allWs ('\n' :: indentChars gap d) :=
                    allWs_cons _ _ (by decide) (allWs_indent _ _)
                  have hs : skipWs (ws ++ (printVal gap d (JValue.obj (.cons k v ms2))
                      ++ rest))
                      = '{' :: ('\n' :: (indentChars gap (d + 1)
                        ++ (printMember gap (d + 1) k v
                          ++ (printMembers gap (d + 1) ms2
                            ++ ('\n' :: (indentChars gap d ++ ('}' :: rest))))))) := by
                    rw [show printVal gap d (JValue.obj (.cons k v ms2))
                          = '{' :: ('\n' :: (indentChars gap (d + 1)
                            ++ printMember gap (d + 1) k v
                            ++ printMembers gap (d + 1) ms2
                            ++ '\n' :: (indentChars gap d ++ ['}'])))
                          from by simp [printVal, hg],
                        skipWs_append _ _ hws]
                    simp [skipWs, isWs]
                  have hinner : skipWs ('\n' :: (indentChars gap (d + 1)
                      ++ (printMember gap (d + 1) k v
                        ++ (printMembers gap (d + 1) ms2
                          ++ ('\n' :: (indentChars gap d ++ ('}' :: rest)))))))
                      = '"' :: (t0 ++ (printMembers gap (d + 1) ms2
                        ++ ('\n' :: (indentChars gap d ++ ('}' :: rest))))) := by
                    have he : ('\n' :: (indentChars gap (d + 1)
                        ++ (printMember gap (d + 1) k v
                          ++ (printMembers gap (d + 1) ms2
                            ++ ('\n' :: (indentChars gap d ++ ('}' :: rest)))))))
                        = ('\n' :: indentChars gap (d + 1))
                          ++ (printMember gap (d + 1) k v
                            ++ (printMembers gap (d + 1) ms2
                              ++ ('\n' :: (indentChars gap d ++ ('}' :: rest))))) := by
                      simp
                    rw [he, skipWs_append _ _ hws1, hpm]
                    simp only [List.cons_append]
                    exact skipWs_cons_not _ _ (by decide)
                  have hmem : parseMembers f JObj.nil ('\n' :: (indentChars gap (d + 1)
                      ++ (printMember gap (d + 1) k v
                        ++ (printMembers gap (d + 1) ms2
                          ++ ('\n' :: (indentChars gap d ++ ('}' :: rest)))))))
                      = some (JObj.nil.concat (.cons k v ms2), rest) := by
                    have := IH3 k v ms2 .nil gap (d + 1)
                      ('\n' :: indentChars gap (d + 1))
                      ('\n' :: indentChars gap d) rest hfuel hws1 hws2
                      huk.1.2 huk.2 huk.1.1 (fun k2 _ => rfl)
                    simpa [List.append_assoc] using this
                  simp [parseValue, hs, hinner, hmem, JObj.concat]
      · -- parseItems roundtrip
        intro v xs gap d ws1 ws2 rest hf hws1 hws2 hukv hukxs
        simp only [List.append_assoc]
        have hpv : parseValue f (ws1 ++ (printVal gap d v ++ (printItems gap d xs
            ++ (ws2 ++ ']' :: rest))))
            = some (v, printItems gap d xs ++ (ws2 ++ ']' :: rest)) := by
          have := IH1 v gap d ws1 (printItems gap d xs ++ (ws2 ++ ']' :: rest))
            (by omega) hws1 hukv
            (numOk_intro _ _ (headNotDigit_printItems gap d xs ws2 rest hws2))
          simpa [List.append_assoc] using this
        cases xs with
        | nil =>
            have hs : skipWs (printItems gap d JArr.nil ++ (ws2 ++ ']' :: rest))
                = ']' :: rest := by
              rw [show printItems gap d JArr.nil = [] from by simp [printItems],
                  List.nil_append, skipWs_append _ _ hws2]
              exact skipWs_cons_not _ _ (by decide)
            simp [parseItems, hpv, hs]
        | cons v2 xs2 =>
            have hfuel2 : 1 + max (need v2) (needItems xs2) ≤ f := by
              have h2 : needItems (JArr.cons v2 xs2)
                  = 1 + max (need v2) (needItems xs2) := by simp [needItems]
              omega
            simp only [ukArr, Bool.and_eq_true] at hukxs
            by_cases hg : gap = 0
            · subst hg
              have h0 : printItems 0 d (JArr.cons v2 xs2) ++ (ws2 ++ ']' :: rest)
                  = ',' :: (printVal 0 d v2 ++ (printItems 0 d xs2
                    ++ (ws2 ++ ']' :: rest))) := by
                simp [printItems]
              have hs : skipWs (printItems 0 d (JArr.cons v2 xs2)
                  ++ (ws2 ++ ']' :: rest))
                  = ',' :: (printVal 0 d v2 ++ (printItems 0 d xs2
                    ++ (ws2 ++ ']' :: rest))) := by
                rw [h0]
                exact skipWs_cons_not _ _ (by decide)
              have hrec : parseItems f (printVal 0 d v2 ++ (printItems 0 d xs2
                  ++ (ws2 ++ ']' :: rest))) = some (.cons v2 xs2, rest) := by
                have := IH2 v2 xs2 0 d [] ws2 rest hfuel2 allWs_nil hws2
                  hukxs.1 hukxs.2
                simpa [List.append_assoc] using this
              simp [parseItems, hpv, hs, hrec]
            · have h0 : printItems gap d (JArr.cons v2 xs2) ++ (ws2 ++ ']' :: rest)
                  = ',' :: ('\n' :: (indentChars gap d ++ (printVal gap d v2
                    ++ (printItems gap d xs2 ++ (ws2 ++ ']' :: rest))))) := by
                simp [printItems, hg]
              have hs : skipWs (printItems gap d (JArr.cons v2 xs2)
                  ++ (ws2 ++ ']' :: rest))
                  = ',' :: ('\n' :: (indentChars gap d ++ (printVal gap d v2
                    ++ (printItems gap d xs2 ++ (ws2 ++ ']' :: rest))))) := by
                rw [h0]
                exact skipWs_cons_not _ _ (by decide)
              have hrec : parseItems f ('\n' :: (indentChars gap d
                  ++ (printVal gap d v2 ++ (printItems gap d xs2
                    ++ (ws2 ++ ']' :: rest)))))
                  = some (.cons v2 xs2, rest) := by
                have := IH2 v2 xs2 gap d ('\n' :: indentChars gap d) ws2 rest
                  hfuel2 (allWs_cons _ _ (by decide) (allWs_indent _ _)) hws2
                  hukxs.1 hukxs.2
                simpa [List.append_assoc] using this
              simp [parseItems, hpv, hs, hrec]
      · -- parseMembers roundtrip
        intro k v ms acc gap d ws1 ws2 rest hf hws1 hws2 hukv hukms hkf haccf
        simp only [List.append_assoc]
        have hacck : acc.containsKey k = false :=
          haccf k (by simp [JObj.containsKey_cons])
        by_cases hg : gap = 0
        · subst hg
          have hs : skipWs (ws1 ++ (printMember 0 d k v ++ (printMembers 0 d ms
              ++ (ws2 ++ '}' :: rest))))
              = '"' :: (escapeList k.data ++ ('"' :: (':' :: (printVal 0 d v
                ++ (printMembers 0 d ms ++ (ws2 ++ '}' :: rest)))))) := by
            rw [show printMember 0 d k v
                  = '"' :: (escapeList k.data ++ ('"' :: (':' :: printVal 0 d v)))
                  from by simp [printMember, quoteString],
                skipWs_append _ _ hws1]
            simp [skipWs, isWs]
          have hpsb : parseStringBody (escapeList k.data ++ ('"' :: (':' ::
              (printVal 0 d v ++ (printMembers 0 d ms ++ (ws2 ++ '}' :: rest))))))
              = some (k.data, ':' :: (printVal 0 d v
                ++ (printMembers 0 d ms ++ (ws2 ++ '}' :: rest)))) :=
            parseStringBody_escape k.data _
          have hs2 : skipWs (':' :: (printVal 0 d v ++ (printMembers 0 d ms
              ++ (ws2 ++ '}' :: rest))))
              = ':' :: (printVal 0 d v ++ (printMembers 0 d ms
                ++ (ws2 ++ '}' :: rest))) :=
            skipWs_cons_not _ _ (by decide)
          have hpv : parseValue f (printVal 0 d v ++ (printMembers 0 d ms
              ++ (ws2 ++ '}' :: rest)))
              = some (v, printMembers 0 d ms ++ (ws2 ++ '}' :: rest)) := by
            have := IH1 v 0 d [] (printMembers 0 d ms ++ (ws2 ++ '}' :: rest))
              (by omega) allWs_nil hukv
              (numOk_intro _ _ (headNotDigit_printMembers 0 d ms ws2 rest hws2))
            simpa using this
          cases ms with
          | nil =>
              have hs3 : skipWs (printMembers 0 d JObj.nil ++ (ws2 ++ '}' :: rest))
                  = '}' :: rest := by
                rw [show printMembers 0 d JObj.nil = [] from by simp [printMembers],
                    List.nil_append, skipWs_append _ _ hws2]
                exact skipWs_cons_not _ _ (by decide)
              have hup : acc.upsert k v = acc.concat (.cons k v .nil) := by
                rw [JObj.upsert_fresh acc k v hacck,
                  JObj.append_eq_concat_single]
              simp [parseMembers, hs, hpsb, hs2, hpv, hs3, stringMk_data, hup]
          | cons k2 v2 ms2 =>
              simp only [ukObj, Bool.and_eq_true, Bool.not_eq_true'] at hukms
              have hfuel2 : 1 + max (need v2) (needMembers ms2) ≤ f := by
                have h2 : needMembers (JObj.cons k2 v2 ms2)
                    = 1 + max (need v2) (needMembers ms2) := by simp [needMembers]
                omega
              have h0 : printMembers 0 d (JObj.cons k2 v2 ms2)
                  ++ (ws2 ++ '}' :: rest)
                  = ',' :: (printMember 0 d k2 v2 ++ (printMembers 0 d ms2
                    ++ (ws2 ++ '}' :: rest))) := by
                simp [printMembers]
              have hs3 : skipWs (printMembers 0 d (JObj.cons k2 v2 ms2)
                  ++ (ws2 ++ '}' :: rest))
                  = ',' :: (printMember 0 d k2 v2 ++ (printMembers 0 d ms2
                    ++ (ws2 ++ '}' :: rest))) := by
                rw [h0]
                exact skipWs_cons_not _ _ (by decide)
              have hfresh2 : ∀ k3, (JObj.cons k2 v2 ms2).containsKey k3 = true →
                  (acc.append k v).containsKey k3 = false := by
                intro k3 h3
                have hkne : k ≠ k3 := by
                  intro he
                  rw [← he] at h3
                  simp [hkf] at h3
                rw [JObj.containsKey_append_ne acc k k3 v (Ne.symm hkne)]
                refine haccf k3 ?_
                rw [JObj.containsKey_cons]
                simp [h3]
              have hrec : parseMembers f (acc.append k v)
                  (printMember 0 d k2 v2 ++ (printMembers 0 d ms2
                    ++ (ws2 ++ '}' :: rest)))
                  = some ((acc.append k v).concat (.cons k2 v2 ms2), rest) := by
                have := IH3 k2 v2 ms2 (acc.append k v) 0 d [] ws2 rest hfuel2
                  allWs_nil hws2 hukms.1.2 hukms.2 hukms.1.1 hfresh2
                simpa [List.append_assoc] using this
              have hup : acc.upsert k v = acc.append k v :=
                JObj.upsert_fresh acc k v hacck
              have hcc : (acc.append k v).concat (.cons k2 v2 ms2)
                  = acc.concat (.cons k v (.cons k2 v2 ms2)) :=
                JObj.concat_append acc k v (.cons k2 v2 ms2)
              simp [parseMembers, hs, hpsb, hs2, hpv, hs3, stringMk_data, hup,
                hrec, hcc]
        · have hs : skipWs (ws1 ++ (printMember gap d k v ++ (printMembers gap d ms
              ++ (ws2 ++ '}' :: rest))))
              = '"' :: (escapeList k.data ++ ('"' :: (':' :: (' ' ::
                (printVal gap d v ++ (printMembers gap d ms
                  ++ (ws2 ++ '}' :: rest))))))) := by
            rw [show printMember gap d k v
                  = '"' :: (escapeList k.data ++ ('"' :: (':' :: (' ' ::
                    printVal gap d v))))
                  from by simp [printMember, quoteString, hg],
                skipWs_append _ _ hws1]
            simp [skipWs, isWs]
          have hpsb : parseStringBody (escapeList k.data ++ ('"' :: (':' :: (' ' ::
              (printVal gap d v ++ (printMembers gap d ms
                ++ (ws2 ++ '}' :: rest)))))))
              = some (k.data, ':' :: (' ' :: (printVal gap d v
                ++ (printMembers gap d ms ++ (ws2 ++ '}' :: rest))))) :=
            parseStringBody_escape k.data _
          have hs2 : skipWs (':' :: (' ' :: (printVal gap d v
              ++ (printMembers gap d ms ++ (ws2 ++ '}' :: rest)))))
              = ':' :: (' ' :: (printVal gap d v
                ++ (printMembers gap d ms ++ (ws2 ++ '}' :: rest)))) :=
            skipWs_cons_not _ _ (by decide)
          have hpv : parseValue f (' ' :: (printVal gap d v
              ++ (printMembers gap d ms ++ (ws2 ++ '}' :: rest))))
              = some (v, printMembers gap d ms ++ (ws2 ++ '}' :: rest)) := by
            have := IH1 v gap d [' ']
              (printMembers gap d ms ++ (ws2 ++ '}' :: rest))
              (by omega) (allWs_cons _ _ (by decide) allWs_nil) hukv
              (numOk_intro _ _ (headNotDigit_printMembers gap d ms ws2 rest hws2))
            simpa using this
          cases ms with
          | nil =>
              have hs3 : skipWs (printMembers gap d JObj.nil ++ (ws2 ++ '}' :: rest))
                  = '}' :: rest := by
                rw [show printMembers gap d JObj.nil = []
                      from by simp [printMembers],
                    List.nil_append, skipWs_append _ _ hws2]
                exact skipWs_cons_not _ _ (by decide)
              have hup : acc.upsert k v = acc.concat (.cons k v .nil) := by
                rw [JObj.upsert_fresh acc k v hacck,
                  JObj.append_eq_concat_single]
              simp [parseMembers, hs, hpsb, hs2, hpv, hs3, stringMk_data, hup]
          | cons k2 v2 ms2 =>
              simp only [ukObj, Bool.and_eq_true, Bool.not_eq_true'] at hukms
              have hfuel2 : 1 + max (need v2) (needMembers ms2) ≤ f := by
                have h2 : needMembers (JObj.cons k2 v2 ms2)
                    = 1 + max (need v2) (needMembers ms2) := by simp [needMembers]
                omega
              have h0 : printMembers gap d (JObj.cons k2 v2 ms2)
                  ++ (ws2 ++ '}' :: rest)
                  = ',' :: ('\n' :: (indentChars gap d
                    ++ (printMember gap d k2 v2 ++ (printMembers gap d ms2
                      ++ (ws2 ++ '}' :: rest))))) := by
                simp [printMembers, hg]
              have hs3 : skipWs (printMembers gap d (JObj.cons k2 v2 ms2)
                  ++ (ws2 ++ '}' :: rest))
                  = ',' :: ('\n' :: (indentChars gap d
                    ++ (printMember gap d k2 v2 ++ (printMembers gap d ms2
                      ++ (ws2 ++ '}' :: rest))))) := by
                rw [h0]
                exact skipWs_cons_not _ _ (by decide)
              have hfresh2 : ∀ k3, (JObj.cons k2 v2 ms2).containsKey k3 = true →
                  (acc.append k v).containsKey k3 = false := by
                intro k3 h3
                have hkne : k ≠ k3 := by
                  intro he
                  rw [← he] at h3
                  simp [hkf] at h3
                rw [JObj.containsKey_append_ne acc k k3 v (Ne.symm hkne)]
                refine haccf k3 ?_
                rw [JObj.containsKey_cons]
                simp [h3]
              have hrec : parseMembers f (acc.append k v)
                  ('\n' :: (indentChars gap d ++ (printMember gap d k2 v2
                    ++ (printMembers gap d ms2 ++ (ws2 ++ '}' :: rest)))))
                  = some ((acc.append k v).concat (.cons k2 v2 ms2), rest) := by
                have := IH3 k2 v2 ms2 (acc.append k v) gap d
                  ('\n' :: indentChars gap d) ws2 rest hfuel2
                  (allWs_cons _ _ (by decide) (allWs_indent _ _)) hws2
                  hukms.1.2 hukms.2 hukms.1.1 hfresh2
                simpa [List.append_assoc] using this
              have hup : acc.upsert k v = acc.append k v :=
                JObj.upsert_fresh acc k v hacck
              have hcc : (acc.append k v).concat (.cons k2 v2 ms2)
                  = acc.concat (.cons k v (.cons k2 v2 ms2)) :=
                JObj.concat_append acc k v (.cons k2 v2 ms2)
              simp [parseMembers, hs, hpsb, hs2, hpv, hs3, stringMk_data, hup,
                hrec, hcc]


/-! ## Fuel bound, whole-string roundtrip, parser yields unique keys -/

theorem len_printVal_le_printMember (gap d : Nat) (k : String) (v : JValue) :
    (printVal gap d v).length ≤ (printMember gap d k v).length := by
  by_cases hg : gap = 0
  · simp [printMember, hg]
    omega
  · simp [printMember, hg]
    omega

/-- The parser fuel requirement is bounded by the printed length. -/
theorem need_le_len : ∀ n : Nat,
    (∀ j : JValue, sizeOf j ≤ n → ∀ gap d : Nat,
        need j ≤ (printVal gap d j).length) ∧
    (∀ xs : JArr, sizeOf xs ≤ n → ∀ gap d : Nat,
        needItems xs ≤ (printItems gap d xs).length) ∧
    (∀ ms : JObj, sizeOf ms ≤ n → ∀ gap d : Nat,
        needMembers ms ≤ (printMembers gap d ms).length) := by
  intro n
  induction n using Nat.strong_induction_on with
  | _ n ih =>
  refine ⟨?_, ?_, ?_⟩
  · intro j hsz gap d
    cases j with
    | null => simp [need, printVal]
    | bool b => cases b <;> simp [need, printVal]
    | num i =>
        have h1 : 1 ≤ (natChars i.natAbs).length := by
          cases hnc : natChars i.natAbs with
          | nil => exact absurd hnc (natChars_ne_nil _)
          | cons c l => simp
        have h2 : need (JValue.num i) = 1 := by simp [need]
        have h3 : printVal gap d (JValue.num i) = intChars i := by simp [printVal]
        rw [h2, h3]
        simp only [intChars]
        by_cases hi : i < 0
        · simp only [if_pos hi, List.length_cons]
          omega
        · simp only [if_neg hi]
          exact h1
    | str s =>
        have h2 : need (JValue.str s) = 1 := by simp [need]
        have h3 : printVal gap d (JValue.str s) = quoteString s := by
          simp [printVal]
        rw [h2, h3]
        simp only [quoteString, List.length_cons]
        omega
    | arr xs =>
        cases xs with
        | nil => simp [need, printVal]
        | cons v xs2 =>
            have hsz2 : 2 + sizeOf v + sizeOf xs2 ≤ n := by
              have h := hsz
              simp only [JValue.arr.sizeOf_spec, JArr.cons.sizeOf_spec] at h
              omega
            obtain ⟨ih1, ih2, _⟩ := ih (n - 1) (by omega)
            have hneed : need (JValue.arr (.cons v xs2))
                = 1 + (1 + max (need v) (needItems xs2)) := by
              simp [need, needItems]
            by_cases hg : gap = 0
            · subst hg
              have hp : printVal 0 d (JValue.arr (.cons v xs2))
                  = '[' :: (printVal 0 0 v ++ (printItems 0 0 xs2 ++ [']'])) := by
                simp [printVal]
              have hv0 := ih1 v (by omega) 0 0
              have hx0 := ih2 xs2 (by omega) 0 0
              rw [hneed, hp]
              simp only [List.length_cons, List.length_append]
              omega
            · have hp : printVal gap d (JValue.arr (.cons v xs2))
                  = '[' :: ('\n' :: (indentChars gap (d + 1)
                    ++ printVal gap (d + 1) v ++ printItems gap (d + 1) xs2
                    ++ '\n' :: (indentChars gap d ++ [']']))) := by
                simp [printVal, hg]
              have hv0 := ih1 v (by omega) gap (d + 1)
              have hx0 := ih2 xs2 (by omega) gap (d + 1)
              rw [hneed, hp]
              simp only [List.length_cons, List.length_append]
              omega
    | obj ms =>
        cases ms with
        | nil => simp [need, printVal]
        | cons k v ms2 =>
            have hsz2 : 2 + sizeOf v + sizeOf ms2 ≤ n := by
              have h := hsz
              simp only [JValue.obj.sizeOf_spec, JObj.cons.sizeOf_spec] at h
              have : 0 ≤ sizeOf k := Nat.zero_le _
              omega
            obtain ⟨ih1, _, ih3⟩ := ih (n - 1) (by omega)
            have hneed : need (JValue.obj (.cons k v ms2))
                = 1 + (1 + max (need v) (needMembers ms2)) := by
              simp [need, needMembers]
            by_cases hg : gap = 0
            · subst hg
              have hp : printVal 0 d (JValue.obj (.cons k v ms2))
                  = '{' :: (printMember 0 0 k v
                    ++ (printMembers 0 0 ms2 ++ ['}'])) := by
                simp [printVal]
              have hv0 := ih1 v (by omega) 0 0
              have hx0 := ih3 ms2 (by omega) 0 0
              have hml := len_printVal_le_printMember 0 0 k v
              rw [hneed, hp]
              simp only [List.length_cons, List.length_append]
              omega
            · have hp : printVal gap d (JValue.obj (.cons k v ms2))
                  = '{' :: ('\n' :: (indentChars gap (d + 1)
                    ++ printMember gap (d + 1) k v
                    ++ printMembers gap (d + 1) ms2
                    ++ '\n' :: (indentChars gap d ++ ['}']))) := by
                simp [printVal, hg]
              have hv0 := ih1 v (by omega) gap (d + 1)
              have hx0 := ih3 ms2 (by omega) gap (d + 1)
              have hml := len_printVal_le_printMember gap (d + 1) k v
              rw [hneed, hp]
              simp only [List.length_cons, List.length_append]
              omega
  · intro xs hsz gap d
    cases xs with
    | nil => simp [needItems, printItems]
    | cons v xs2 =>
        have hsz2 : 1 + sizeOf v + sizeOf xs2 ≤ n := by
          have h := hsz
          simp only [JArr.cons.sizeOf_spec] at h
          omega
        obtain ⟨ih1, ih2, _⟩ := ih (n - 1) (by omega)
        have hv0 := ih1 v (by omega) gap d
        have hx0 := ih2 xs2 (by omega) gap d
        have hneed : needItems (JArr.cons v xs2)
            = 1 + max (need v) (needItems xs2) := by simp [needItems]
        have hsep : 1 ≤ (if gap = 0 then [',']
            else ',' :: '\n' :: indentChars gap d).length := by
          by_cases hg : gap = 0 <;> simp [hg]
        have hp : printItems gap d (JArr.cons v xs2)
            = (if gap = 0 then [','] else ',' :: '\n' :: indentChars gap d)
              ++ printVal gap d v ++ printItems gap d xs2 := by
          simp [printItems]
        rw [hneed, hp]
        simp only [List.length_append]
        omega
  · intro ms hsz gap d
    cases ms with
    | nil => simp [needMembers, printMembers]
    | cons k v ms2 =>
        have hsz2 : 1 + sizeOf v + sizeOf ms2 ≤ n := by
          have h := hsz
          simp only [JObj.cons.sizeOf_spec] at h
          have : 0 ≤ sizeOf k := Nat.zero_le _
          omega
        obtain ⟨ih1, _, ih3⟩ := ih (n - 1) (by omega)
        have hv0 := ih1 v (by omega) gap d
        have hx0 := ih3 ms2 (by omega) gap d
        have hml := len_printVal_le_printMember gap d k v
        have hneed : needMembers (JObj.cons k v ms2)
            = 1 + max (need v) (needMembers ms2) := by simp [needMembers]
        have hsep : 1 ≤ (if gap = 0 then [',']
            else ',' :: '\n' :: indentChars gap d).length := by
          by_cases hg : gap = 0 <;> simp [hg]
        have hp : printMembers gap d (JObj.cons k v ms2)
            = (if gap = 0 then [','] else ',' :: '\n' :: indentChars gap d)
              ++ printMember gap d k v ++ printMembers gap d ms2 := by
          simp [printMembers]
        rw [hneed, hp]
        simp only [List.length_append]
        omega

/-- `JSON.parse (JSON.stringify v)` recovers `v` exactly, for any value with
unique object keys and any indentation. -/
theorem parse_print_roundtrip (gap : Nat) (j : JValue) (huk : ukB j = true) :
    jsonParse (jsonStringify gap j) = some j := by
  have hlen : need j ≤ (printVal gap 0 j).length + 1 := by
    have := (need_le_len (sizeOf j)).1 j le_rfl gap 0
    omega
  have hmain := (parseRound ((printVal gap 0 j).length + 1)).1 j gap 0 [] []
    hlen allWs_nil huk (numOk_intro _ _ (by trivial))
  simp only [List.nil_append, List.append_nil] at hmain
  have hdata : (jsonStringify gap j).data = printVal gap 0 j := rfl
  have hlen2 : (jsonStringify gap j).length = (printVal gap 0 j).length := rfl
  simp [jsonParse, hdata, hlen2, hmain, skipWs]

theorem ukObj_upsert (o : JObj) (k : String) (v : JValue)
    (ho : ukObj o = true) (hv : ukB v = true) : ukObj (o.upsert k v) = true := by
  rw [JObj.upsert]
  by_cases hc : o.containsKey k = true
  · rw [if_pos hc]
    exact JObj.ukObj_setVal o k v ho hv
  · rw [if_neg hc]
    exact JObj.ukObj_append_fresh o k v ho hv (by simpa using hc)

/-- Whatever the input text, a successful parse yields unique object keys at
every level (duplicate members collapse through property assignment). -/
theorem parseUK : ∀ fuel : Nat,
    (∀ (cs : List Char) (v : JValue) (r : List Char),
       parseValue fuel cs = some (v, r) → ukB v = true) ∧
    (∀ (cs : List Char) (xs : JArr) (r : List Char),
       parseItems fuel cs = some (xs, r) → ukArr xs = true) ∧
    (∀ (acc : JObj) (cs : List Char) (ms : JObj) (r : List Char),
       ukObj acc = true → parseMembers fuel acc cs = some (ms, r) →
       ukObj ms = true) := by
  intro fuel
  induction fuel with
  | zero =>
      refine ⟨?_, ?_, ?_⟩
      · intro cs v r h
        simp [parseValue] at h
      · intro cs xs r h
        simp [parseItems] at h
      · intro acc cs ms r _ h
        simp [parseMembers] at h
  | succ f ihf =>
      obtain ⟨IH1, IH2, IH3⟩ := ihf
      refine ⟨?_, ?_, ?_⟩
      · intro cs v r h
        simp only [parseValue] at h
        cases hsw : skipWs cs with
        | nil => simp [hsw] at h
        | cons c r0 =>
            simp only [hsw] at h
            by_cases h1 : c = 'n'
            · rw [if_pos h1] at h
              simp only [Option.map_eq_some', Prod.mk.injEq] at h
              obtain ⟨a, -, hv, -⟩ := h
              subst hv
              rfl
            · rw [if_neg h1] at h
              by_cases h2 : c = 't'
              · rw [if_pos h2] at h
                simp only [Option.map_eq_some', Prod.mk.injEq] at h
                obtain ⟨a, -, hv, -⟩ := h
                subst hv
                rfl
              · rw [if_neg h2] at h
                by_cases h3 : c = 'f'
                · rw [if_pos h3] at h
                  simp only [Option.map_eq_some', Prod.mk.injEq] at h
                  obtain ⟨a, -, hv, -⟩ := h
                  subst hv
                  rfl
                · rw [if_neg h3] at h
                  by_cases h4 : c = '"'
                  · rw [if_pos h4] at h
                    simp only [Option.map_eq_some', Prod.mk.injEq] at h
                    obtain ⟨a, -, hv, -⟩ := h
                    subst hv
                    rfl
                  · rw [if_neg h4] at h
                    by_cases h5 : c = '['
                    · rw [if_pos h5] at h
                      cases hsw2 : skipWs r0 with
                      | nil => simp [hsw2] at h
                      | cons c2 r2 =>
                          simp only [hsw2] at h
                          by_cases h6 : c2 = ']'
                          · rw [if_pos h6] at h
                            simp only [Option.some.injEq, Prod.mk.injEq] at h
                            obtain ⟨hv, -⟩ := h
                            subst hv
                            rfl
                          · rw [if_neg h6] at h
                            cases hpi : parseItems f r0 with
                            | none => simp [hpi] at h
                            | some p =>
                                obtain ⟨xs, r3⟩ := p
                                simp only [hpi] at h
                                simp only [Option.some.injEq, Prod.mk.injEq] at h
                                obtain ⟨hv, -⟩ := h
                                subst hv
                                simp only [ukB]
                                exact IH2 r0 xs r3 hpi
                    · rw [if_neg h5] at h
                      by_cases h7 : c = '{'
                      · rw [if_pos h7] at h
                        cases hsw2 : skipWs r0 with
                        | nil => simp [hsw2] at h
                        | cons c2 r2 =>
                            simp only [hsw2] at h
                            by_cases h8 : c2 = '}'
                            · rw [if_pos h8] at h
                              simp only [Option.some.injEq, Prod.mk.injEq] at h
                              obtain ⟨hv, -⟩ := h
                              subst hv
                              rfl
                            · rw [if_neg h8] at h
                              cases hpm : parseMembers f .nil r0 with
                              | none => simp [hpm] at h
                              | some p =>
                                  obtain ⟨ms, r3⟩ := p
                                  simp only [hpm] at h
                                  simp only [Option.some.injEq,
                                    Prod.mk.injEq] at h
                                  obtain ⟨hv, -⟩ := h
                                  subst hv
                                  simp only [ukB]
                                  exact IH3 .nil r0 ms r3 rfl hpm
                      · rw [if_neg h7] at h
                        by_cases h9 : c = '-'
                        · rw [if_pos h9] at h
                          rcases htd : takeDigits r0 with ⟨ds, r2⟩
                          simp only [htd] at h
                          cases ds with
                          | nil => simp at h
                          | cons d0 ds2 =>
                              simp only [Option.some.injEq, Prod.mk.injEq] at h
                              obtain ⟨hv, -⟩ := h
                              subst hv
                              rfl
                        · rw [if_neg h9] at h
                          by_cases h10 : c.isDigit = true
                          · rw [if_pos h10] at h
                            rcases htd : takeDigits (c :: r0) with ⟨ds, r2⟩
                            simp only [htd] at h
                            simp only [Option.some.injEq, Prod.mk.injEq] at h
                            obtain ⟨hv, -⟩ := h
                            subst hv
                            rfl
                          · rw [if_neg h10] at h
                            simp at h
      · intro cs xs r h
        simp only [parseItems] at h
        cases hpv : parseValue f cs with
        | none => simp [hpv] at h
        | some p =>
            obtain ⟨v, r0⟩ := p
            simp only [hpv] at h
            cases hsw : skipWs r0 with
            | nil => simp [hsw] at h
            | cons c r2 =>
                simp only [hsw] at h
                by_cases h1 : c = ','
                · rw [if_pos h1] at h
                  cases hpi : parseItems f r2 with
                  | none => simp [hpi] at h
                  | some q =>
                      obtain ⟨xs2, r3⟩ := q
                      simp only [hpi] at h
                      simp only [Option.some.injEq, Prod.mk.injEq] at h
                      obtain ⟨hxs, -⟩ := h
                      subst hxs
                      simp only [ukArr, Bool.and_eq_true]
                      exact ⟨IH1 cs v r0 hpv, IH2 r2 xs2 r3 hpi⟩
                · rw [if_neg h1] at h
                  by_cases h2 : c = ']'
                  · rw [if_pos h2] at h
                    simp only [Option.some.injEq, Prod.mk.injEq] at h
                    obtain ⟨hxs, -⟩ := h
                    subst hxs
                    simp only [ukArr, Bool.and_eq_true]
                    exact ⟨IH1 cs v r0 hpv, trivial⟩
                  · rw [if_neg h2] at h
                    simp at h
      · intro acc cs ms r hacc h
        simp only [parseMembers] at h
        cases hsw : skipWs cs with
        | nil => simp [hsw] at h
        | cons c r0 =>
            simp only [hsw] at h
            by_cases h1 : c = '"'
            · rw [if_pos h1] at h
              cases hpsb : parseStringBody r0 with
              | none => simp [hpsb] at h
              | some p =>
                  obtain ⟨kchars, r2⟩ := p
                  simp only [hpsb] at h
                  cases hsw2 : skipWs r2 with
                  | nil => simp [hsw2] at h
                  | cons c2 r3 =>
                      simp only [hsw2] at h
                      by_cases h2 : c2 = ':'
                      · rw [if_pos h2] at h
                        cases hpv : parseValue f r3 with
                        | none => simp [hpv] at h
                        | some q =>
                            obtain ⟨v, r4⟩ := q
                            simp only [hpv] at h
                            have hukv : ukB v = true := IH1 r3 v r4 hpv
                            have hup : ukObj (acc.upsert (String.mk kchars) v)
                                = true := ukObj_upsert acc _ v hacc hukv
                            cases hsw3 : skipWs r4 with
                            | nil => simp [hsw3] at h
                            | cons c3 r5 =>
                                simp only [hsw3] at h
                                by_cases h3 : c3 = ','
                                · rw [if_pos h3] at h
                                  exact IH3 _ r5 ms r hup h
                                · rw [if_neg h3] at h
                                  by_cases h4 : c3 = '}'
                                  · rw [if_pos h4] at h
                                    simp only [Option.some.injEq,
                                      Prod.mk.injEq] at h
                                    obtain ⟨hms, -⟩ := h
                                    subst hms
                                    exact hup
                                  · rw [if_neg h4] at h
                                    simp at h
                      · rw [if_neg h2] at h
                        simp at h
            · rw [if_neg h1] at h
              simp at h

/-- `JSON.parse` only ever produces values with unique object keys. -/
theorem jsonParse_ukB (s : String) (v : JValue) (h : jsonParse s = some v) :
    ukB v = true := by
  simp only [jsonParse] at h
  cases hp : parseValue (s.length + 1) s.data with
  | none => simp [hp] at h
  | some p =>
      obtain ⟨v2, r⟩ := p
      simp only [hp] at h
      by_cases hr : skipWs r = []
      · rw [if_pos hr] at h
        have hv2 : v2 = v := by simpa using h
        subst hv2
        exact (parseUK (s.length + 1)).1 s.data v2 r hp
      · rw [if_neg hr] at h
        simp at h


/-! ## The TextMode component state machine

Shallow embedding of the mutable component state and of the functions of
`src/lib/components/modes/textmode/TextMode.svelte`.  The CodeMirror widget
is reduced to its document string (`widgetDoc`); `getCodeMirrorValue()`
reads it and the debounced change listener is an explicit `pendingDebounce`
flag with a separate "timer fires" step.  Host callbacks (`onChange`,
`onError`, validator, `jsonrepair`) live in `Env`. -/

inductive JsonStatus where
  | valid
  | repairable
  | invalid
deriving DecidableEq

/-- Modelled from the spec (§3, §7): the tagged validation outcome returned
by `validateText` — either a parse error (with its repairability) or a list
of semantic validation errors (empty list = valid). -/
inductive ContentErrors where
  | parseError (parseError : String) (isRepairable : Bool)
  | validationErrors (validationErrors : List String)
deriving DecidableEq

/-- A change event as emitted to the host (spec §6):
`(current:{text}, previous:{text}, meta:{contentErrors, ...})`. -/
structure ChangeEvent where
  currentText : String
  previousText : String
  contentErrors : ContentErrors
deriving DecidableEq

/-- The external collaborators of the component. -/
structure Env where
  /-- Modelled from the spec (§6): the schema validator's error list for the
  (parsed value of the) given text, per validator identity. -/
  semValidate : Nat → String → List String
  /-- Modelled from the spec (§4.3): the parse-error payload captured for an
  unparseable text. -/
  parseMsg : String → String
  /-- Modelled from the spec (§4.3): dry-run repairability of an
  unparseable text. -/
  repairableQ : String → Bool
  /-- Modelled from the spec (§4.5, §6): the external repair function
  (`jsonrepair`); `none` models a thrown repair error. -/
  repairFn : String → Option String
  /-- A host `onChange` consumer that reacts synchronously to a change event
  by writing the widget document and forcing a flush — the feedback loop the
  re-entrancy guard of spec §4.6 is meant to suppress.  `none`: the consumer
  only records the event. -/
  react : Option String

/-- Modelled from the spec (§4.3): `validateText` — parse the text; on
success run the supplied validator and return its (possibly empty) semantic
error list, on failure capture the parse error and its repairability. -/
def validateText (env : Env) (text : String) (validator : Option Nat) :
    ContentErrors :=
  match jsonParse text with
  | some _ =>
      .validationErrors
        (match validator with
         | some vid => env.semValidate vid text
         | none => [])
  | none => .parseError (env.parseMsg text) (env.repairableQ text)

/-- Modelled from the spec (§4.3, §9): `memoize-one` applied to
`validateText` — a capacity-one cache keyed on the `(text, validator)`
pair.  Returns the result, the new cache, and how many times the underlying
`validateText` ran (0 or 1). -/
def memoValidate (env : Env)
    (cache : Option ((String × Option Nat) × ContentErrors))
    (text : String) (validator : Option Nat) :
    ContentErrors × Option ((String × Option Nat) × ContentErrors) × Nat :=
  match cache with
  | some (key, res) =>
      if key = (text, validator) then (res, cache, 0)
      else
        let r := validateText env text validator
        (r, some ((text, validator), r), 1)
  | none =>
      let r := validateText env text validator
      (r, some ((text, validator), r), 1)

/-- The immutable-per-render configuration (component props). -/
structure Config where
  readOnly : Bool
  indentation : Nat
  maxSize : Nat
  validator : Option Nat
  hasOnChange : Bool

/-- The component's mutable state.  `runs` counts executions of the
underlying `validateText`, `events` collects the change events emitted to
the host and `errorsReported` counts `onError` invocations — pure
instrumentation of the host-visible effects. -/
structure TMState where
  text : String
  codeMirrorText : String
  widgetDoc : String
  onChangeDisabled : Bool
  acceptTooLarge : Bool
  modalOpen : Bool
  jsonStatus : JsonStatus
  jsonParseError : Option String
  validationErrors : List String
  memo : Option ((String × Option Nat) × ContentErrors)
  pendingDebounce : Bool
  runs : Nat
  events : List ChangeEvent
  errorsReported : Nat
deriving DecidableEq

/-- Line 99: `tooLarge = text && text.length > MAX_DOCUMENT_SIZE_TEXT_MODE`. -/
def tooLarge (cfg : Config) (s : TMState) : Bool :=
  decide (s.text ≠ "") && decide (cfg.maxSize < s.text.length)

/-- Line 100: `textEditorDisabled = tooLarge && !acceptTooLarge`. -/
def textEditorDisabled (cfg : Config) (s : TMState) : Bool :=
  tooLarge cfg s && !s.acceptTooLarge

/-- The outcome branch of `validate()` (lines 733-741). -/
def applyOutcome (s : TMState) : ContentErrors → TMState
  | .parseError pe rep =>
      { s with jsonStatus := if rep then .repairable else .invalid,
               jsonParseError := some pe,
               validationErrors := [] }
  | .validationErrors ve =>
      { s with jsonStatus := .valid, jsonParseError := none,
               validationErrors := ve }

mutual

/-- `validate()` (lines 726-744): flush any pending debounced update, then
run the memoized validation and record the outcome fields. -/
def validateRun (env : Env) (cfg : Config) :
    Nat → TMState → TMState × ContentErrors
  | fuel, s =>
      let s1 := flushRun env cfg fuel s
      let m := memoValidate env s1.memo s1.text cfg.validator
      let s2 := { s1 with memo := m.2.1, runs := s1.runs + m.2.2 }
      (applyOutcome s2 m.1, m.1)
  termination_by fuel s => (fuel, 2)

/-- `onChangeCodeMirrorValueDebounced.flush()`: run the pending debounced
callback now, if one is scheduled. -/
def flushRun (env : Env) (cfg : Config) : Nat → TMState → TMState
  | fuel, s =>
      if s.pendingDebounce then
        onChangeCMV env cfg fuel { s with pendingDebounce := false }
      else s
  termination_by fuel s => (fuel, 1)

/-- `onChangeCodeMirrorValue` (lines 611-627).  Note that `previousText` is
read from `codeMirrorText` *after* that cache has been refreshed with the
newly read widget text (lines 616-618). -/
def onChangeCMV (env : Env) (cfg : Config) : Nat → TMState → TMState
  | 0, s => s
  | fuel + 1, s =>
      if s.onChangeDisabled then s
      else
        let cmt := s.widgetDoc
        let s1 := { s with codeMirrorText := cmt }
        if cmt ≠ s1.text then
          let previousText := s1.codeMirrorText
          let s2 := { s1 with text := cmt }
          emitOnChange env cfg fuel s2 cmt previousText
        else s1
  termination_by fuel s => (fuel, 0)

/-- `emitOnChange` (lines 693-704): validate (which flushes), then hand the
event to the host; the host consumer may react synchronously
(`env.react`). -/
def emitOnChange (env : Env) (cfg : Config) :
    Nat → TMState → String → String → TMState
  | fuel, s, txt, prev =>
      if cfg.hasOnChange then
        let p := validateRun env cfg fuel s
        let s2 := { p.1 with events := p.1.events ++ [⟨txt, prev, p.2⟩] }
        match env.react with
        | some doc =>
            flushRun env cfg fuel
              { s2 with widgetDoc := doc, pendingDebounce := true }
        | none => s2
      else s
  termination_by fuel s txt prev => (fuel, 3)

end

/-- One widget "document changed" notification: the widget buffer takes the
new content and the debounced `onChangeCodeMirrorValue` is (re)scheduled;
several edits within the delay coalesce into one pending callback. -/
def widgetEdit (s : TMState) (doc : String) : TMState :=
  { s with widgetDoc := doc, pendingDebounce := true }

/-- The debounce timer fires after the quiet period. -/
def debounceFire (env : Env) (cfg : Config) (s : TMState) : TMState :=
  flushRun env cfg 3 s

/-- The exported `validate()` entry point. -/
def validateEntry (env : Env) (cfg : Config) (s : TMState) :
    TMState × ContentErrors :=
  validateRun env cfg 3 s

/-- The `JSONPatchResult` returned by `patch` (lines 192-197). -/
structure PatchResult where
  json : JValue
  previousJson : JValue
  undo : List Op
  redo : List Op

/-- The exported `patch(operations)` (lines 179-198).  There is no
read-only check; a `JSON.parse` failure or an inapplicable operation throws
out of the function (modelled as a `none` result with unchanged state). -/
def patchRun (env : Env) (cfg : Config) (s : TMState) (ops : List Op) :
    TMState × Option PatchResult :=
  match jsonParse s.text with
  | none => (s, none)
  | some previousJson =>
      match applyPatch previousJson ops, revertPatch previousJson ops with
      | some updatedJson, some undo =>
          let newText := jsonStringify cfg.indentation updatedJson
          let s1 := { s with text := newText }
          let s2 := if newText ≠ s.text then
              emitOnChange env cfg 3 s1 newText s.text
            else s1
          (s2, some ⟨updatedJson, previousJson, undo, ops⟩)
      | _, _ => (s, none)

/-- `handleFormat` (lines 200-218): early-return when read-only; parse and
re-serialize with the configured indentation; a thrown parse error goes to
`onError`. -/
def handleFormat (env : Env) (cfg : Config) (s : TMState) : TMState :=
  if cfg.readOnly then s
  else
    match jsonParse s.text with
    | none => { s with errorsReported := s.errorsReported + 1 }
    | some json =>
        let newText := jsonStringify cfg.indentation json
        let s1 := { s with text := newText }
        if newText ≠ s.text then emitOnChange env cfg 3 s1 newText s.text
        else s1

/-- `handleCompact` (lines 220-238): like format, with no indentation. -/
def handleCompact (env : Env) (cfg : Config) (s : TMState) : TMState :=
  if cfg.readOnly then s
  else
    match jsonParse s.text with
    | none => { s with errorsReported := s.errorsReported + 1 }
    | some json =>
        let newText := jsonStringify 0 json
        let s1 := { s with text := newText }
        if newText ≠ s.text then emitOnChange env cfg 3 s1 newText s.text
        else s1

/-- `handleRepair` (lines 240-259): run the external repair function; on
success commit the repaired text (status forced valid) and emit if changed;
a thrown repair error goes to `onError`. -/
def handleRepair (env : Env) (cfg : Config) (s : TMState) : TMState :=
  if cfg.readOnly then s
  else
    match env.repairFn s.text with
    | none => { s with errorsReported := s.errorsReported + 1 }
    | some t2 =>
        let s1 := { s with
                    text := t2, jsonStatus := JsonStatus.valid,
                    jsonParseError := none }
        if t2 ≠ s.text then emitOnChange env cfg 3 s1 t2 s.text else s1

/-- `handleSort` (lines 261-287): parse, then open the sort modal; the text
is not touched and no change event is emitted until the modal calls back
with a patch. -/
def handleSort (env : Env) (cfg : Config) (s : TMState) : TMState :=
  if cfg.readOnly then s
  else
    match jsonParse s.text with
    | none => { s with errorsReported := s.errorsReported + 1 }
    | some _ => { s with modalOpen := true }

/-- `openTransformModal` (lines 297-330): parse, then open the transform
modal; no read-only check of its own. -/
def openTransformModal (env : Env) (cfg : Config) (s : TMState) : TMState :=
  match jsonParse s.text with
  | none => { s with errorsReported := s.errorsReported + 1 }
  | some _ => { s with modalOpen := true }

/-- `handleTransform` (lines 332-340). -/
def handleTransform (env : Env) (cfg : Config) (s : TMState) : TMState :=
  if cfg.readOnly then s else openTransformModal env cfg s

/-- `linterCallback` (lines 710-724): validation outcome turned into a
plain diagnostics list — parse errors and semantic errors are returned as
data, never thrown. -/
def linterCallback (env : Env) (cfg : Config) (s : TMState) :
    TMState × List String :=
  let p := validateRun env cfg 3 s
  match p.2 with
  | .parseError pe _ => (p.1, [pe])
  | .validationErrors ve => (p.1, ve)


/-! ## Unfolding lemmas for the state machine -/

@[simp] theorem applyOutcome_text (s : TMState) (ce : ContentErrors) :
    (applyOutcome s ce).text = s.text := by
  cases ce <;> simp [applyOutcome]

@[simp] theorem applyOutcome_codeMirrorText (s : TMState) (ce : ContentErrors) :
    (applyOutcome s ce).codeMirrorText = s.codeMirrorText := by
  cases ce <;> simp [applyOutcome]

@[simp] theorem applyOutcome_widgetDoc (s : TMState) (ce : ContentErrors) :
    (applyOutcome s ce).widgetDoc = s.widgetDoc := by
  cases ce <;> simp [applyOutcome]

@[simp] theorem applyOutcome_onChangeDisabled (s : TMState) (ce : ContentErrors) :
    (applyOutcome s ce).onChangeDisabled = s.onChangeDisabled := by
  cases ce <;> simp [applyOutcome]

@[simp] theorem applyOutcome_acceptTooLarge (s : TMState) (ce : ContentErrors) :
    (applyOutcome s ce).acceptTooLarge = s.acceptTooLarge := by
  cases ce <;> simp [applyOutcome]

@[simp] theorem applyOutcome_modalOpen (s : TMState) (ce : ContentErrors) :
    (applyOutcome s ce).modalOpen = s.modalOpen := by
  cases ce <;> simp [applyOutcome]

@[simp] theorem applyOutcome_memo (s : TMState) (ce : ContentErrors) :
    (applyOutcome s ce).memo = s.memo := by
  cases ce <;> simp [applyOutcome]

@[simp] theorem applyOutcome_pendingDebounce (s : TMState) (ce : ContentErrors) :
    (applyOutcome s ce).pendingDebounce = s.pendingDebounce := by
  cases ce <;> simp [applyOutcome]

@[simp] theorem applyOutcome_runs (s : TMState) (ce : ContentErrors) :
    (applyOutcome s ce).runs = s.runs := by
  cases ce <;> simp [applyOutcome]

@[simp] theorem applyOutcome_events (s : TMState) (ce : ContentErrors) :
    (applyOutcome s ce).events = s.events := by
  cases ce <;> simp [applyOutcome]

@[simp] theorem applyOutcome_errorsReported (s : TMState) (ce : ContentErrors) :
    (applyOutcome s ce).errorsReported = s.errorsReported := by
  cases ce <;> simp [applyOutcome]

theorem flushRun_noop (env : Env) (cfg : Config) (fuel : Nat) (s : TMState)
    (hp : s.pendingDebounce = false) : flushRun env cfg fuel s = s := by
  simp [flushRun, hp]

theorem flushRun_fire (env : Env) (cfg : Config) (fuel : Nat) (s : TMState)
    (hp : s.pendingDebounce = true) :
    flushRun env cfg fuel s
      = onChangeCMV env cfg fuel { s with pendingDebounce := false } := by
  simp [flushRun, hp]

theorem validateRun_eq_noflush (env : Env) (cfg : Config) (fuel : Nat)
    (s : TMState) (hp : s.pendingDebounce = false) :
    validateRun env cfg fuel s
      = (applyOutcome
           { s with
             memo := (memoValidate env s.memo s.text cfg.validator).2.1,
             runs := s.runs + (memoValidate env s.memo s.text cfg.validator).2.2 }
           (memoValidate env s.memo s.text cfg.validator).1,
         (memoValidate env s.memo s.text cfg.validator).1) := by
  rw [validateRun]
  rw [flushRun_noop env cfg fuel s hp]

theorem onChangeCMV_noop (env : Env) (cfg : Config) (fuel : Nat) (s : TMState)
    (hd : s.onChangeDisabled = false) (heq : s.widgetDoc = s.text) :
    onChangeCMV env cfg (fuel + 1) s
      = { s with codeMirrorText := s.widgetDoc } := by
  simp [onChangeCMV, hd, heq]

theorem onChangeCMV_fire (env : Env) (cfg : Config) (fuel : Nat) (s : TMState)
    (hd : s.onChangeDisabled = false) (hne : s.widgetDoc ≠ s.text) :
    onChangeCMV env cfg (fuel + 1) s
      = emitOnChange env cfg fuel
          { s with codeMirrorText := s.widgetDoc, text := s.widgetDoc }
          s.widgetDoc s.widgetDoc := by
  simp [onChangeCMV, hd, hne]

theorem emitOnChange_eq (env : Env) (cfg : Config) (fuel : Nat) (s : TMState)
    (txt prev : String) (hr : env.react = none) (hon : cfg.hasOnChange = true) :
    emitOnChange env cfg fuel s txt prev
      = { (validateRun env cfg fuel s).1 with
          events := (validateRun env cfg fuel s).1.events
            ++ [⟨txt, prev, (validateRun env cfg fuel s).2⟩] } := by
  rw [emitOnChange]
  simp [hr, hon]

theorem emitOnChange_eq_react (env : Env) (cfg : Config) (fuel : Nat)
    (s : TMState) (txt prev d : String) (hr : env.react = some d)
    (hon : cfg.hasOnChange = true) :
    emitOnChange env cfg fuel s txt prev
      = flushRun env cfg fuel
          { (validateRun env cfg fuel s).1 with
            events := (validateRun env cfg fuel s).1.events
              ++ [⟨txt, prev, (validateRun env cfg fuel s).2⟩],
            widgetDoc := d, pendingDebounce := true } := by
  rw [emitOnChange]
  simp [hr, hon]

theorem emitOnChange_off (env : Env) (cfg : Config) (fuel : Nat) (s : TMState)
    (txt prev : String) (hon : cfg.hasOnChange = false) :
    emitOnChange env cfg fuel s txt prev = s := by
  rw [emitOnChange]
  simp [hon]


/-! ## Memoization and flushing facts -/

theorem memoValidate_key (env : Env)
    (cache : Option ((String × Option Nat) × ContentErrors))
    (t : String) (v : Option Nat) :
    (memoValidate env cache t v).2.1
      = some ((t, v), (memoValidate env cache t v).1) := by
  cases cache with
  | none => simp [memoValidate]
  | some p =>
      obtain ⟨key, res⟩ := p
      by_cases hk : key = (t, v)
      · simp [memoValidate, hk]
      · simp [memoValidate, hk]

theorem memoValidate_hit (env : Env) (t : String) (v : Option Nat)
    (r0 : ContentErrors) :
    memoValidate env (some ((t, v), r0)) t v = (r0, some ((t, v), r0), 0) := by
  simp [memoValidate]

theorem memoValidate_miss (env : Env) (t t2 : String) (v v2 : Option Nat)
    (r0 : ContentErrors) (hne : (t2, v2) ≠ (t, v)) :
    memoValidate env (some ((t2, v2), r0)) t v
      = (validateText env t v,
         some ((t, v), validateText env t v), 1) := by
  simp [memoValidate, hne]

theorem memoValidate_runs_le_one (env : Env)
    (cache : Option ((String × Option Nat) × ContentErrors))
    (t : String) (v : Option Nat) :
    (memoValidate env cache t v).2.2 ≤ 1 := by
  cases cache with
  | none => simp [memoValidate]
  | some p =>
      obtain ⟨key, res⟩ := p
      by_cases hk : key = (t, v)
      · simp [memoValidate, hk]
      · simp [memoValidate, hk]

theorem flush_applies (env : Env) (cfg : Config) (s : TMState) (fuel : Nat)
    (hr : env.react = none) (hd : s.onChangeDisabled = false)
    (hp : s.pendingDebounce = true) :
    (flushRun env cfg (fuel + 1) s).text = s.widgetDoc ∧
    (flushRun env cfg (fuel + 1) s).pendingDebounce = false := by
  rw [flushRun_fire env cfg (fuel + 1) s hp]
  by_cases heq : s.widgetDoc = s.text
  · rw [onChangeCMV_noop env cfg fuel _ (by simpa using hd) (by simpa using heq)]
    constructor
    · simp [heq]
    · simp
  · rw [onChangeCMV_fire env cfg fuel _ (by simpa using hd) (by simpa using heq)]
    cases hhon : cfg.hasOnChange with
    | false =>
        rw [emitOnChange_off _ _ _ _ _ _ hhon]
        constructor <;> simp
    | true =>
        rw [emitOnChange_eq _ _ _ _ _ _ hr hhon,
            validateRun_eq_noflush _ _ _ _ (by simp)]
        constructor <;> simp

/-- A second format on already-formatted text is a complete no-op. -/
theorem handleFormat_noop (env : Env) (cfg : Config) (s : TMState) (j : JValue)
    (hro : cfg.readOnly = false) (hparse : jsonParse s.text = some j)
    (heq : jsonStringify cfg.indentation j = s.text) :
    handleFormat env cfg s = s := by
  simp [handleFormat, hro, hparse, heq]

/-- After a format of parseable text, the canonical text is the
re-serialization of the parsed value. -/
theorem handleFormat_text (env : Env) (cfg : Config) (s : TMState) (j : JValue)
    (hr : env.react = none) (hp : s.pendingDebounce = false)
    (hro : cfg.readOnly = false) (hparse : jsonParse s.text = some j) :
    (handleFormat env cfg s).text = jsonStringify cfg.indentation j := by
  by_cases heq : jsonStringify cfg.indentation j = s.text
  · simp [handleFormat, hro, hparse, heq]
  · have h1 : handleFormat env cfg s
        = emitOnChange env cfg 3
            { s with text := jsonStringify cfg.indentation j }
            (jsonStringify cfg.indentation j) s.text := by
      simp [handleFormat, hro, hparse, heq]
    cases hhon : cfg.hasOnChange with
    | false =>
        rw [h1, emitOnChange_off _ _ _ _ _ _ hhon]
    | true =>
        rw [h1, emitOnChange_eq _ _ _ _ _ _ hr hhon,
            validateRun_eq_noflush _ _ _ _ (by simp [hp])]
        simp


/-! ## Witness fixtures -/

def envW : Env :=
  { semValidate := fun _ _ => [], parseMsg := fun _ => "parse error",
    repairableQ := fun _ => false, repairFn := fun _ => none, react := none }

def envR (d : String) : Env := { envW with react := some d }

def cfgW : Config :=
  { readOnly := false, indentation := 2, maxSize := 100, validator := none,
    hasOnChange := true }

def cfgRO : Config :=
  { readOnly := true, indentation := 0, maxSize := 100, validator := none,
    hasOnChange := true }

def cfgCX : Config :=
  { readOnly := false, indentation := 0, maxSize := 1, validator := none,
    hasOnChange := true }

/-- A quiescent component state whose canonical text is `t`. -/
def stW (t : String) : TMState :=
  { text := t, codeMirrorText := t, widgetDoc := t, onChangeDisabled := false,
    acceptTooLarge := false, modalOpen := false, jsonStatus := .valid,
    jsonParseError := none, validationErrors := [], memo := none,
    pendingDebounce := false, runs := 0, events := [], errorsReported := 0 }

/-! ## The claims -/

/-- **C1** (code bug).  When the debounced canonical-text update applies
(the newly read widget text differs from the canonical text), exactly one
change event is emitted — but its `previous.text` field equals the *new*
text, not the canonical text from before the update: `onChangeCodeMirrorValue`
refreshes `codeMirrorText` with the newly read widget text (line 616) and
only afterwards takes `previousText` from that refreshed cache (line 618).
So the emitted event carries `previous.text = current.text = s.widgetDoc`,
and since the update only applies when `s.widgetDoc ≠ s.text`, the event's
`previous.text` is never the pre-update canonical text the claim requires. -/
theorem claim1_debounced_previousText_is_new_text (env : Env) (cfg : Config)
    (s : TMState) (hr : env.react = none) (hd : s.onChangeDisabled = false)
    (hp : s.pendingDebounce = true) (hon : cfg.hasOnChange = true)
    (hne : s.widgetDoc ≠ s.text) :
    ∃ ce, (debounceFire env cfg s).events
        = s.events ++ [⟨s.widgetDoc, s.widgetDoc, ce⟩] := by
  simp only [debounceFire]
  rw [flushRun_fire env cfg 3 s hp,
      show (3 : Nat) = 2 + 1 from rfl,
      onChangeCMV_fire env cfg 2 _ (by simpa using hd) (by simpa using hne),
      emitOnChange_eq env cfg 2 _ _ _ hr hon,
      validateRun_eq_noflush env cfg 2 _ (by simp)]
  refine ⟨(memoValidate env s.memo s.widgetDoc cfg.validator).1, ?_⟩
  simp

theorem claim1_witness :
    ∃ ce, (debounceFire envW cfgW (widgetEdit (stW "1") "2")).events
        = (widgetEdit (stW "1") "2").events
          ++ [⟨(widgetEdit (stW "1") "2").widgetDoc,
               (widgetEdit (stW "1") "2").widgetDoc, ce⟩] :=
  claim1_debounced_previousText_is_new_text envW cfgW (widgetEdit (stW "1") "2")
    rfl rfl rfl rfl (by decide)

/-- **C2** (corrected).  The four structural commands refuse to run only
when the document is read-only: `handleFormat`, `handleCompact`,
`handleSort` and `handleTransform` all early-return on `readOnly` and leave
the state untouched.  None of them consults the size threshold
(`tooLarge` / `textEditorDisabled`): see `claim2_counterexample` for an
oversized, unaccepted document on which Format still rewrites the text and
emits a change event. -/
theorem claim2_commands_refuse_only_readOnly (env : Env) (cfg : Config)
    (s : TMState) (hro : cfg.readOnly = true) :
    handleFormat env cfg s = s ∧ handleCompact env cfg s = s ∧
    handleSort env cfg s = s ∧ handleTransform env cfg s = s := by
  refine ⟨?_, ?_, ?_, ?_⟩ <;>
    simp [handleFormat, handleCompact, handleSort, handleTransform, hro]

theorem claim2_witness :
    handleFormat envW cfgRO (stW "1") = stW "1" ∧
    handleCompact envW cfgRO (stW "1") = stW "1" ∧
    handleSort envW cfgRO (stW "1") = stW "1" ∧
    handleTransform envW cfgRO (stW "1") = stW "1" :=
  claim2_commands_refuse_only_readOnly envW cfgRO (stW "1") rfl

/-- Counterexample to the size-guard half of C2: the document `"1 "` is
larger than the configured threshold (`maxSize = 1`) and not accepted, yet
`handleFormat` still rewrites the canonical text and emits a change event. -/
theorem claim2_counterexample :
    cfgCX.readOnly = false ∧ tooLarge cfgCX (stW "1 ") = true ∧
    (stW "1 ").acceptTooLarge = false ∧
    textEditorDisabled cfgCX (stW "1 ") = true ∧
    (handleFormat envW cfgCX (stW "1 ")).text ≠ (stW "1 ").text ∧
    (handleFormat envW cfgCX (stW "1 ")).events ≠ (stW "1 ").events := by
  have hparse : jsonParse "1 " = some (.num 1) := by
    simp [jsonParse, parseValue, skipWs, isWs, takeDigits, digitsVal]
  have hstr : jsonStringify 0 (JValue.num 1) = "1" := by
    simp [jsonStringify, printVal, intChars, natChars, natRevDigits, digitChar]
  have htext : (stW "1 ").text = "1 " := rfl
  have h1 : handleFormat envW cfgCX (stW "1 ")
      = emitOnChange envW cfgCX 3 { stW "1 " with text := "1" } "1" "1 " := by
    simp [handleFormat, cfgCX, htext, hparse, hstr]
  have hpend : ({ stW "1 " with text := "1" } : TMState).pendingDebounce
      = false := rfl
  refine ⟨rfl, by decide, rfl, by decide, ?_, ?_⟩
  · rw [h1, emitOnChange_eq _ _ _ _ _ _ rfl rfl,
        validateRun_eq_noflush _ _ _ _ hpend]
    simp [stW]
  · rw [h1, emitOnChange_eq _ _ _ _ _ _ rfl rfl,
        validateRun_eq_noflush _ _ _ _ hpend]
    simp [stW]

/-- **C3** (code bug).  The re-entrancy guard does not exist in practice:
`onChangeDisabled` is initialized `false` (line 88) and never assigned
anywhere, so a widget-originated update arriving synchronously while a
change event is being emitted (a consumer that writes the widget and forces
a flush from inside its `onChange` handler) is *not* suppressed: it
re-enters the canonical-text update path and produces a second change event
within the same synchronous update. -/
theorem fire_step (env : Env) (cfg : Config) (fuel : Nat) (s : TMState)
    (d2 : String) (hr : env.react = some d2) (hd : s.onChangeDisabled = false)
    (hp : s.pendingDebounce = true) (hon : cfg.hasOnChange = true)
    (hne : s.widgetDoc ≠ s.text) :
    ∃ (S : TMState) (ce : ContentErrors),
      flushRun env cfg (fuel + 2) s = flushRun env cfg (fuel + 1) S ∧
      S.events = s.events ++ [⟨s.widgetDoc, s.widgetDoc, ce⟩] ∧
      S.onChangeDisabled = false ∧ S.pendingDebounce = true ∧
      S.widgetDoc = d2 ∧ S.text = s.widgetDoc := by
  rw [flushRun_fire env cfg (fuel + 2) s hp,
      show fuel + 2 = fuel + 1 + 1 from rfl,
      onChangeCMV_fire env cfg (fuel + 1) _ (by simpa using hd)
        (by simpa using hne),
      emitOnChange_eq_react env cfg (fuel + 1) _ _ _ _ hr hon,
      validateRun_eq_noflush env cfg (fuel + 1) _ (by simp)]
  refine ⟨_, (memoValidate env s.memo s.widgetDoc cfg.validator).1, rfl,
    ?_, ?_, ?_, ?_, ?_⟩ <;> simp [hd]

/-- **C3** (code bug).  The re-entrancy guard does not exist in practice:
`onChangeDisabled` is initialized `false` (line 88) and never assigned
anywhere, so a widget-originated update arriving synchronously while a
change event is being emitted (a consumer that writes the widget and forces
a flush from inside its `onChange` handler) is *not* suppressed: it
re-enters the canonical-text update path and produces a second change event
within the same synchronous update. -/
theorem claim3_reentrant_update_not_suppressed (env : Env) (cfg : Config)
    (s : TMState) (d2 : String) (hr : env.react = some d2)
    (hd : s.onChangeDisabled = false) (hp : s.pendingDebounce = true)
    (hon : cfg.hasOnChange = true) (hne : s.widgetDoc ≠ s.text)
    (hne2 : d2 ≠ s.widgetDoc) :
    ∃ ce1 ce2, (debounceFire env cfg s).events
        = s.events ++ [⟨s.widgetDoc, s.widgetDoc, ce1⟩, ⟨d2, d2, ce2⟩] := by
  obtain ⟨S1, ce1, hstep1, hev1, hd1, hp1, hw1, ht1⟩ :=
    fire_step env cfg 1 s d2 hr hd hp hon hne
  have hstep1b : flushRun env cfg 3 s = flushRun env cfg 2 S1 := hstep1
  obtain ⟨S2, ce2, hstep2, hev2, hd2, hp2, hw2, ht2⟩ :=
    fire_step env cfg 0 S1 d2 hr hd1 hp1 hon (by rw [hw1, ht1]; exact hne2)
  have hstep2b : flushRun env cfg 2 S1 = flushRun env cfg 1 S2 := hstep2
  have hlast : flushRun env cfg 1 S2
      = onChangeCMV env cfg 1 { S2 with pendingDebounce := false } :=
    flushRun_fire env cfg 1 S2 hp2
  have hnoop : onChangeCMV env cfg (0 + 1) { S2 with pendingDebounce := false }
      = { { S2 with pendingDebounce := false } with
          codeMirrorText :=
            ({ S2 with pendingDebounce := false } : TMState).widgetDoc } :=
    onChangeCMV_noop env cfg 0 _ (by simpa using hd2)
      (by simp [hw2, ht2, hw1])
  have hnoopb : onChangeCMV env cfg 1 { S2 with pendingDebounce := false }
      = { { S2 with pendingDebounce := false } with
          codeMirrorText :=
            ({ S2 with pendingDebounce := false } : TMState).widgetDoc } :=
    hnoop
  refine ⟨ce1, ce2, ?_⟩
  simp only [debounceFire]
  rw [hstep1b, hstep2b, hlast, hnoopb]
  simp [hev2, hev1, hw1]

theorem claim3_witness :
    ∃ ce1 ce2,
      (debounceFire (envR "3") cfgW (widgetEdit (stW "1") "2")).events
        = (widgetEdit (stW "1") "2").events
          ++ [⟨(widgetEdit (stW "1") "2").widgetDoc,
               (widgetEdit (stW "1") "2").widgetDoc, ce1⟩,
              ⟨"3", "3", ce2⟩] :=
  claim3_reentrant_update_not_suppressed (envR "3") cfgW
    (widgetEdit (stW "1") "2") "3" rfl rfl rfl rfl (by decide) (by decide)


/-- **C4** (spec-modelled patch primitives).  For every JSON value `v`
parseable from the current text and every patch document applicable to it,
the exported `patch` returns the new value, the pre-patch value and an
inverse patch computed against the pre-patch value, and applying that
inverse patch to the new value restores a value deep-equal to the original
`v`.  (All values are immutable here, so `v` itself is untouched.) -/
theorem claim4_patch_undo_restores (env : Env) (cfg : Config) (s : TMState)
    (ops : List Op) (v v2 : JValue) (undo : List Op)
    (hparse : jsonParse s.text = some v) (hops : opsUK ops = true)
    (happly : applyPatch v ops = some v2)
    (hrevert : revertPatch v ops = some undo) :
    ∃ res, (patchRun env cfg s ops).2 = some res ∧
      res.previousJson = v ∧ res.json = v2 ∧ res.undo = undo ∧
      res.redo = ops ∧
      ∃ w, applyPatch v2 undo = some w ∧ jeq w v = true := by
  have hukv : ukB v = true := jsonParse_ukB s.text v hparse
  obtain ⟨w, hw, hjeq, -⟩ :=
    revertPatch_correct ops v v2 undo hukv hops happly hrevert
  refine ⟨⟨v2, v, undo, ops⟩, ?_, rfl, rfl, rfl, rfl, w, hw, hjeq⟩
  simp [patchRun, hparse, happly, hrevert]

theorem claim4_witness :
    ∃ res,
      (patchRun envW cfgW (stW "[1, 2]")
          [.replace [.idx 0] (.num 5)]).2 = some res ∧
      res.previousJson = JValue.arr (.cons (.num 1) (.cons (.num 2) .nil)) ∧
      res.json = JValue.arr (.cons (.num 5) (.cons (.num 2) .nil)) ∧
      res.undo = [.replace [.idx 0] (.num 1)] ∧
      res.redo = [.replace [.idx 0] (.num 5)] ∧
      ∃ w, applyPatch (JValue.arr (.cons (.num 5) (.cons (.num 2) .nil)))
          [.replace [.idx 0] (.num 1)] = some w ∧
        jeq w (JValue.arr (.cons (.num 1) (.cons (.num 2) .nil))) = true :=
  claim4_patch_undo_restores envW cfgW (stW "[1, 2]")
    [.replace [.idx 0] (.num 5)]
    (JValue.arr (.cons (.num 1) (.cons (.num 2) .nil)))
    (JValue.arr (.cons (.num 5) (.cons (.num 2) .nil)))
    [.replace [.idx 0] (.num 1)]
    (by simp [jsonParse, parseValue, parseItems, skipWs, isWs, takeDigits,
      digitsVal])
    (by decide)
    (by simp [applyPatch, applyOp, replaceJ, navEdit, replaceFin, JArr.getAt,
      JArr.setAt, JArr.length])
    (by simp [revertPatch, revertOps, applyOp, replaceJ, navEdit, replaceFin,
      getJ, JArr.getAt, JArr.setAt, JArr.length])

/-- **C5** (spec-modelled memoization).  Validation is memoized with a
depth-one cache keyed on the `(text, validator)` pair: a second `validate()`
on an unchanged state returns the same `ContentErrors` without running the
underlying `validateText` again (the run counter does not move), a single
`validate()` runs it at most once, and a cache keyed to a different
`(text, validator)` pair re-runs `validateText` exactly once. -/
theorem claim5_validation_memoized_depth_one (env : Env) (cfg : Config)
    (s : TMState) (hp : s.pendingDebounce = false) :
    (validateEntry env cfg (validateEntry env cfg s).1).2
      = (validateEntry env cfg s).2 ∧
    (validateEntry env cfg (validateEntry env cfg s).1).1.runs
      = (validateEntry env cfg s).1.runs ∧
    (validateEntry env cfg s).1.runs ≤ s.runs + 1 ∧
    (∀ (t t2 : String) (vl vl2 : Option Nat) (r : ContentErrors),
       (t2, vl2) ≠ (t, vl) →
       (memoValidate env (some ((t2, vl2), r)) t vl).2.2 = 1 ∧
       (memoValidate env (some ((t2, vl2), r)) t vl).1
         = validateText env t vl) := by
  have h1 : validateEntry env cfg s
      = (applyOutcome
           { s with
             memo := (memoValidate env s.memo s.text cfg.validator).2.1,
             runs := s.runs
               + (memoValidate env s.memo s.text cfg.validator).2.2 }
           (memoValidate env s.memo s.text cfg.validator).1,
         (memoValidate env s.memo s.text cfg.validator).1) :=
    validateRun_eq_noflush env cfg 3 s hp
  have hmemo : (validateEntry env cfg s).1.memo
      = some ((s.text, cfg.validator), (validateEntry env cfg s).2) := by
    rw [h1]
    simp [memoValidate_key]
  have htext : (validateEntry env cfg s).1.text = s.text := by
    rw [h1]; simp
  have hpend : (validateEntry env cfg s).1.pendingDebounce = false := by
    rw [h1]; simp [hp]
  have h2 : validateEntry env cfg (validateEntry env cfg s).1
      = (applyOutcome
           { (validateEntry env cfg s).1 with
             memo := (memoValidate env (validateEntry env cfg s).1.memo
               (validateEntry env cfg s).1.text cfg.validator).2.1,
             runs := (validateEntry env cfg s).1.runs
               + (memoValidate env (validateEntry env cfg s).1.memo
                   (validateEntry env cfg s).1.text cfg.validator).2.2 }
           (memoValidate env (validateEntry env cfg s).1.memo
             (validateEntry env cfg s).1.text cfg.validator).1,
         (memoValidate env (validateEntry env cfg s).1.memo
           (validateEntry env cfg s).1.text cfg.validator).1) :=
    validateRun_eq_noflush env cfg 3 _ hpend
  have hM2 : memoValidate env (validateEntry env cfg s).1.memo
      (validateEntry env cfg s).1.text cfg.validator
      = ((validateEntry env cfg s).2,
         some ((s.text, cfg.validator), (validateEntry env cfg s).2), 0) := by
    rw [hmemo, htext]
    exact memoValidate_hit env s.text cfg.validator _
  refine ⟨?_, ?_, ?_, ?_⟩
  · rw [h2, hM2]
  · rw [h2, hM2]
    simp
  · rw [h1]
    have := memoValidate_runs_le_one env s.memo s.text cfg.validator
    simp
    omega
  · intro t t2 vl vl2 r hne
    rw [memoValidate_miss env t t2 vl vl2 r hne]
    exact ⟨rfl, rfl⟩

theorem claim5_witness :
    (validateEntry envW cfgW (validateEntry envW cfgW (stW "1")).1).2
      = (validateEntry envW cfgW (stW "1")).2 ∧
    (validateEntry envW cfgW (validateEntry envW cfgW (stW "1")).1).1.runs
      = (validateEntry envW cfgW (stW "1")).1.runs ∧
    (validateEntry envW cfgW (stW "1")).1.runs ≤ (stW "1").runs + 1 ∧
    (∀ (t t2 : String) (vl vl2 : Option Nat) (r : ContentErrors),
       (t2, vl2) ≠ (t, vl) →
       (memoValidate envW (some ((t2, vl2), r)) t vl).2.2 = 1 ∧
       (memoValidate envW (some ((t2, vl2), r)) t vl).1
         = validateText envW t vl) :=
  claim5_validation_memoized_depth_one envW cfgW (stW "1") rfl

/-- **C6** (spec-modelled JSON builtins).  Format is idempotent: on valid
JSON text a second Format returns the very same state — in particular the
resulting text is identical and no second change event is emitted, because
re-serializing the re-parsed formatted text reproduces it exactly
(`parse_print_roundtrip`). -/
theorem claim6_format_idempotent (env : Env) (cfg : Config) (s : TMState)
    (j : JValue) (hr : env.react = none) (hp : s.pendingDebounce = false)
    (hro : cfg.readOnly = false) (hparse : jsonParse s.text = some j) :
    handleFormat env cfg (handleFormat env cfg s) = handleFormat env cfg s ∧
    (handleFormat env cfg (handleFormat env cfg s)).events
      = (handleFormat env cfg s).events := by
  have hukj : ukB j = true := jsonParse_ukB s.text j hparse
  have hT1 : jsonParse (jsonStringify cfg.indentation j) = some j :=
    parse_print_roundtrip cfg.indentation j hukj
  have htext : (handleFormat env cfg s).text = jsonStringify cfg.indentation j :=
    handleFormat_text env cfg s j hr hp hro hparse
  have hid : handleFormat env cfg (handleFormat env cfg s)
      = handleFormat env cfg s :=
    handleFormat_noop env cfg (handleFormat env cfg s) j hro
      (by rw [htext]; exact hT1) htext.symm
  exact ⟨hid, by rw [hid]⟩

theorem claim6_witness :
    handleFormat envW cfgW (handleFormat envW cfgW (stW "[1, 2]"))
      = handleFormat envW cfgW (stW "[1, 2]") ∧
    (handleFormat envW cfgW (handleFormat envW cfgW (stW "[1, 2]"))).events
      = (handleFormat envW cfgW (stW "[1, 2]")).events :=
  claim6_format_idempotent envW cfgW (stW "[1, 2]")
    (JValue.arr (.cons (.num 1) (.cons (.num 2) .nil)))
    rfl rfl rfl
    (by simp [jsonParse, parseValue, parseItems, skipWs, isWs, takeDigits,
      digitsVal])

/-- **C7**.  `validate()` first synchronously flushes the pending debounced
widget-text update: the flushed state's canonical text is the latest widget
text, nothing remains pending, and both the returned `ContentErrors` and
the final state's text are computed for that flushed text — never for the
stale pre-edit text. -/
theorem claim7_validate_flushes_first (env : Env) (cfg : Config) (s : TMState)
    (hr : env.react = none) (hd : s.onChangeDisabled = false)
    (hp : s.pendingDebounce = true) :
    (flushRun env cfg 3 s).text = s.widgetDoc ∧
    (flushRun env cfg 3 s).pendingDebounce = false ∧
    (validateEntry env cfg s).2
      = (memoValidate env (flushRun env cfg 3 s).memo s.widgetDoc
          cfg.validator).1 ∧
    (validateEntry env cfg s).1.text = s.widgetDoc := by
  have hf : (flushRun env cfg 3 s).text = s.widgetDoc ∧
      (flushRun env cfg 3 s).pendingDebounce = false :=
    flush_applies env cfg s 2 hr hd hp
  refine ⟨hf.1, hf.2, ?_, ?_⟩
  · simp only [validateEntry, validateRun]
    rw [hf.1]
  · simp only [validateEntry, validateRun]
    simp [hf.1]

theorem claim7_witness :
    (flushRun envW cfgW 3 (widgetEdit (stW "1") "2")).text
      = (widgetEdit (stW "1") "2").widgetDoc ∧
    (flushRun envW cfgW 3 (widgetEdit (stW "1") "2")).pendingDebounce
      = false ∧
    (validateEntry envW cfgW (widgetEdit (stW "1") "2")).2
      = (memoValidate envW (flushRun envW cfgW 3 (widgetEdit (stW "1") "2")).memo
          (widgetEdit (stW "1") "2").widgetDoc cfgW.validator).1 ∧
    (validateEntry envW cfgW (widgetEdit (stW "1") "2")).1.text
      = (widgetEdit (stW "1") "2").widgetDoc :=
  claim7_validate_flushes_first envW cfgW (widgetEdit (stW "1") "2")
    rfl rfl rfl

/-- **C8**.  Errors are surfaced, never thrown to the host.  On unparseable
text every one of the Format, Compact, Sort and Transform call sites catches
the parse exception and forwards it to `onError` (exactly one report, no
text change, no event), and a failing repair does the same at the Repair
call site.  The linter path returns the validation outcome as a plain
diagnostics list: the parse-error message when the (memoized) outcome is a
parse error, the semantic validation errors when it is not — in both cases
without emitting anything.  At the `validateText` level, a parse failure is
captured as a tagged `parseError` value and a parse success returns the
supplied validator's findings as a tagged `validationErrors` list. -/
theorem claim8_errors_reported_not_thrown (env : Env) (cfg : Config)
    (hro : cfg.readOnly = false) :
    (∀ s : TMState, jsonParse s.text = none →
       handleFormat env cfg s
           = { s with errorsReported := s.errorsReported + 1 } ∧
       handleCompact env cfg s
           = { s with errorsReported := s.errorsReported + 1 } ∧
       handleSort env cfg s
           = { s with errorsReported := s.errorsReported + 1 } ∧
       handleTransform env cfg s
           = { s with errorsReported := s.errorsReported + 1 } ∧
       openTransformModal env cfg s
           = { s with errorsReported := s.errorsReported + 1 }) ∧
    (∀ s : TMState, env.repairFn s.text = none →
       handleRepair env cfg s
           = { s with errorsReported := s.errorsReported + 1 }) ∧
    (∀ (s : TMState) (pe : String) (rep : Bool), s.pendingDebounce = false →
       (memoValidate env s.memo s.text cfg.validator).1 = .parseError pe rep →
       (linterCallback env cfg s).2 = [pe] ∧
       (linterCallback env cfg s).1.events = s.events) ∧
    (∀ (s : TMState) (ve : List String), s.pendingDebounce = false →
       (memoValidate env s.memo s.text cfg.validator).1
           = .validationErrors ve →
       (linterCallback env cfg s).2 = ve ∧
       (linterCallback env cfg s).1.events = s.events) ∧
    (∀ (t : String) (j : JValue) (vid : Nat), jsonParse t = some j →
       validateText env t (some vid)
           = .validationErrors (env.semValidate vid t)) ∧
    (∀ t : String, jsonParse t = none →
       validateText env t cfg.validator
           = .parseError (env.parseMsg t) (env.repairableQ t)) := by
  refine ⟨?_, ?_, ?_, ?_, ?_, ?_⟩
  · intro s hpf
    refine ⟨by simp [handleFormat, hro, hpf], by simp [handleCompact, hro, hpf],
      by simp [handleSort, hro, hpf],
      by simp [handleTransform, hro, openTransformModal, hpf],
      by simp [openTransformModal, hpf]⟩
  · intro s hrf
    simp [handleRepair, hro, hrf]
  · intro s pe rep hp hout
    constructor
    · simp [linterCallback, validateRun_eq_noflush env cfg 3 s hp, hout]
    · simp [linterCallback, validateRun_eq_noflush env cfg 3 s hp, hout]
  · intro s ve hp hout
    constructor
    · simp [linterCallback, validateRun_eq_noflush env cfg 3 s hp, hout]
    · simp [linterCallback, validateRun_eq_noflush env cfg 3 s hp, hout]
  · intro t j vid hps
    simp [validateText, hps]
  · intro t hpf
    simp [validateText, hpf]

theorem claim8_witness :
    (∀ s : TMState, jsonParse s.text = none →
       handleFormat envW cfgW s
           = { s with errorsReported := s.errorsReported + 1 } ∧
       handleCompact envW cfgW s
           = { s with errorsReported := s.errorsReported + 1 } ∧
       handleSort envW cfgW s
           = { s with errorsReported := s.errorsReported + 1 } ∧
       handleTransform envW cfgW s
           = { s with errorsReported := s.errorsReported + 1 } ∧
       openTransformModal envW cfgW s
           = { s with errorsReported := s.errorsReported + 1 }) ∧
    (∀ s : TMState, envW.repairFn s.text = none →
       handleRepair envW cfgW s
           = { s with errorsReported := s.errorsReported + 1 }) ∧
    (∀ (s : TMState) (pe : String) (rep : Bool), s.pendingDebounce = false →
       (memoValidate envW s.memo s.text cfgW.validator).1
           = .parseError pe rep →
       (linterCallback envW cfgW s).2 = [pe] ∧
       (linterCallback envW cfgW s).1.events = s.events) ∧
    (∀ (s : TMState) (ve : List String), s.pendingDebounce = false →
       (memoValidate envW s.memo s.text cfgW.validator).1
           = .validationErrors ve →
       (linterCallback envW cfgW s).2 = ve ∧
       (linterCallback envW cfgW s).1.events = s.events) ∧
    (∀ (t : String) (j : JValue) (vid : Nat), jsonParse t = some j →
       validateText envW t (some vid)
           = .validationErrors (envW.semValidate vid t)) ∧
    (∀ t : String, jsonParse t = none →
       validateText envW t cfgW.validator
           = .parseError (envW.parseMsg t) (envW.repairableQ t)) :=
  claim8_errors_reported_not_thrown envW cfgW rfl

/-- **C9**.  After every `validate()` exactly one outcome variant holds:
either a parse error is recorded (`jsonParseError` set, status `repairable`
or `invalid`, semantic error list emptied), or no parse error is recorded
(`jsonParseError` cleared, status `valid`) and only then may the semantic
error list be non-empty — a parse error and semantic errors never coexist. -/
theorem claim9_validation_outcome_exclusive (env : Env) (cfg : Config)
    (s : TMState) :
    ((∃ pe, (validateEntry env cfg s).1.jsonParseError = some pe) ∧
      ((validateEntry env cfg s).1.jsonStatus = JsonStatus.repairable ∨
       (validateEntry env cfg s).1.jsonStatus = JsonStatus.invalid) ∧
      (validateEntry env cfg s).1.validationErrors = []) ∨
    ((validateEntry env cfg s).1.jsonParseError = none ∧
      (validateEntry env cfg s).1.jsonStatus = JsonStatus.valid) := by
  simp only [validateEntry, validateRun]
  cases hce : (memoValidate env (flushRun env cfg 3 s).memo
      (flushRun env cfg 3 s).text cfg.validator).1 with
  | parseError pe rep =>
      left
      refine ⟨⟨pe, ?_⟩, ?_, ?_⟩ <;> cases rep <;> simp [applyOutcome, hce]
  | validationErrors ve =>
      right
      simp [applyOutcome, hce]

/-- **C10**.  The exported `patch` performs no read-only check: while the
document is read-only, a patch whose application changes the text still
rewrites the canonical text and emits a change event — whereas the
menu-level Format/Compact/Sort/Transform commands all return early. -/
theorem claim10_patch_ignores_readOnly (env : Env) (cfg : Config)
    (s : TMState) (ops : List Op) (v v2 : JValue) (undo : List Op)
    (hro : cfg.readOnly = true) (hr : env.react = none)
    (hp : s.pendingDebounce = false) (hon : cfg.hasOnChange = true)
    (hparse : jsonParse s.text = some v) (happly : applyPatch v ops = some v2)
    (hrevert : revertPatch v ops = some undo)
    (hne : jsonStringify cfg.indentation v2 ≠ s.text) :
    (patchRun env cfg s ops).1.text = jsonStringify cfg.indentation v2 ∧
    (∃ ce, (patchRun env cfg s ops).1.events
        = s.events ++ [⟨jsonStringify cfg.indentation v2, s.text, ce⟩]) ∧
    handleFormat env cfg s = s ∧ handleCompact env cfg s = s ∧
    handleSort env cfg s = s ∧ handleTransform env cfg s = s := by
  have h1 : patchRun env cfg s ops
      = (emitOnChange env cfg 3
          { s with text := jsonStringify cfg.indentation v2 }
          (jsonStringify cfg.indentation v2) s.text,
         some ⟨v2, v, undo, ops⟩) := by
    simp [patchRun, hparse, happly, hrevert, hne]
  refine ⟨?_, ⟨?_, ?_⟩, by simp [handleFormat, hro],
    by simp [handleCompact, hro], by simp [handleSort, hro],
    by simp [handleTransform, hro]⟩
  · rw [h1, emitOnChange_eq _ _ _ _ _ _ hr hon,
        validateRun_eq_noflush _ _ _ _ (by simp [hp])]
    simp
  case _ =>
    exact (memoValidate env s.memo (jsonStringify cfg.indentation v2)
      cfg.validator).1
  case _ =>
    rw [h1, emitOnChange_eq _ _ _ _ _ _ hr hon,
        validateRun_eq_noflush _ _ _ _ (by simp [hp])]
    simp

theorem claim10_witness :
    (patchRun envW cfgRO (stW "[1, 2]") [.replace [.idx 0] (.num 5)]).1.text
      = jsonStringify cfgRO.indentation
          (JValue.arr (.cons (.num 5) (.cons (.num 2) .nil))) ∧
    (∃ ce,
      (patchRun envW cfgRO (stW "[1, 2]")
          [.replace [.idx 0] (.num 5)]).1.events
        = (stW "[1, 2]").events
          ++ [⟨jsonStringify cfgRO.indentation
                 (JValue.arr (.cons (.num 5) (.cons (.num 2) .nil))),
               (stW "[1, 2]").text, ce⟩]) ∧
    handleFormat envW cfgRO (stW "[1, 2]") = stW "[1, 2]" ∧
    handleCompact envW cfgRO (stW "[1, 2]") = stW "[1, 2]" ∧
    handleSort envW cfgRO (stW "[1, 2]") = stW "[1, 2]" ∧
    handleTransform envW cfgRO (stW "[1, 2]") = stW "[1, 2]" :=
  claim10_patch_ignores_readOnly envW cfgRO (stW "[1, 2]")
    [.replace [.idx 0] (.num 5)]
    (JValue.arr (.cons (.num 1) (.cons (.num 2) .nil)))
    (JValue.arr (.cons (.num 5) (.cons (.num 2) .nil)))
    [.replace [.idx 0] (.num 1)]
    rfl rfl rfl rfl
    (by simp [jsonParse, parseValue, parseItems, skipWs, isWs, takeDigits,
      digitsVal])
    (by simp [applyPatch, applyOp, replaceJ, navEdit, replaceFin, JArr.getAt,
      JArr.setAt, JArr.length])
    (by simp [revertPatch, revertOps, applyOp, replaceJ, navEdit, replaceFin,
      getJ, JArr.getAt, JArr.setAt, JArr.length])
    (by simp [jsonStringify, printVal, printItems, intChars, natChars,
      natRevDigits, digitChar, cfgRO, stW])

end TextModeSpec
